import Mathlib

/-!
# Verification of the maze-builder growth algorithm

A shallow embedding of `src/mazes/square_maze.py` (class `SquareMaze`).

Modelling conventions:

* The numpy grid `self.__maze` (shape `width × height`, indexed `[x, y]`)
  becomes `grid : List (List Nat)`, a list of `width` columns of `height`
  cells.  numpy would wrap a negative index silently and raise `IndexError`
  for indices beyond the shape; we flag *every* access outside
  `[0,width) × [0,height)` as `Err.idxError`, and prove (claim C10) that no
  reachable run performs such an access, so the two semantics agree on all
  reachable runs.
* Python dicts (`self.__trees`, `self.__mappings`) become association lists
  that preserve insertion order: updating an existing key keeps its
  position, inserting a new key appends, exactly like Python 3.7+ dicts.
  A lookup of a missing key with `d[k]` raises, modelled by
  `Err.keyError`; `d.get(k)` returns `Option`.
* Randomness is threaded explicitly: `Rnd` carries streams for the
  per-position growth gates (`np.random.rand(1)[0]`), the subset sizes
  (`np.random.randint`) and the index choices of `random.sample`.  A raw
  draw that could never be produced by the library call (a gate outside
  `[0,1)`, a size outside `[1, n-1]`, an invalid index selection) is
  replaced by a canonical legal draw, so the model is total in the oracle
  while every legal library behaviour is realisable by some oracle.
* `random.sample(population, k)` raising `ValueError` when
  `k > len(population)` (the seeding failure) is modelled by
  `Err.valueError`.
-/

set_option maxHeartbeats 1000000
set_option maxRecDepth 100000

namespace MazeBuilder

/-- `BranchingStrategy` enum from `square_maze.py`. -/
inductive BranchingStrategy where
  | RANDOM
  | PARTIAL
  | FULL
deriving DecidableEq, Repr

/-- Runtime errors a Python run can raise (plus `idxError` for any numpy
access outside the true `[0,width) × [0,height)` box, see the header). -/
inductive Err where
  | valueError : Err
  | keyError : Nat → Err
  | idxError : Err
deriving DecidableEq, Repr

/-- Grid positions, signed like Python ints. -/
abbrev Pos := Int × Int

/-- The mutable state of a `SquareMaze` object. -/
structure St where
  width : Nat
  height : Nat
  rate : ℚ
  strategy : BranchingStrategy
  grid : List (List Nat)
  mappings : List (Nat × Nat)
  trees : List (Nat × List Pos)
  entry : Option Pos
  exit : Option Pos
deriving DecidableEq, Repr

/-- Explicit random oracle: streams of raw draws plus consumption counters. -/
structure Rnd where
  gates : Nat → ℚ
  gi : Nat
  sizes : Nat → Nat
  si : Nat
  picks : Nat → List Nat
  ki : Nat

/-- Ordered-dict lookup (`d.get(k)`). -/
def alGet {α : Type} (l : List (Nat × α)) (k : Nat) : Option α :=
  (l.find? (fun p => p.1 == k)).map (fun p => p.2)

/-- Ordered-dict update `d[k] = v`: existing key keeps its position,
new key is appended (Python 3 insertion order). -/
def alSet {α : Type} (l : List (Nat × α)) (k : Nat) (v : α) : List (Nat × α) :=
  if (l.find? (fun p => p.1 == k)).isSome then
    l.map (fun p => if p.1 == k then (k, v) else p)
  else l ++ [(k, v)]

/-- Ordered-dict deletion `del d[k]`. -/
def alDel {α : Type} (l : List (Nat × α)) (k : Nat) : List (Nat × α) :=
  l.filter (fun p => p.1 != k)

/-- Raw cell read at already-validated nonnegative indices. -/
def cellAt (s : St) (x y : Nat) : Nat := (s.grid.getD x []).getD y 0

/-- Is the (signed) index pair strictly inside the `width × height` box? -/
def inB (s : St) (x y : Int) : Bool :=
  decide (0 ≤ x) && decide (x < (s.width : Int)) &&
    decide (0 ≤ y) && decide (y < (s.height : Int))

/-- `self.__maze[x, y]` (read). -/
def readCell (s : St) (x y : Int) : Except Err Nat :=
  if inB s x y then .ok (cellAt s x.toNat y.toNat) else .error .idxError

/-- Functional update of a column-major grid. -/
def setCell (g : List (List Nat)) (x y v : Nat) : List (List Nat) :=
  g.set x ((g.getD x []).set y v)

/-- `self.__maze[x, y] = v` (write); `__activate` and `__erase` are this
with a fixed value. -/
def writeCell (s : St) (x y : Int) (v : Nat) : Except Err St :=
  if inB s x y then .ok { s with grid := setCell s.grid x.toNat y.toNat v }
  else .error .idxError

/-- Validity of a `random.sample` outcome: `k` distinct indices below the
population size. -/
def validPick (sel : List Nat) (len k : Nat) : Bool :=
  (sel.length == k) && decide sel.Nodup && sel.all (fun i => i < len)

/-- The oracle's index selection for one `random.sample(population, k)`
call, replaced by the first `k` indices when the raw draw is not a
legal selection. -/
def samplePick (sel : List Nat) (len k : Nat) : List Nat :=
  if validPick sel len k then sel else List.range k

/-- `random.sample(moves, k)` over a position list. -/
def sampleList (moves : List Pos) (k : Nat) (sel : List Nat) : List Pos :=
  (samplePick sel moves.length k).map (fun i => moves.getD i ((0 : Int), (0 : Int)))

/-- One `np.random.randint` draw. -/
def drawSize (r : Rnd) : Nat × Rnd := (r.sizes r.si, { r with si := r.si + 1 })

/-- One `random.sample` index-selection draw. -/
def drawPick (r : Rnd) : List Nat × Rnd := (r.picks r.ki, { r with ki := r.ki + 1 })

/-- One `np.random.rand(1)[0]` draw, coerced into `[0,1)`. -/
def drawGate (r : Rnd) : ℚ × Rnd :=
  (if 0 ≤ r.gates r.gi ∧ r.gates r.gi < 1 then r.gates r.gi else 0,
   { r with gi := r.gi + 1 })

/-- `SquareMaze.__new_branches`: subsample the available moves according to
the branching strategy. -/
def new_branches (s : St) (moves : List Pos) (r : Rnd) : List Pos × Rnd :=
  match s.strategy with
  | .RANDOM =>
    if moves.length > 1 then
      let (rawk, r1) := drawSize r
      let k := if 1 ≤ rawk ∧ rawk ≤ moves.length - 1 then rawk else 1
      let (sel, r2) := drawPick r1
      (sampleList moves k sel, r2)
    else (moves, r)
  | .PARTIAL =>
    let (sel, r1) := drawPick r
    (sampleList moves (min moves.length 2) sel, r1)
  | .FULL => (moves, r)

/-- `SquareMaze.__check_row`: the three cells `(x, y-1), (x, y), (x, y+1)`
are all unoccupied. -/
def check_row (s : St) (x y : Int) : Except Err Bool := do
  let a ← readCell s x (y - 1)
  let b ← readCell s x y
  let c ← readCell s x (y + 1)
  pure (a == 0 && b == 0 && c == 0)

/-- `SquareMaze.__check_col`: the three cells `(x-1, y), (x, y), (x+1, y)`
are all unoccupied. -/
def check_col (s : St) (x y : Int) : Except Err Bool := do
  let a ← readCell s (x - 1) y
  let b ← readCell s x y
  let c ← readCell s (x + 1) y
  pure (a == 0 && b == 0 && c == 0)

/-- `SquareMaze.__remap`: remap `tree1` onto `tree2` after a collision.
Skips when `tree1` was already removed this iteration; otherwise rewrites
the partition and moves `tree1`'s frontier onto `tree2`'s.  The lookup
`self.__trees[tree2]` raises `KeyError` when `tree2` is no longer a live
tree. -/
def remap (s : St) (tree1 tree2 : Nat) : Except Err St :=
  match alGet s.trees tree1 with
  | none => .ok s
  | some l1 =>
    let m1 := alSet s.mappings tree1 tree2
    let m2 := m1.map (fun p => if p.2 == tree1 then (p.1, tree2) else p)
    match alGet s.trees tree2 with
    | none => .error (.keyError tree2)
    | some l2 =>
      .ok { s with mappings := m2,
                   trees := alDel (alSet s.trees tree2 (l2 ++ l1)) tree1 }

/-- The shared loop body of `__check_and_join_row` / `__check_and_join_col`:
scan the three window cells in order; on the first occupied one, bridge and
merge when it resolves to a different tree, and report the window as not
free.  `(bx1, by1)` and `(bx2, by2)` are the one- and two-ahead bridge
cells. -/
def joinScan (s : St) (tree : Nat) (bx1 by1 bx2 by2 : Int) :
    List Nat → Except Err (St × Bool)
  | [] => .ok (s, true)
  | m :: rest =>
    if m == 0 then joinScan s tree bx1 by1 bx2 by2 rest
    else
      let main_tree := (alGet s.mappings m).getD tree
      if main_tree ≠ tree then do
        let s1 ← writeCell s bx1 by1 tree
        let s2 ← writeCell s1 bx2 by2 tree
        let s3 ← remap s2 tree main_tree
        pure (s3, false)
      else .ok (s, false)

/-- `SquareMaze.__check_and_join_row`. -/
def check_and_join_row (s : St) (x y : Int) (tree : Nat) (inc : Int) :
    Except Err (St × Bool) := do
  let m1 ← readCell s (x + 2 * inc) (y - 1)
  let m2 ← readCell s (x + 2 * inc) y
  let m3 ← readCell s (x + 2 * inc) (y + 1)
  joinScan s tree (x + inc) y (x + 2 * inc) y [m1, m2, m3]

/-- `SquareMaze.__check_and_join_col`. -/
def check_and_join_col (s : St) (x y : Int) (tree : Nat) (inc : Int) :
    Except Err (St × Bool) := do
  let m1 ← readCell s (x - 1) (y + 2 * inc)
  let m2 ← readCell s x (y + 2 * inc)
  let m3 ← readCell s (x + 1) (y + 2 * inc)
  joinScan s tree x (y + inc) x (y + 2 * inc) [m1, m2, m3]

/-- The guarded `y + 1` column check of `__free_spots` (the
`y + 2 < self.__height and self.__check_col(x, y + 1)` block). -/
def colCheck1 (s : St) (x y : Int) (tree : Nat) (slots : List Pos) :
    Except Err (St × List Pos) :=
  if y + 2 < (s.height : Int) then do
    let cc ← check_col s x (y + 1)
    if cc then do
      let (s', ok) ← check_and_join_col s x y tree 1
      pure (s', if ok then slots ++ [((x : Int), y + 1)] else slots)
    else pure (s, slots)
  else pure (s, slots)

/-- The guarded `y - 1` column check of `__free_spots` (the
`y > 1 and self.__check_col(x, y - 1)` block). -/
def colCheck2 (s : St) (x y : Int) (tree : Nat) (slots : List Pos) :
    Except Err (St × List Pos) :=
  if y > 1 then do
    let cc ← check_col s x (y - 1)
    if cc then do
      let (s', ok) ← check_and_join_col s x y tree (-1)
      pure (s', if ok then slots ++ [((x : Int), y - 1)] else slots)
    else pure (s, slots)
  else pure (s, slots)

/-- The two column checks at the end of `__free_spots`, in order. -/
def colChecks (s : St) (x y : Int) (tree : Nat) (slots : List Pos) :
    Except Err (St × List Pos) := do
  let (s1, slots1) ← colCheck1 s x y tree slots
  colCheck2 s1 x y tree slots1

/-- The `x + 1` row check of `__free_spots` (the `elif` arm, starting from
an empty slot list). -/
def rowCheck1 (s : St) (x y : Int) (tree : Nat) :
    Except Err (St × List Pos) := do
  let cr ← check_row s (x + 1) y
  if cr then do
    let (s', ok) ← check_and_join_row s x y tree 1
    pure (s', if ok then [((x + 1 : Int), y)] else ([] : List Pos))
  else pure (s, ([] : List Pos))

/-- The guarded `x - 1` row check of `__free_spots` (the `x > 1` arm). -/
def rowCheck2 (s : St) (x y : Int) (tree : Nat) (slots : List Pos) :
    Except Err (St × List Pos) := do
  let cr ← check_row s (x - 1) y
  if cr then do
    let (s', ok) ← check_and_join_row s x y tree (-1)
    pure (s', if ok then slots ++ [((x - 1 : Int), y)] else slots)
  else pure (s, slots)

/-- `SquareMaze.__free_spots`: candidate moves around a frontier position,
with the exit / entry special cases and the merge checks. -/
def free_spots (s : St) (pos : Pos) (tree : Nat) :
    Except Err (St × List Pos) :=
  match pos with
  | (x, y) =>
  if x + 2 == (s.width : Int) then
    if s.exit.isNone then do
      let s1 ← writeCell s (x + 1) y tree
      pure ({ s1 with exit := some (x + 1, y) }, [])
    else pure (s, [])
  else do
    let (s1, slots1) ← rowCheck1 s x y tree
    if x > 1 then do
      let (s2, slots2) ← rowCheck2 s1 x y tree slots1
      colChecks s2 x y tree slots2
    else if s1.entry.isNone then do
      let s2 ← writeCell s1 0 y tree
      pure ({ s2 with entry := some (0, y) }, [])
    else
      colChecks s1 x y tree slots1

/-- Activate a list of cells with a tree id (the loop in `__branch_out`). -/
def activateList (s : St) (tree : Nat) : List Pos → Except Err St
  | [] => .ok s
  | p :: rest => do
    let s' ← writeCell s p.1 p.2 tree
    activateList s' tree rest

/-- `SquareMaze.__branch_out`. -/
def branch_out (s : St) (pos : Pos) (tree : Nat) (r : Rnd) :
    Except Err (St × List Pos × Rnd) := do
  let (s1, spots) ← free_spots s pos tree
  let (moves, r1) := new_branches s1 spots r
  let s2 ← activateList s1 tree moves
  pure (s2, moves, r1)

/-- One step of the inner loop of `__build_iteration`: branch index `i`
of tree `tree`.  The gate draw is consumed only when `trees.get(tree)` is
truthy (Python short-circuit), and the position is removed from the live
frontier before `__branch_out` runs (list aliasing of `branches.pop(i)`). -/
def processBranch (s : St) (tree : Nat) (i : Nat) (r : Rnd) (heads : List Pos) :
    Except Err (St × Rnd × List Pos) :=
  match alGet s.trees tree with
  | none => .ok (s, r, heads)
  | some br =>
    if br.isEmpty then .ok (s, r, heads)
    else
      let (q, r1) := drawGate r
      if q < s.rate then do
        let pos := br.getD i ((0 : Int), (0 : Int))
        let s1 := { s with trees := alSet s.trees tree (br.eraseIdx i) }
        let (s2, moves, r2) ← branch_out s1 pos tree r1
        pure (s2, r2, heads ++ moves)
      else .ok (s, r1, heads)

/-- The descending branch loop `for i in range(len(branches)-1, -1, -1)`. -/
def loopBranches (tree : Nat) : Nat → St → Rnd → List Pos →
    Except Err (St × Rnd × List Pos)
  | 0, s, r, heads => .ok (s, r, heads)
  | i + 1, s, r, heads => do
    let (s', r', heads') ← processBranch s tree i r heads
    loopBranches tree i s' r' heads'

/-- Processing of one snapshotted tree inside `__build_iteration`:
`branches = self.__trees[tree]`, the branch loop, the re-attachment of the
collected heads and the empty-frontier deletion. -/
def processTree (s : St) (tree : Nat) (r : Rnd) : Except Err (St × Rnd) :=
  match alGet s.trees tree with
  | none => .error (.keyError tree)
  | some branches => do
    let (s1, r1, heads) ← loopBranches tree branches.length s r []
    match alGet s1.mappings tree with
    | none => .error (.keyError tree)
    | some mt =>
      match alGet s1.trees mt with
      | none => .error (.keyError mt)
      | some lst =>
        let s2 := { s1 with trees := alSet s1.trees mt (lst ++ heads) }
        if (lst ++ heads).isEmpty then
          pure ({ s2 with trees := alDel s2.trees mt }, r1)
        else pure (s2, r1)

/-- The snapshot loop over trees. -/
def loopTrees : St → List Nat → Rnd → Except Err (St × Rnd)
  | s, [], r => .ok (s, r)
  | s, t :: ts, r => do
    let (s', r') ← processTree s t r
    loopTrees s' ts r'

/-- `SquareMaze.__build_iteration`. -/
def buildIteration (s : St) (r : Rnd) : Except Err (St × Rnd) :=
  loopTrees s (s.trees.map (fun p => p.1)) r

/-- `SquareMaze.expand`: one iteration, reporting completion. -/
def expand (s : St) (r : Rnd) : Except Err (St × Rnd × Bool) :=
  (buildIteration s r).map (fun p => (p.1, p.2, p.1.trees.isEmpty))

/-- `k` repetitions of `__build_iteration` (the loop of `build`). -/
def runIter : Nat → St → Rnd → Except Err (St × Rnd)
  | 0, s, r => .ok (s, r)
  | k + 1, s, r => do
    let (s', r') ← buildIteration s r
    runIter k s' r'

/-- State component of an iterated run (discards the oracle). -/
def runState (k : Nat) (s : St) (r : Rnd) : Except Err St :=
  (runIter k s r).map (fun p => p.1)

/-- The coarse seed-slot count `(d - 4) // 5` of the constructor, as the
size of the sampled population (`range` of a negative number is empty). -/
def slots (d : Nat) : Nat := (d - 4) / 5

/-- The 5-cell plus-shaped seed cluster around center
`(2 + 5*vx, 2 + 5*vy)`, in the order the constructor builds it. -/
def seedCluster (vx vy : Nat) : List Pos :=
  [(((1 + 5 * vx : Nat) : Int), ((2 + 5 * vy : Nat) : Int)),
   (((2 + 5 * vx : Nat) : Int), ((2 + 5 * vy : Nat) : Int)),
   (((3 + 5 * vx : Nat) : Int), ((2 + 5 * vy : Nat) : Int)),
   (((2 + 5 * vx : Nat) : Int), ((1 + 5 * vy : Nat) : Int)),
   (((2 + 5 * vx : Nat) : Int), ((3 + 5 * vy : Nat) : Int))]

/-- Paint the seed clusters and record the initial frontiers
(the `enumerate` loop of the constructor). -/
def seedTrees (s : St) : List (Nat × Nat) → Nat → Except Err St
  | [], _ => .ok s
  | (vx, vy) :: rest, i => do
    let cells := seedCluster vx vy
    let s1 ← activateList s (i + 1) cells
    let s2 := { s1 with trees := alSet s1.trees (i + 1) cells }
    seedTrees s2 rest (i + 1)

/-- The identity partition `{i + 1: i + 1 for i in range(n)}`. -/
def initMappings (n : Nat) : List (Nat × Nat) :=
  (List.range n).map (fun i => (i + 1, i + 1))

/-- The all-zero `width × height` grid. -/
def mkGrid (w h : Nat) : List (List Nat) :=
  List.replicate w (List.replicate h 0)

/-- The constant `0.1` of the growth-rate clamp, written as a raw rational
so that concrete runs evaluate inside the kernel. -/
def ratTenth : ℚ := ⟨1, 10, by decide, by decide⟩

/-- `SquareMaze.__init__(width, height, n_trees, rate, strategy)`.
`random.sample` raises `ValueError` when asked for more seed slots than
exist in either dimension; otherwise the two sampled slot lists are zipped
and the clusters painted.  The stored rate is `max(0.1, rate)`. -/
def squareMazeInit (w h n : Nat) (rate : ℚ) (strat : BranchingStrategy)
    (r : Rnd) : Except Err (St × Rnd) :=
  if n ≤ slots w ∧ n ≤ slots h then
    let (selx, r1) := drawPick r
    let vxs := samplePick selx (slots w) n
    let (sely, r2) := drawPick r1
    let vys := samplePick sely (slots h) n
    let s0 : St := { width := w, height := h, strategy := strat,
                     rate := max ratTenth rate, grid := mkGrid w h,
                     mappings := initMappings n, trees := [],
                     entry := none, exit := none }
    (seedTrees s0 (vxs.zip vys) 0).map (fun s => (s, r2))
  else .error .valueError

/-! ## Concrete runs used as witnesses and counterexamples -/

/-- The rational `1/2`, as a raw literal that the kernel can evaluate. -/
def rHalf : ℚ := ⟨1, 2, by decide, by decide⟩

/-- The rational `9/10`. -/
def rNine : ℚ := ⟨9, 10, by decide, by decide⟩

/-- The rational `3/4`. -/
def rThree4 : ℚ := ⟨3, 4, by decide, by decide⟩

/-- A linear congruential generator used to build concrete random streams. -/
def lcg (x : Nat) : Nat := (x * 1103515245 + 12345) % 2147483648

/-- The `n`-th value of the LCG stream started at `seed`. -/
def lcgStream (seed : Nat) : Nat → Nat
  | 0 => lcg seed
  | n + 1 => lcg (lcgStream seed n)

/-- Extract the state of a successful construction (dummy state on error). -/
def stOf (e : Except Err (St × Rnd)) : St :=
  match e with
  | .ok (s, _) => s
  | .error _ =>
    { width := 0, height := 0, rate := 0, strategy := .FULL, grid := [],
      mappings := [], trees := [], entry := none, exit := none }

/-- Extract the oracle of a successful construction. -/
def rndOf (e : Except Err (St × Rnd)) (dflt : Rnd) : Rnd :=
  match e with
  | .ok (_, r) => r
  | .error _ => dflt

/-- Did the run abort with `KeyError(t)`? -/
def erredKey (e : Except Err St) (t : Nat) : Bool :=
  match e with
  | .error (.keyError u) => u == t
  | _ => false

/-- Canonical tree id of the occupant of cell `(x, y)` (0 when empty). -/
def canonAt (s : St) (x y : Nat) : Nat := (alGet s.mappings (cellAt s x y)).getD 0

/-- Pick stream of the crashing run: seeds at coarse slots `(2,0)` and
`(1,2)`, first candidate everywhere until draw 43, second candidate from
then on. -/
def c1picks : Nat → List Nat := fun ki =>
  if ki == 0 then [2, 1] else if ki == 1 then [0, 2] else
  if ki < 43 then [0] else [1]

/-- Oracle of the crashing run: every growth gate fires, every `randint`
draw is 1. -/
def c1rnd : Rnd :=
  { gates := fun _ => 0, gi := 0, sizes := fun _ => 1, si := 0,
    picks := c1picks, ki := 0 }

/-- The crashing construction: 19×19, two trees, rate 1, RANDOM strategy. -/
def c1init : Except Err (St × Rnd) := squareMazeInit 19 19 2 1 .RANDOM c1rnd

/-- State of the crashing construction. -/
def c1s : St := stOf c1init

/-- Oracle state right after the crashing construction. -/
def c1r : Rnd := rndOf c1init c1rnd

/-- Gate stream of the window-violation run: fires on three draws in
eight, following the LCG. -/
def c4gates : Nat → ℚ := fun i => if (lcgStream 0 i) % 8 < 3 then 0 else rThree4

/-- Oracle of the window-violation run. -/
def c4rnd : Rnd :=
  { gates := c4gates, gi := 0, sizes := fun _ => 1, si := 0,
    picks := fun _ => [1, 0], ki := 0 }

/-- The window-violation construction: 14×14, two trees, rate 1/2,
PARTIAL strategy, seeds at coarse slots `(1,1)` and `(0,0)`. -/
def c4init : Except Err (St × Rnd) := squareMazeInit 14 14 2 rHalf .PARTIAL c4rnd

/-- State of the window-violation construction. -/
def c4s : St := stOf c4init

/-- Oracle state right after the window-violation construction. -/
def c4r : Rnd := rndOf c4init c4rnd

/-- Oracle of the stalling run: every gate draw is `9/10`, above the rate. -/
def c2rnd : Rnd :=
  { gates := fun _ => rNine, gi := 0, sizes := fun _ => 1, si := 0,
    picks := fun _ => [0], ki := 0 }

/-- The stalling construction: 9×9, one tree, rate 1/2, FULL strategy. -/
def c2init : Except Err (St × Rnd) := squareMazeInit 9 9 1 rHalf .FULL c2rnd

/-- State of the stalling construction. -/
def c2s : St := stOf c2init

/-- Oracle state right after the stalling construction. -/
def c2r : Rnd := rndOf c2init c2rnd

/-! ## Elementary lemmas -/

theorem ok_bind {α β : Type} (a : α) (f : α → Except Err β) :
    (Except.ok a >>= f) = f a := rfl

theorem error_bind {α β : Type} (e : Err) (f : α → Except Err β) :
    ((Except.error e : Except Err α) >>= f) = Except.error e := rfl

theorem bind_eq_ok {α β : Type} {e : Except Err α} {f : α → Except Err β} {b : β} :
    (e >>= f) = .ok b ↔ ∃ a, e = .ok a ∧ f a = .ok b := by
  cases e with
  | ok a => simp [ok_bind]
  | error err => simp [error_bind]

theorem map_eq_ok {α β : Type} {e : Except Err α} {f : α → β} {b : β} :
    e.map f = .ok b ↔ ∃ a, e = .ok a ∧ f a = b := by
  cases e with
  | ok a => simp [Except.map]
  | error err => simp [Except.map]

/-- The clamp constant is the rational `1/10`. -/
theorem ratTenth_eq : ratTenth = 1 / 10 := by
  unfold ratTenth
  rw [Rat.mk'_eq_divInt, Rat.divInt_eq_div]
  norm_num

/-- A successful `writeCell` performs exactly the functional grid update. -/
theorem writeCell_ok {s s' : St} {x y : Int} {v : Nat}
    (h : writeCell s x y v = .ok s') :
    s' = { s with grid := setCell s.grid x.toNat y.toNat v } := by
  unfold writeCell at h
  split at h
  · exact (Except.ok.inj h).symm
  · cases h

/-- `activateList` only changes the grid. -/
theorem activateList_same {l : List Pos} {t : Nat} {s s' : St}
    (h : activateList s t l = .ok s') :
    s'.width = s.width ∧ s'.height = s.height ∧ s'.rate = s.rate ∧
    s'.strategy = s.strategy ∧ s'.mappings = s.mappings ∧ s'.trees = s.trees ∧
    s'.entry = s.entry ∧ s'.exit = s.exit := by
  induction l generalizing s with
  | nil =>
    unfold activateList at h
    cases h
    exact ⟨rfl, rfl, rfl, rfl, rfl, rfl, rfl, rfl⟩
  | cons p rest ih =>
    unfold activateList at h
    rw [bind_eq_ok] at h
    obtain ⟨s1, hw, hrest⟩ := h
    have h1 := writeCell_ok hw
    subst h1
    simpa using ih hrest

/-- `seedTrees` only changes the grid and the frontier map. -/
theorem seedTrees_same {l : List (Nat × Nat)} {i : Nat} {s s' : St}
    (h : seedTrees s l i = .ok s') :
    s'.width = s.width ∧ s'.height = s.height ∧ s'.rate = s.rate ∧
    s'.strategy = s.strategy ∧ s'.mappings = s.mappings ∧
    s'.entry = s.entry ∧ s'.exit = s.exit := by
  induction l generalizing s i with
  | nil =>
    unfold seedTrees at h
    cases h
    exact ⟨rfl, rfl, rfl, rfl, rfl, rfl, rfl⟩
  | cons p rest ih =>
    unfold seedTrees at h
    rw [bind_eq_ok] at h
    obtain ⟨s1, hact, hrest⟩ := h
    have ha := activateList_same hact
    have hr := ih hrest
    simp only at hr
    exact ⟨hr.1.trans ha.1, hr.2.1.trans ha.2.1, hr.2.2.1.trans ha.2.2.1,
      hr.2.2.2.1.trans ha.2.2.2.1, hr.2.2.2.2.1.trans ha.2.2.2.2.1,
      hr.2.2.2.2.2.1.trans ha.2.2.2.2.2.2.1, hr.2.2.2.2.2.2.trans ha.2.2.2.2.2.2.2⟩

/-- A successful construction stores `max(0.1, rate)` as the growth rate. -/
theorem squareMazeInit_ok_rate {w h n : Nat} {rate : ℚ}
    {strat : BranchingStrategy} {r : Rnd} {s : St} {r' : Rnd}
    (hok : squareMazeInit w h n rate strat r = .ok (s, r')) :
    s.rate = max ratTenth rate := by
  unfold squareMazeInit at hok
  split at hok
  · rw [map_eq_ok] at hok
    obtain ⟨s1, hseed, hpair⟩ := hok
    have := seedTrees_same hseed
    have hs : s = s1 := by
      have := congrArg Prod.fst hpair
      simpa using this.symm
    subst hs
    exact this.2.2.1
  · cases hok

/-- C7, amended — the effective growth rate is `max(0.1, rate)`: inputs
below `0.1` are raised to `0.1` and every other input, including inputs
above `1.0`, is kept unchanged (there is no upper clamp in the code). -/
theorem c7_rate_lower_clamp_only (w h n : Nat) (rate : ℚ)
    (strat : BranchingStrategy) (r : Rnd) (s : St) (r' : Rnd)
    (hok : squareMazeInit w h n rate strat r = .ok (s, r')) :
    s.rate = if rate < 1 / 10 then 1 / 10 else rate := by
  rw [squareMazeInit_ok_rate hok, ← ratTenth_eq]
  rcases lt_or_le rate ratTenth with hlt | hle
  · rw [if_pos hlt, max_eq_left hlt.le]
  · rw [if_neg (not_lt.mpr hle), max_eq_right hle]

/-- Witness for `c7_rate_lower_clamp_only` at the concrete 9×9 run. -/
theorem c7_rate_lower_clamp_only_witness :
    squareMazeInit 9 9 1 rHalf .FULL c2rnd = .ok (c2s, c2r) ∧
    c2s.rate = if rHalf < 1 / 10 then 1 / 10 else rHalf :=
  ⟨rfl, c7_rate_lower_clamp_only 9 9 1 rHalf .FULL c2rnd c2s c2r rfl⟩

/-- State of a construction with requested rate 2. -/
def c7s : St := stOf (squareMazeInit 9 9 1 2 .FULL c2rnd)

/-- C7 counterexample: a valid construction with requested rate 2 keeps
effective rate 2, which lies outside `[0.1, 1.0]` — the claimed upper
clamp to `1.0` does not exist. -/
theorem c7_counterexample :
    (squareMazeInit 9 9 1 2 .FULL c2rnd).isOk = true ∧
    c7s.rate = 2 ∧ ¬ c7s.rate ≤ 1 := by
  refine ⟨by decide, by decide, by decide⟩

/-! ## The branching-strategy filter (C9) -/

/-- The sanitised `random.sample` index selection is a valid selection. -/
theorem samplePick_spec (sel : List Nat) (len k : Nat) (hk : k ≤ len) :
    (samplePick sel len k).length = k ∧ (samplePick sel len k).Nodup ∧
    ∀ i ∈ samplePick sel len k, i < len := by
  unfold samplePick
  split
  · next hv =>
    unfold validPick at hv
    simp only [Bool.and_eq_true, beq_iff_eq, decide_eq_true_eq,
      List.all_eq_true, decide_eq_true_eq] at hv
    exact ⟨hv.1.1, hv.1.2, fun i hi => hv.2 i hi⟩
  · exact ⟨List.length_range k, List.nodup_range k,
      fun i hi => lt_of_lt_of_le (List.mem_range.mp hi) hk⟩

/-- `random.sample(moves, k)` returns `k` distinct elements of `moves`. -/
theorem sampleList_spec (moves : List Pos) (k : Nat) (sel : List Nat)
    (hk : k ≤ moves.length) (hnd : moves.Nodup) :
    (sampleList moves k sel).length = k ∧ sampleList moves k sel ⊆ moves ∧
    (sampleList moves k sel).Nodup := by
  obtain ⟨hl, hnd2, hlt⟩ := samplePick_spec sel moves.length k hk
  unfold sampleList
  refine ⟨by simpa using hl, ?_, ?_⟩
  · intro p hp
    simp only [List.mem_map] at hp
    obtain ⟨i, hi, hgd⟩ := hp
    have hilen := hlt i hi
    have : moves.getD i ((0 : Int), (0 : Int)) = moves[i] := by
      rw [List.getD_eq_getElem?_getD, List.getElem?_eq_getElem hilen]
      rfl
    rw [← hgd, this]
    exact List.getElem_mem hilen
  · refine List.Nodup.map_on ?_ hnd2
    intro i hi j hj hij
    have hi' := hlt i hi
    have hj' := hlt j hj
    rw [List.getD_eq_getElem?_getD, List.getElem?_eq_getElem hi',
      List.getD_eq_getElem?_getD, List.getElem?_eq_getElem hj'] at hij
    exact (List.Nodup.getElem_inj_iff hnd).mp hij

/-- C9: the branching-strategy filter always returns a duplicate-free
sub-list of the candidate moves; under FULL it returns all of them, under
PARTIAL exactly `min(|M|, 2)` of them, and under RANDOM all of them when
`|M| ≤ 1` and between 1 and `|M| - 1` of them otherwise. -/
theorem c9_new_branches_spec (s : St) (moves : List Pos) (r : Rnd)
    (hnd : moves.Nodup) :
    ((new_branches s moves r).1 ⊆ moves ∧ (new_branches s moves r).1.Nodup) ∧
    (s.strategy = .FULL → (new_branches s moves r).1 = moves) ∧
    (s.strategy = .PARTIAL →
      (new_branches s moves r).1.length = min moves.length 2) ∧
    (s.strategy = .RANDOM →
      (moves.length ≤ 1 → (new_branches s moves r).1 = moves) ∧
      (1 < moves.length →
        1 ≤ (new_branches s moves r).1.length ∧
        (new_branches s moves r).1.length ≤ moves.length - 1)) := by
  cases hst : s.strategy with
  | RANDOM =>
    by_cases hlen : moves.length > 1
    · have h2 : 1 < moves.length := hlen
      have hres : new_branches s moves r =
          (sampleList moves
            (if 1 ≤ (drawSize r).1 ∧ (drawSize r).1 ≤ moves.length - 1
              then (drawSize r).1 else 1) (drawPick (drawSize r).2).1,
           (drawPick (drawSize r).2).2) := by
        unfold new_branches
        rw [hst, if_pos hlen]
      have hk1 : 1 ≤ (if 1 ≤ (drawSize r).1 ∧ (drawSize r).1 ≤ moves.length - 1
            then (drawSize r).1 else 1) ∧
          (if 1 ≤ (drawSize r).1 ∧ (drawSize r).1 ≤ moves.length - 1
            then (drawSize r).1 else 1) ≤ moves.length - 1 := by
        split
        · next hcond => exact hcond
        · exact ⟨le_refl 1, Nat.le_sub_one_of_lt h2⟩
      have hkle := le_trans hk1.2 (Nat.sub_le moves.length 1)
      obtain ⟨hl, hsub, hnd'⟩ :=
        sampleList_spec moves _ (drawPick (drawSize r).2).1 hkle hnd
      rw [hres]
      refine ⟨⟨hsub, hnd'⟩, ?_, ?_, fun _ => ?_⟩
      · intro hc
        cases hc
      · intro hc
        cases hc
      refine ⟨fun hle => absurd h2 (not_lt.mpr hle), fun _ => ?_⟩
      constructor
      · exact le_trans hk1.1 (le_of_eq hl.symm)
      · exact le_trans (le_of_eq hl) hk1.2
    · have hle : moves.length ≤ 1 := not_lt.mp hlen
      have hres : new_branches s moves r = (moves, r) := by
        unfold new_branches
        rw [hst, if_neg hlen]
      rw [hres]
      refine ⟨⟨fun p hp => hp, hnd⟩, ?_, ?_,
        fun _ => ⟨fun _ => rfl, fun hgt => absurd hgt (not_lt.mpr hle)⟩⟩
      · intro hc
        cases hc
      · intro hc
        cases hc
  | PARTIAL =>
    have hres : new_branches s moves r =
        (sampleList moves (min moves.length 2) (drawPick r).1, (drawPick r).2) := by
      unfold new_branches
      rw [hst]
    obtain ⟨hl, hsub, hnd'⟩ :=
      sampleList_spec moves (min moves.length 2) (drawPick r).1 (min_le_left _ _) hnd
    rw [hres]
    refine ⟨⟨hsub, hnd'⟩, ?_, fun _ => hl, ?_⟩
    · intro hc
      cases hc
    · intro hc
      cases hc
  | FULL =>
    have hres : new_branches s moves r = (moves, r) := by
      unfold new_branches
      rw [hst]
    rw [hres]
    refine ⟨⟨fun p hp => hp, hnd⟩, fun _ => rfl, ?_, ?_⟩
    · intro hc
      cases hc
    · intro hc
      cases hc

/-- A concrete duplicate-free candidate-move list. -/
def c9moves : List Pos := [((3 : Int), (4 : Int)), ((5 : Int), (4 : Int))]

/-- Witness for `c9_new_branches_spec` on a concrete two-move list. -/
theorem c9_new_branches_spec_witness :
    c9moves.Nodup ∧
    (((new_branches c2s c9moves c2r).1 ⊆ c9moves ∧
        (new_branches c2s c9moves c2r).1.Nodup) ∧
      (c2s.strategy = .FULL → (new_branches c2s c9moves c2r).1 = c9moves) ∧
      (c2s.strategy = .PARTIAL →
        (new_branches c2s c9moves c2r).1.length = min c9moves.length 2) ∧
      (c2s.strategy = .RANDOM →
        (c9moves.length ≤ 1 → (new_branches c2s c9moves c2r).1 = c9moves) ∧
        (1 < c9moves.length →
          1 ≤ (new_branches c2s c9moves c2r).1.length ∧
          (new_branches c2s c9moves c2r).1.length ≤ c9moves.length - 1))) :=
  ⟨by decide, c9_new_branches_spec c2s c9moves c2r (by decide)⟩

/-! ## Construction (C8) -/

/-- The grid has exactly `width` columns of `height` cells each. -/
def GridDims (s : St) : Prop :=
  s.grid.length = s.width ∧ ∀ c ∈ s.grid, c.length = s.height

theorem mkGrid_dims (w h : Nat) :
    (mkGrid w h).length = w ∧ ∀ c ∈ mkGrid w h, c.length = h := by
  unfold mkGrid
  refine ⟨List.length_replicate _ _, fun c hc => ?_⟩
  rw [List.eq_of_mem_replicate hc]
  exact List.length_replicate _ _

theorem setCell_dims {g : List (List Nat)} {x y v : Nat} {w h : Nat}
    (hg : g.length = w ∧ ∀ c ∈ g, c.length = h) :
    (setCell g x y v).length = w ∧ ∀ c ∈ setCell g x y v, c.length = h := by
  refine ⟨by rw [setCell, List.length_set]; exact hg.1, fun c hc => ?_⟩
  unfold setCell at hc
  by_cases hx : x < g.length
  · rcases List.mem_or_eq_of_mem_set hc with hmem | rfl
    · exact hg.2 c hmem
    · rw [List.length_set]
      have hgd : g.getD x [] = g[x] := by
        rw [List.getD_eq_getElem?_getD, List.getElem?_eq_getElem hx]
        rfl
      rw [hgd]
      exact hg.2 _ (List.getElem_mem hx)
  · rw [List.set_eq_of_length_le (not_lt.mp hx)] at hc
    exact hg.2 c hc

/-- `writeCell` succeeds exactly on in-bounds indices and preserves the
grid shape and every non-grid field. -/
theorem writeCell_ok_of_inB {s : St} {x y : Int} {v : Nat}
    (h : inB s x y = true) :
    writeCell s x y v = .ok { s with grid := setCell s.grid x.toNat y.toNat v } := by
  unfold writeCell
  rw [if_pos h]

/-- `activateList` succeeds when every cell is in bounds, and only
changes the grid, preserving its shape. -/
theorem activateList_ok_of_bounds {l : List Pos} {t : Nat} {s : St}
    (hg : GridDims s) (hb : ∀ p ∈ l, inB s p.1 p.2 = true) :
    ∃ s', activateList s t l = .ok s' ∧ GridDims s' ∧
      s'.width = s.width ∧ s'.height = s.height ∧ s'.rate = s.rate ∧
      s'.strategy = s.strategy ∧ s'.mappings = s.mappings ∧
      s'.trees = s.trees ∧ s'.entry = s.entry ∧ s'.exit = s.exit := by
  induction l generalizing s with
  | nil => exact ⟨s, rfl, hg, rfl, rfl, rfl, rfl, rfl, rfl, rfl, rfl⟩
  | cons p rest ih =>
    have hw := writeCell_ok_of_inB (v := t) (hb p (List.mem_cons_self p rest))
    have hg1 : GridDims { s with grid := setCell s.grid p.1.toNat p.2.toNat t } :=
      setCell_dims hg
    have hb1 : ∀ q ∈ rest, inB { s with grid := setCell s.grid p.1.toNat p.2.toNat t } q.1 q.2 = true := by
      intro q hq
      have := hb q (List.mem_cons_of_mem p hq)
      unfold inB at this ⊢
      exact this
    obtain ⟨s', hok, hgd, hrest⟩ := ih hg1 hb1
    refine ⟨s', ?_, hgd, ?_⟩
    · unfold activateList
      rw [hw, ok_bind]
      exact hok
    · simpa using hrest

/-- The list of seeded trees built by the constructor's loop. -/
def seedList : List (Nat × Nat) → Nat → List (Nat × List Pos)
  | [], _ => []
  | v :: rest, i => (i + 1, seedCluster v.1 v.2) :: seedList rest (i + 1)

theorem seedList_length (lst : List (Nat × Nat)) (i : Nat) :
    (seedList lst i).length = lst.length := by
  induction lst generalizing i with
  | nil => rfl
  | cons v rest ih =>
    unfold seedList
    rw [List.length_cons, List.length_cons, ih]

theorem seedList_mem {lst : List (Nat × Nat)} {i : Nat} {q : Nat × List Pos}
    (h : q ∈ seedList lst i) : ∃ v ∈ lst, q.2 = seedCluster v.1 v.2 := by
  induction lst generalizing i with
  | nil => cases h
  | cons v rest ih =>
    unfold seedList at h
    rcases List.mem_cons.mp h with rfl | hmem
    · exact ⟨v, List.mem_cons_self v rest, rfl⟩
    · obtain ⟨v', hv', hq⟩ := ih hmem
      exact ⟨v', List.mem_cons_of_mem v hv', hq⟩

/-- Two seed clusters with different coarse x-slots are disjoint. -/
theorem seedCluster_disjoint {vx vy vx' vy' : Nat} (hne : vx ≠ vx') :
    ∀ c ∈ seedCluster vx vy, c ∉ seedCluster vx' vy' := by
  intro c hc hc'
  unfold seedCluster at hc hc'
  simp only [List.mem_cons, List.not_mem_nil, or_false] at hc hc'
  have hxne : (vx : Int) ≠ (vx' : Int) := by
    intro he
    exact hne (Int.ofNat_inj.mp he)
  rcases hc with rfl | rfl | rfl | rfl | rfl <;>
    rcases hc' with h | h | h | h | h <;>
    · have h1 := congrArg Prod.fst h
      simp only at h1
      omega

/-- The first components of a zip of a duplicate-free list are pairwise
distinct. -/
theorem pairwise_fst_zip {as bs : List Nat} (h : as.Nodup) :
    (as.zip bs).Pairwise (fun p q => p.1 ≠ q.1) := by
  induction as generalizing bs with
  | nil => simp
  | cons a rest ih =>
    cases bs with
    | nil => simp
    | cons b bs' =>
      rw [List.zip_cons_cons, List.pairwise_cons]
      rw [List.nodup_cons] at h
      refine ⟨fun q hq heq => ?_, ih h.2⟩
      have hmem : q.1 ∈ rest := (List.of_mem_zip hq).1
      have ha : a = q.1 := heq
      exact h.1 (ha.symm ▸ hmem)

/-- Clusters seeded from pairwise-distinct x-slots are pairwise disjoint. -/
theorem seedList_pairwise {lst : List (Nat × Nat)} {i : Nat}
    (h : lst.Pairwise (fun p q => p.1 ≠ q.1)) :
    (seedList lst i).Pairwise (fun p q => ∀ c ∈ p.2, c ∉ q.2) := by
  induction lst generalizing i with
  | nil => exact List.Pairwise.nil
  | cons v rest ih =>
    rw [List.pairwise_cons] at h
    unfold seedList
    rw [List.pairwise_cons]
    refine ⟨fun q hq => ?_, ih h.2⟩
    obtain ⟨v', hv', hq2⟩ := seedList_mem hq
    rw [hq2]
    exact seedCluster_disjoint (h.1 v' hv')

theorem seedList_cluster_len {lst : List (Nat × Nat)} {i : Nat} {q : Nat × List Pos}
    (h : q ∈ seedList lst i) : q.2.length = 5 := by
  obtain ⟨v, _, hq⟩ := seedList_mem h
  rw [hq]
  rfl

/-- The constructor's seeding loop succeeds when every cluster fits the
grid, appending exactly the seeded trees. -/
theorem seedTrees_ok {lst : List (Nat × Nat)} {i : Nat} {s : St}
    (hg : GridDims s)
    (hb : ∀ p ∈ lst, 3 + 5 * p.1 < s.width ∧ 3 + 5 * p.2 < s.height)
    (hkeys : ∀ p ∈ s.trees, p.1 < i + 1) :
    ∃ s', seedTrees s lst i = .ok s' ∧ s'.trees = s.trees ++ seedList lst i ∧
      GridDims s' ∧ s'.width = s.width ∧ s'.height = s.height ∧
      s'.rate = s.rate ∧ s'.strategy = s.strategy ∧ s'.mappings = s.mappings ∧
      s'.entry = s.entry ∧ s'.exit = s.exit := by
  induction lst generalizing s i with
  | nil =>
    refine ⟨s, rfl, ?_, hg, rfl, rfl, rfl, rfl, rfl, rfl, rfl⟩
    rw [seedList]
    rw [List.append_nil]
  | cons v rest ih =>
    have hcellb : ∀ p ∈ seedCluster v.1 v.2, inB s p.1 p.2 = true := by
      intro p hp
      have hv := hb v (List.mem_cons_self v rest)
      unfold seedCluster at hp
      unfold inB
      simp only [List.mem_cons, List.not_mem_nil, or_false] at hp
      simp only [Bool.and_eq_true, decide_eq_true_eq]
      rcases hp with rfl | rfl | rfl | rfl | rfl <;>
        refine ⟨⟨⟨by positivity, ?_⟩, by positivity⟩, ?_⟩ <;>
        · simp only []
          omega
    obtain ⟨s1, hact, hgd1, hw1, hh1, hr1, hst1, hm1, ht1, he1, hx1⟩ :=
      activateList_ok_of_bounds (t := i + 1) hg hcellb
    have hfind : s1.trees.find? (fun p => p.1 == i + 1) = none := by
      rw [ht1, List.find?_eq_none]
      intro q hq heq
      rw [beq_iff_eq] at heq
      have := hkeys q hq
      omega
    have hset : alSet s1.trees (i + 1) (seedCluster v.1 v.2) =
        s1.trees ++ [(i + 1, seedCluster v.1 v.2)] := by
      unfold alSet
      rw [hfind]
      rfl
    set s2 := { s1 with trees := alSet s1.trees (i + 1) (seedCluster v.1 v.2) } with hs2
    have hg2 : GridDims s2 := by
      constructor
      · exact hgd1.1
      · exact hgd1.2
    have hb2 : ∀ p ∈ rest, 3 + 5 * p.1 < s2.width ∧ 3 + 5 * p.2 < s2.height := by
      intro p hp
      have := hb p (List.mem_cons_of_mem v hp)
      rw [hs2]
      simp only []
      rw [hw1, hh1]
      exact this
    have hkeys2 : ∀ p ∈ s2.trees, p.1 < i + 2 := by
      intro p hp
      rw [hs2] at hp
      simp only [] at hp
      rw [hset] at hp
      rcases List.mem_append.mp hp with hmem | hmem
      · rw [ht1] at hmem
        have := hkeys p hmem
        omega
      · rcases List.mem_cons.mp hmem with rfl | hc
        · omega
        · cases hc
    obtain ⟨s', hok, htr, hgd', hw', hh', hr', hst', hm', he', hx'⟩ := ih hg2 hb2 hkeys2
    refine ⟨s', ?_, ?_, hgd', ?_, ?_, ?_, ?_, ?_, ?_, ?_⟩
    · unfold seedTrees
      rw [bind_eq_ok]
      exact ⟨s1, hact, hok⟩
    · rw [htr, hs2]
      simp only []
      rw [hset, ht1, seedList]
      rw [List.append_assoc]
      rfl
    · rw [hw', hs2]
      simp only []
      exact hw1
    · rw [hh', hs2]
      simp only []
      exact hh1
    · rw [hr', hs2]
      simp only []
      exact hr1
    · rw [hst', hs2]
      simp only []
      exact hst1
    · rw [hm', hs2]
      simp only []
      exact hm1
    · rw [he', hs2]
      simp only []
      exact he1
    · rw [hx', hs2]
      simp only []
      exact hx1

/-- C8: construction fails (with the `ValueError` of `random.sample`, and
producing no state) exactly when the requested tree count exceeds the
coarse seed-slot count `(width - 4) // 5` or `(height - 4) // 5`; otherwise
it succeeds and places exactly `treeCount` pairwise-disjoint 5-cell seed
clusters. -/
theorem c8_init_seeding (w h n : Nat) (rate : ℚ) (strat : BranchingStrategy)
    (r : Rnd) :
    (slots w < n ∨ slots h < n →
      squareMazeInit w h n rate strat r = .error .valueError) ∧
    (n ≤ slots w → n ≤ slots h →
      ∃ s r', squareMazeInit w h n rate strat r = .ok (s, r') ∧
        s.trees.length = n ∧ (∀ p ∈ s.trees, p.2.length = 5) ∧
        s.trees.Pairwise (fun p q => ∀ c ∈ p.2, c ∉ q.2)) := by
  constructor
  · intro hfail
    unfold squareMazeInit
    rw [if_neg]
    intro hc
    rcases hfail with hf | hf
    · omega
    · omega
  · intro h1 h2
    have hvxs := samplePick_spec (drawPick r).1 (slots w) n h1
    have hvys := samplePick_spec (drawPick (drawPick r).2).1 (slots h) n h2
    have hziplen :
        ((samplePick (drawPick r).1 (slots w) n).zip
          (samplePick (drawPick (drawPick r).2).1 (slots h) n)).length = n := by
      rw [List.length_zip, hvxs.1, hvys.1, min_self]
    have hzipb : ∀ p ∈ (samplePick (drawPick r).1 (slots w) n).zip
        (samplePick (drawPick (drawPick r).2).1 (slots h) n),
        3 + 5 * p.1 < w ∧ 3 + 5 * p.2 < h := by
      intro p hp
      have hx := hvxs.2.2 p.1 (List.of_mem_zip hp).1
      have hy := hvys.2.2 p.2 (List.of_mem_zip hp).2
      have hx5 := Nat.mul_le_mul_right 5 (Nat.succ_le_of_lt hx)
      have hy5 := Nat.mul_le_mul_right 5 (Nat.succ_le_of_lt hy)
      have hwd := Nat.div_mul_le_self (w - 4) 5
      have hhd := Nat.div_mul_le_self (h - 4) 5
      unfold slots at hx5 hy5
      omega
    set s0 : St := { width := w, height := h, strategy := strat,
                     rate := max ratTenth rate, grid := mkGrid w h,
                     mappings := initMappings n, trees := [],
                     entry := none, exit := none } with hs0
    have hg0 : GridDims s0 := by
      constructor
      · exact (mkGrid_dims w h).1
      · exact (mkGrid_dims w h).2
    have hb0 : ∀ p ∈ (samplePick (drawPick r).1 (slots w) n).zip
        (samplePick (drawPick (drawPick r).2).1 (slots h) n),
        3 + 5 * p.1 < s0.width ∧ 3 + 5 * p.2 < s0.height := hzipb
    obtain ⟨s', hok, htr, hgd', hrest⟩ :=
      seedTrees_ok (i := 0) hg0 hb0 (fun p hp => absurd hp (List.not_mem_nil p))
    refine ⟨s', (drawPick (drawPick r).2).2, ?_, ?_, ?_, ?_⟩
    · unfold squareMazeInit
      rw [if_pos ⟨h1, h2⟩]
      show (seedTrees s0 ((samplePick (drawPick r).1 (slots w) n).zip
          (samplePick (drawPick (drawPick r).2).1 (slots h) n)) 0).map
          (fun s => (s, (drawPick (drawPick r).2).2)) =
        .ok (s', (drawPick (drawPick r).2).2)
      rw [hok]
      rfl
    · rw [htr]
      simp only [List.nil_append]
      rw [seedList_length]
      exact hziplen
    · intro p hp
      rw [htr] at hp
      simp only [List.nil_append] at hp
      exact seedList_cluster_len hp
    · rw [htr]
      simp only [List.nil_append]
      exact seedList_pairwise (pairwise_fst_zip hvxs.2.1)

/-- Witness for `c8_init_seeding`: 9×9 rejects two trees and seeds one. -/
theorem c8_init_seeding_witness :
    squareMazeInit 9 9 2 rHalf .FULL c2rnd = .error .valueError ∧
    ∃ s r', squareMazeInit 9 9 1 rHalf .FULL c2rnd = .ok (s, r') ∧
      s.trees.length = 1 ∧ (∀ p ∈ s.trees, p.2.length = 5) ∧
      s.trees.Pairwise (fun p q => ∀ c ∈ p.2, c ∉ q.2) :=
  ⟨(c8_init_seeding 9 9 2 rHalf .FULL c2rnd).1 (Or.inl (by decide)),
   (c8_init_seeding 9 9 1 rHalf .FULL c2rnd).2 (by decide) (by decide)⟩

/-! ## Association-list lemmas -/

theorem find_map_eq_of_present {α : Type} {k : Nat} (v : α) :
    ∀ {l : List (Nat × α)}, (l.find? (fun p => p.1 == k)).isSome = true →
      (l.map (fun p => if p.1 == k then (k, v) else p)).find?
        (fun p => p.1 == k) = some (k, v)
  | [], h => by cases h
  | p :: rest, h => by
      by_cases hp : p.1 = k
      · simp [List.find?_cons, hp]
      · have hbeq : (p.1 == k) = false := beq_eq_false_iff_ne.mpr hp
        have h' : (rest.find? (fun p => p.1 == k)).isSome = true := by
          rw [List.find?_cons, hbeq] at h
          exact h
        rw [List.map_cons, if_neg (by rw [hbeq]; intro hc; cases hc),
          List.find?_cons, hbeq]
        exact find_map_eq_of_present v h'

theorem alGet_alSet_self {α : Type} (l : List (Nat × α)) (k : Nat) (v : α) :
    alGet (alSet l k v) k = some v := by
  unfold alSet
  split
  · next hsome =>
    unfold alGet
    rw [find_map_eq_of_present v hsome]
    rfl
  · unfold alGet
    next hns =>
    rw [List.find?_append]
    have hnone : l.find? (fun p => p.1 == k) = none := by
      rcases Option.eq_none_or_eq_some (l.find? (fun p => p.1 == k)) with h | ⟨a, h⟩
      · exact h
      · exact absurd (by rw [h]; rfl) hns
    rw [hnone]
    simp [List.find?]

theorem find_map_ne {α : Type} {k k' : Nat} (v : α) (hne : k' ≠ k) :
    ∀ (l : List (Nat × α)),
      (l.map (fun p => if p.1 == k then (k, v) else p)).find?
        (fun p => p.1 == k') = l.find? (fun p => p.1 == k')
  | [] => rfl
  | p :: rest => by
      by_cases hp : p.1 = k
      · have hbeq : ((k : Nat) == k') = false :=
          beq_eq_false_iff_ne.mpr (fun hc => hne hc.symm)
        have hbeq2 : (p.1 == k') = false :=
          beq_eq_false_iff_ne.mpr (by rw [hp]; exact fun hc => hne hc.symm)
        rw [List.map_cons, if_pos (beq_iff_eq.mpr hp), List.find?_cons, hbeq,
          List.find?_cons, hbeq2]
        exact find_map_ne v hne rest
      · have hbeq : (p.1 == k) = false := beq_eq_false_iff_ne.mpr hp
        rw [List.map_cons, if_neg (by rw [hbeq]; intro hc; cases hc),
          List.find?_cons, List.find?_cons]
        by_cases hp' : p.1 = k'
        · rw [beq_iff_eq.mpr hp']
        · rw [beq_eq_false_iff_ne.mpr hp']
          exact find_map_ne v hne rest

theorem alGet_alSet_ne {α : Type} (l : List (Nat × α)) (k k' : Nat) (v : α)
    (hne : k' ≠ k) : alGet (alSet l k v) k' = alGet l k' := by
  unfold alSet
  split
  · unfold alGet
    rw [find_map_ne v hne l]
  · unfold alGet
    rw [List.find?_append]
    have : List.find? (fun p => p.1 == k') [(k, v)] = none := by
      simp [List.find?, beq_eq_false_iff_ne.mpr (fun hc : k = k' => hne hc.symm)]
    rw [this]
    cases List.find? (fun p => p.1 == k') l <;> rfl

theorem alGet_alDel_self {α : Type} (l : List (Nat × α)) (k : Nat) :
    alGet (alDel l k) k = none := by
  unfold alGet alDel
  rw [Option.map_eq_none']
  rw [List.find?_eq_none]
  intro p hp
  have := List.of_mem_filter hp
  simp only [bne_iff_ne, ne_eq] at this
  simp only [beq_iff_eq]
  exact this

theorem alGet_alDel_ne {α : Type} (l : List (Nat × α)) (k k' : Nat)
    (hne : k' ≠ k) : alGet (alDel l k) k' = alGet l k' := by
  unfold alGet alDel
  induction l with
  | nil => rfl
  | cons p rest ih =>
    by_cases hp : p.1 = k
    · have hb : (p.1 != k) = false := by simp [bne, hp]
      have hbeq2 : (p.1 == k') = false :=
        beq_eq_false_iff_ne.mpr (by rw [hp]; exact fun hc => hne hc.symm)
      simp only [List.filter_cons, hb, Bool.false_eq_true, if_false,
        List.find?_cons, hbeq2]
      exact ih
    · have hb : (p.1 != k) = true := by simp [bne, hp]
      simp only [List.filter_cons, hb, if_true, List.find?_cons]
      by_cases hp' : p.1 = k'
      · simp [beq_iff_eq.mpr hp']
      · simp only [beq_eq_false_iff_ne.mpr hp']
        exact ih

theorem mem_alSet {α : Type} {l : List (Nat × α)} {k : Nat} {v : α}
    {p : Nat × α} (hp : p ∈ alSet l k v) : p ∈ l ∨ p = (k, v) := by
  unfold alSet at hp
  split at hp
  · rcases List.mem_map.mp hp with ⟨q, hq, hqe⟩
    by_cases hqk : q.1 = k
    · right
      rw [← hqe, if_pos (beq_iff_eq.mpr hqk)]
    · left
      rw [← hqe, if_neg (by rw [beq_eq_false_iff_ne.mpr hqk]; intro hc; cases hc)]
      exact hq
  · rcases List.mem_append.mp hp with hmem | hmem
    · exact Or.inl hmem
    · exact Or.inr (List.mem_singleton.mp hmem)

theorem mem_alDel {α : Type} {l : List (Nat × α)} {k : Nat} {p : Nat × α}
    (hp : p ∈ alDel l k) : p ∈ l ∧ p.1 ≠ k := by
  unfold alDel at hp
  refine ⟨List.mem_of_mem_filter hp, ?_⟩
  have := List.of_mem_filter hp
  simpa using this

theorem alSet_length {α : Type} (l : List (Nat × α)) (k : Nat) (v : α)
    (hpresent : (l.find? (fun p => p.1 == k)).isSome = true) :
    (alSet l k v).length = l.length := by
  unfold alSet
  rw [if_pos hpresent]
  exact List.length_map l _

theorem alDel_length_le {α : Type} (l : List (Nat × α)) (k : Nat) :
    (alDel l k).length ≤ l.length :=
  List.length_filter_le _ l

theorem alDel_length_lt {α : Type} {l : List (Nat × α)} {k : Nat} {v : α}
    (hmem : (k, v) ∈ l) : (alDel l k).length < l.length := by
  unfold alDel
  apply List.length_filter_lt_length_iff_exists.mpr
  exact ⟨(k, v), hmem, by simp⟩

theorem alGet_mem {α : Type} {l : List (Nat × α)} {k : Nat} {v : α}
    (h : alGet l k = some v) : (k, v) ∈ l := by
  unfold alGet at h
  rcases Option.map_eq_some'.mp h with ⟨p, hfind, hv⟩
  have hkey := List.find?_some hfind
  rw [beq_iff_eq] at hkey
  have hmem := List.mem_of_find?_eq_some hfind
  have : p = (k, v) := by
    rw [← hkey, ← hv]
  rw [← this]
  exact hmem

theorem alGet_isSome_of_mem {α : Type} {l : List (Nat × α)} {p : Nat × α}
    (h : p ∈ l) : (alGet l p.1).isSome = true := by
  unfold alGet
  have hs : (l.find? (fun q => q.1 == p.1)).isSome = true := by
    rw [List.find?_isSome]
    exact ⟨p, h, by simp⟩
  rcases Option.isSome_iff_exists.mp hs with ⟨q, hq⟩
  rw [hq]
  rfl

/-- Value-rewriting map used by `remap`: lookups through it are the old
lookups with the substitution applied. -/
theorem alGet_subst {l : List (Nat × Nat)} {t1 t2 : Nat} (k : Nat) :
    alGet (l.map (fun p => if p.2 == t1 then (p.1, t2) else p)) k =
      (alGet l k).map (fun v => if v = t1 then t2 else v) := by
  unfold alGet
  induction l with
  | nil => rfl
  | cons p rest ih =>
    rw [List.map_cons, List.find?_cons, List.find?_cons]
    by_cases hv : p.2 = t1
    · simp only [hv, beq_self_eq_true, if_true]
      by_cases hk : p.1 = k
      · simp [hk, hv]
      · simp only [beq_eq_false_iff_ne.mpr hk]
        exact ih
    · have hb : (p.2 == t1) = false := beq_eq_false_iff_ne.mpr hv
      simp only [hb, Bool.false_eq_true, if_false]
      by_cases hk : p.1 = k
      · simp [hk, hv]
      · simp only [beq_eq_false_iff_ne.mpr hk]
        exact ih

/-! ## Invariant, transition bundle and measure -/

theorem cellAt_write_self {s : St} {x y v : Nat}
    (hx : x < s.grid.length) (hy : y < (s.grid.getD x []).length) :
    cellAt { s with grid := setCell s.grid x y v } x y = v := by
  show ((s.grid.set x ((s.grid.getD x []).set y v)).getD x []).getD y 0 = v
  rw [show (s.grid.set x ((s.grid.getD x []).set y v)).getD x [] =
      (s.grid.getD x []).set y v from by
    rw [List.getD_eq_getElem?_getD, List.getElem?_set_self hx]
    rfl]
  rw [List.getD_eq_getElem?_getD, List.getElem?_set_self hy]
  rfl

theorem cellAt_write_other {s : St} {x y v a b : Nat} (h : a ≠ x ∨ b ≠ y) :
    cellAt { s with grid := setCell s.grid x y v } a b = cellAt s a b := by
  show ((s.grid.set x ((s.grid.getD x []).set y v)).getD a []).getD b 0 =
    (s.grid.getD a []).getD b 0
  by_cases hax : a = x
  · subst hax
    have hb : b ≠ y := by
      rcases h with h | h
      · exact absurd rfl h
      · exact h
    by_cases hx : a < s.grid.length
    · rw [show (s.grid.set a ((s.grid.getD a []).set y v)).getD a [] =
          (s.grid.getD a []).set y v from by
        rw [List.getD_eq_getElem?_getD, List.getElem?_set_self hx]
        rfl]
      rw [List.getD_eq_getElem?_getD, List.getElem?_set_ne (fun hc => hb hc.symm),
        ← List.getD_eq_getElem?_getD]
    · rw [List.set_eq_of_length_le (not_lt.mp hx)]
  · rw [show (s.grid.set x ((s.grid.getD x []).set y v)).getD a [] =
        s.grid.getD a [] from by
      rw [List.getD_eq_getElem?_getD, List.getElem?_set_ne (fun hc => hax hc.symm),
        ← List.getD_eq_getElem?_getD]]

/-- The joint invariant of all reachable states: grid shape, frontier
positions strictly inside the border band, positive tree ids, a flat
partition whose values are fixed points, live trees canonical, and
entry/exit pinned to their edges. -/
structure Inv (s : St) : Prop where
  dims : GridDims s
  tpos : ∀ p ∈ s.trees, ∀ q ∈ p.2,
    1 ≤ q.1 ∧ q.1 ≤ (s.width : Int) - 2 ∧ 1 ≤ q.2 ∧ q.2 ≤ (s.height : Int) - 2
  tkeys : ∀ p ∈ s.trees, 1 ≤ p.1
  mkeys : ∀ p ∈ s.mappings, 1 ≤ p.1 ∧ 1 ≤ p.2
  flat : ∀ p ∈ s.mappings, alGet s.mappings p.2 = some p.2
  livecan : ∀ p ∈ s.trees, alGet s.mappings p.1 = some p.1
  ent : ∀ q : Pos, s.entry = some q →
    q.1 = 0 ∧ 0 ≤ q.2 ∧ q.2 < (s.height : Int)
  ext : ∀ q : Pos, s.exit = some q →
    q.1 = (s.width : Int) - 1 ∧ 0 ≤ q.2 ∧ q.2 < (s.height : Int)

/-- Monotone evolution of the partition: every defined lookup stays
defined, and a lookup and the lookup of its old value agree afterwards
(so chains stay resolved). -/
def MapEvolve (m m' : List (Nat × Nat)) : Prop :=
  ∀ r a, alGet m r = some a → ∃ b, alGet m' r = some b ∧ alGet m' a = some b

theorem mapEvolveTrans {m1 m2 m3 : List (Nat × Nat)}
    (h12 : MapEvolve m1 m2) (h23 : MapEvolve m2 m3) : MapEvolve m1 m3 := by
  intro r a h1
  obtain ⟨b, hr2, ha2⟩ := h12 r a h1
  obtain ⟨c, hr3, hb3⟩ := h23 r b hr2
  obtain ⟨d, ha3, hb3'⟩ := h23 a b ha2
  rw [hb3] at hb3'
  rcases Option.some.inj hb3' with rfl
  exact ⟨c, hr3, ha3⟩

/-- The cells of the grid box. -/
def box (s : St) : Finset (Nat × Nat) :=
  Finset.range s.width ×ˢ Finset.range s.height

/-- Number of unoccupied cells. -/
def unocc (s : St) : Nat :=
  ((box s).filter (fun p => cellAt s p.1 p.2 = 0)).card

/-- Number of occupied cells. -/
def occCount (s : St) : Nat :=
  ((box s).filter (fun p => cellAt s p.1 p.2 ≠ 0)).card

/-- Termination measure: unoccupied cells plus live trees. -/
def meas (s : St) : Nat := unocc s + s.trees.length

theorem unocc_mono {s s' : St} (hw : s'.width = s.width)
    (hh : s'.height = s.height)
    (hcell : ∀ x y, cellAt s x y ≠ 0 → cellAt s' x y ≠ 0) :
    unocc s' ≤ unocc s := by
  unfold unocc box
  rw [hw, hh]
  apply Finset.card_le_card
  intro p hp
  rw [Finset.mem_filter] at hp ⊢
  refine ⟨hp.1, ?_⟩
  by_contra hne
  exact hcell p.1 p.2 hne hp.2

theorem occCount_mono {s s' : St} (hw : s'.width = s.width)
    (hh : s'.height = s.height)
    (hcell : ∀ x y, cellAt s x y ≠ 0 → cellAt s' x y ≠ 0) :
    occCount s ≤ occCount s' := by
  unfold occCount box
  rw [hw, hh]
  apply Finset.card_le_card
  intro p hp
  rw [Finset.mem_filter] at hp ⊢
  exact ⟨hp.1, hcell p.1 p.2 hp.2⟩

/-- Everything each successful operation of the growth loop preserves. -/
structure Evo (s s' : St) : Prop where
  w : s'.width = s.width
  h : s'.height = s.height
  rt : s'.rate = s.rate
  stg : s'.strategy = s.strategy
  inv : Inv s'
  ent : ∀ p : Pos, s.entry = some p → s'.entry = some p
  ext : ∀ p : Pos, s.exit = some p → s'.exit = some p
  grid : ∀ x y, cellAt s x y ≠ 0 → cellAt s' x y ≠ 0
  maps : MapEvolve s.mappings s'.mappings
  mu : meas s' ≤ meas s

theorem Evo.refl {s : St} (hinv : Inv s) : Evo s s := by
  refine ⟨rfl, rfl, rfl, rfl, hinv, fun p hp => hp, fun p hp => hp,
    fun x y hx => hx, ?_, le_refl _⟩
  intro r a h1
  exact ⟨a, h1, hinv.flat (r, a) (alGet_mem h1)⟩

theorem evoTrans {s1 s2 s3 : St} (h12 : Evo s1 s2) (h23 : Evo s2 s3) :
    Evo s1 s3 := by
  refine ⟨h23.w.trans h12.w, h23.h.trans h12.h, h23.rt.trans h12.rt,
    h23.stg.trans h12.stg, h23.inv, fun p hp => h23.ent p (h12.ent p hp),
    fun p hp => h23.ext p (h12.ext p hp),
    fun x y hx => h23.grid x y (h12.grid x y hx),
    mapEvolveTrans h12.maps h23.maps, le_trans h23.mu h12.mu⟩

/-! ## Evolution lemmas for the primitive operations -/

theorem Inv.withGrid {s : St} (hinv : Inv s) {g : List (List Nat)}
    (hg : g.length = s.width ∧ ∀ c ∈ g, c.length = s.height) :
    Inv { s with grid := g } :=
  ⟨⟨hg.1, hg.2⟩, hinv.tpos, hinv.tkeys, hinv.mkeys, hinv.flat, hinv.livecan,
    hinv.ent, hinv.ext⟩

theorem readCell_ok {s : St} {x y : Int} {c : Nat}
    (h : readCell s x y = .ok c) :
    inB s x y = true ∧ c = cellAt s x.toNat y.toNat := by
  unfold readCell at h
  split at h
  · next hb => exact ⟨hb, (Except.ok.inj h).symm⟩
  · cases h

theorem inB_elim {s : St} {x y : Int} (h : inB s x y = true) :
    0 ≤ x ∧ x < (s.width : Int) ∧ 0 ≤ y ∧ y < (s.height : Int) := by
  unfold inB at h
  simp only [Bool.and_eq_true, decide_eq_true_eq] at h
  exact ⟨h.1.1.1, h.1.1.2, h.1.2, h.2⟩

theorem writeCell_ok_inB {s s' : St} {x y : Int} {v : Nat}
    (hok : writeCell s x y v = .ok s') : inB s x y = true := by
  unfold writeCell at hok
  by_cases h : inB s x y = true
  · exact h
  · rw [if_neg h] at hok
    cases hok

theorem writeCell_evo {s s' : St} {x y : Int} {v : Nat} (hinv : Inv s)
    (hv : 1 ≤ v) (hok : writeCell s x y v = .ok s') :
    Evo s s' ∧ s'.mappings = s.mappings ∧ s'.trees = s.trees ∧
      s'.entry = s.entry ∧ s'.exit = s.exit := by
  have hb := inB_elim (writeCell_ok_inB hok)
  obtain ⟨hx0, hxw, hy0, hyh⟩ := hb
  have hs' := writeCell_ok hok
  subst hs'
  have hxlen : x.toNat < s.grid.length := by
    rw [hinv.dims.1]
    omega
  have hylen : y.toNat < (s.grid.getD x.toNat []).length := by
    have hcol : s.grid.getD x.toNat [] = s.grid[x.toNat] := by
      rw [List.getD_eq_getElem?_getD, List.getElem?_eq_getElem hxlen]
      rfl
    rw [hcol, hinv.dims.2 _ (List.getElem_mem hxlen)]
    omega
  have hmono : ∀ a b, cellAt s a b ≠ 0 →
      cellAt { s with grid := setCell s.grid x.toNat y.toNat v } a b ≠ 0 := by
    intro a b hab
    by_cases hEq : a = x.toNat ∧ b = y.toNat
    · obtain ⟨rfl, rfl⟩ := hEq
      rw [cellAt_write_self hxlen hylen]
      omega
    · rw [cellAt_write_other (by
        rcases not_and_or.mp hEq with hne | hne
        · exact Or.inl hne
        · exact Or.inr hne)]
      exact hab
  have hdims := setCell_dims (w := s.width) (h := s.height)
    (x := x.toNat) (y := y.toNat) (v := v) ⟨hinv.dims.1, hinv.dims.2⟩
  refine ⟨⟨rfl, rfl, rfl, rfl, hinv.withGrid hdims, fun p hp => hp,
    fun p hp => hp, hmono, ?_, ?_⟩, rfl, rfl, rfl, rfl⟩
  · intro r a h1
    exact ⟨a, h1, hinv.flat (r, a) (alGet_mem h1)⟩
  · unfold meas
    have hmu := @unocc_mono s { s with grid := setCell s.grid x.toNat y.toNat v }
      rfl rfl hmono
    show unocc _ + s.trees.length ≤ unocc s + s.trees.length
    exact Nat.add_le_add hmu (le_refl _)

/-- The cell freshly painted by a successful `writeCell`. -/
theorem writeCell_cell {s s' : St} {x y : Int} {v : Nat}
    (hinv : Inv s) (hok : writeCell s x y v = .ok s') :
    cellAt s' x.toNat y.toNat = v := by
  have hb := inB_elim (writeCell_ok_inB hok)
  obtain ⟨hx0, hxw, hy0, hyh⟩ := hb
  have hs' := writeCell_ok hok
  subst hs'
  have hxlen : x.toNat < s.grid.length := by
    rw [hinv.dims.1]
    omega
  have hylen : y.toNat < (s.grid.getD x.toNat []).length := by
    have hcol : s.grid.getD x.toNat [] = s.grid[x.toNat] := by
      rw [List.getD_eq_getElem?_getD, List.getElem?_eq_getElem hxlen]
      rfl
    rw [hcol, hinv.dims.2 _ (List.getElem_mem hxlen)]
    omega
  exact cellAt_write_self hxlen hylen

/-- A successful `writeCell` of a nonzero value strictly reduces the
unoccupied count when the target cell was previously 0. -/
theorem writeCell_strict {s s' : St} {x y : Int} {v : Nat} (hinv : Inv s)
    (hv : 1 ≤ v) (hzero : cellAt s x.toNat y.toNat = 0)
    (hok : writeCell s x y v = .ok s') : unocc s' < unocc s := by
  have hb := inB_elim (writeCell_ok_inB hok)
  obtain ⟨hx0, hxw, hy0, hyh⟩ := hb
  have hcell := writeCell_cell hinv hok
  have hevo := (writeCell_evo hinv hv hok).1
  unfold unocc box
  rw [hevo.w, hevo.h]
  have hsub : (Finset.range s.width ×ˢ Finset.range s.height).filter
        (fun p => cellAt s' p.1 p.2 = 0) ⊆
      (Finset.range s.width ×ˢ Finset.range s.height).filter
        (fun p => cellAt s p.1 p.2 = 0) := by
    intro p hp
    rw [Finset.mem_filter] at hp ⊢
    refine ⟨hp.1, ?_⟩
    by_contra hne
    exact hevo.grid p.1 p.2 hne hp.2
  apply Finset.card_lt_card
  rw [Finset.ssubset_iff_of_subset hsub]
  refine ⟨(x.toNat, y.toNat), ?_, ?_⟩
  · rw [Finset.mem_filter, Finset.mem_product, Finset.mem_range, Finset.mem_range]
    exact ⟨⟨by omega, by omega⟩, hzero⟩
  · rw [Finset.mem_filter]
    intro hcon
    rw [hcell] at hcon
    omega

theorem find?_isSome_of_alGet {α : Type} {l : List (Nat × α)} {k : Nat}
    {v : α} (h : alGet l k = some v) :
    (l.find? (fun p => p.1 == k)).isSome = true := by
  unfold alGet at h
  rcases Option.map_eq_some'.mp h with ⟨p, hf, hv⟩
  rw [hf]
  rfl

theorem mem_alSet_of_ne {α : Type} {l : List (Nat × α)} {k : Nat} {v : α}
    {p : Nat × α} (hp : p ∈ l) (hne : p.1 ≠ k) : p ∈ alSet l k v := by
  unfold alSet
  split
  · exact List.mem_map.mpr ⟨p, hp, by simp [beq_eq_false_iff_ne.mpr hne]⟩
  · exact List.mem_append_left _ hp

theorem unocc_eq_of_grid {s s' : St} (hw : s'.width = s.width)
    (hh : s'.height = s.height) (hg : s'.grid = s.grid) : unocc s' = unocc s := by
  unfold unocc box cellAt
  simp only [hw, hh, hg]

theorem cellAt_eq_of_grid {s s' : St} (hg : s'.grid = s.grid) (x y : Nat) :
    cellAt s' x y = cellAt s x y := by
  unfold cellAt
  rw [hg]

theorem remap_skip {s : St} {t1 t2 : Nat} (h : alGet s.trees t1 = none) :
    remap s t1 t2 = .ok s := by
  unfold remap
  rw [h]

/-- Full description of a successful `remap`. -/
theorem remap_evo {s s' : St} {t1 t2 : Nat} (hinv : Inv s)
    (h2can : alGet s.mappings t2 = some t2) (h2pos : 1 ≤ t2) (hne : t1 ≠ t2)
    (hok : remap s t1 t2 = .ok s') :
    Evo s s' ∧ s'.grid = s.grid ∧ s'.entry = s.entry ∧ s'.exit = s.exit ∧
      (alGet s.trees t1 = none → s' = s) ∧
      (∀ l1, alGet s.trees t1 = some l1 →
        alGet s'.mappings t1 = some t2 ∧ alGet s'.trees t1 = none ∧
        s'.trees.length < s.trees.length) := by
  unfold remap at hok
  cases hl1 : alGet s.trees t1 with
  | none =>
    rw [hl1] at hok
    have hs : s = s' := Except.ok.inj hok
    subst hs
    exact ⟨Evo.refl hinv, rfl, rfl, rfl, fun _ => rfl,
      fun l1 hl => by cases hl⟩
  | some l1 =>
    rw [hl1] at hok
    cases hl2 : alGet s.trees t2 with
    | none =>
      rw [hl2] at hok
      cases hok
    | some l2 =>
      rw [hl2] at hok
      have hs' := (Except.ok.inj hok).symm
      have ht1mem : (t1, l1) ∈ s.trees := alGet_mem hl1
      have ht2mem : (t2, l2) ∈ s.trees := alGet_mem hl2
      have ht1pos : 1 ≤ t1 := hinv.tkeys _ ht1mem
      have ht1can : alGet s.mappings t1 = some t1 := hinv.livecan _ ht1mem
      -- lookups through the new partition
      have hm2get : ∀ k, alGet s'.mappings k =
          (alGet (alSet s.mappings t1 t2) k).map
            (fun v => if v = t1 then t2 else v) := by
        intro k
        rw [hs']
        exact alGet_subst k
      have hm2_t1 : alGet s'.mappings t1 = some t2 := by
        rw [hm2get t1, alGet_alSet_self]
        simp [hne]
      have hm2_t2 : alGet s'.mappings t2 = some t2 := by
        rw [hm2get t2, alGet_alSet_ne _ _ _ _ (Ne.symm hne), h2can]
        simp [Ne.symm hne]
      have hm2_keep : ∀ k v, k ≠ t1 → alGet s.mappings k = some v → v ≠ t1 →
          alGet s'.mappings k = some v := by
        intro k v hk hv hvne
        rw [hm2get k, alGet_alSet_ne _ _ _ _ hk, hv]
        simp [hvne]
      -- the new trees map
      have htrees : s'.trees = alDel (alSet s.trees t2 (l2 ++ l1)) t1 := by
        rw [hs']
      have htreesGet_t1 : alGet s'.trees t1 = none := by
        rw [htrees]
        exact alGet_alDel_self _ _
      have htrees_len : s'.trees.length < s.trees.length := by
        rw [htrees]
        have hlen1 : (alSet s.trees t2 (l2 ++ l1)).length = s.trees.length :=
          alSet_length _ _ _ (find?_isSome_of_alGet hl2)
        have hmem' : (t1, l1) ∈ alSet s.trees t2 (l2 ++ l1) :=
          mem_alSet_of_ne ht1mem hne
        calc (alDel (alSet s.trees t2 (l2 ++ l1)) t1).length
            < (alSet s.trees t2 (l2 ++ l1)).length := alDel_length_lt hmem'
          _ = s.trees.length := hlen1
      have htrees_mem : ∀ p, p ∈ s'.trees →
          (p ∈ s.trees ∨ p = (t2, l2 ++ l1)) ∧ p.1 ≠ t1 := by
        intro p hp
        rw [htrees] at hp
        have hdel := mem_alDel hp
        exact ⟨mem_alSet hdel.1, hdel.2⟩
      have hw : s'.width = s.width := by rw [hs']
      have hh : s'.height = s.height := by rw [hs']
      have hgrid : s'.grid = s.grid := by rw [hs']
      have hent : s'.entry = s.entry := by rw [hs']
      have hext : s'.exit = s.exit := by rw [hs']
      have hrate : s'.rate = s.rate := by rw [hs']
      have hstrat : s'.strategy = s.strategy := by rw [hs']
      -- the invariant on the new state
      have hinv' : Inv s' := by
        refine ⟨?_, ?_, ?_, ?_, ?_, ?_, ?_, ?_⟩
        · rw [hs']
          exact ⟨hinv.dims.1, hinv.dims.2⟩
        · intro p hp q hq
          rw [hw, hh]
          rcases (htrees_mem p hp).1 with hmem | rfl
          · exact hinv.tpos p hmem q hq
          · rcases List.mem_append.mp hq with hq2 | hq1
            · exact hinv.tpos _ ht2mem q hq2
            · exact hinv.tpos _ ht1mem q hq1
        · intro p hp
          rcases (htrees_mem p hp).1 with hmem | rfl
          · exact hinv.tkeys p hmem
          · exact h2pos
        · intro p hp
          rw [hs'] at hp
          rcases List.mem_map.mp hp with ⟨q, hq, hqe⟩
          rcases mem_alSet hq with hqm | rfl
          · have := hinv.mkeys q hqm
            by_cases hv : q.2 = t1
            · rw [← hqe, if_pos (beq_iff_eq.mpr hv)]
              exact ⟨this.1, h2pos⟩
            · rw [← hqe, if_neg (by simp [beq_eq_false_iff_ne.mpr hv])]
              exact this
          · rw [← hqe]
            by_cases hv : t2 = t1
            · exact absurd hv.symm hne
            · rw [if_neg (by simp [beq_eq_false_iff_ne.mpr hv])]
              exact ⟨ht1pos, h2pos⟩
        · intro p hp
          rw [hs'] at hp
          rcases List.mem_map.mp hp with ⟨q, hq, hqe⟩
          rcases mem_alSet hq with hqm | rfl
          · by_cases hv : q.2 = t1
            · have hp2 : p.2 = t2 := by
                rw [← hqe, if_pos (beq_iff_eq.mpr hv)]
              rw [hp2]
              exact hm2_t2
            · have hp2 : p.2 = q.2 := by
                rw [← hqe, if_neg (by simp [beq_eq_false_iff_ne.mpr hv])]
              rw [hp2]
              by_cases hq1 : q.2 = t2
              · rw [hq1]
                exact hm2_t2
              · refine hm2_keep q.2 q.2 ?_ (hinv.flat q hqm) hv
                exact hv
          · have hp2 : p.2 = t2 := by
              rw [← hqe, if_neg (by simp [beq_eq_false_iff_ne.mpr
                (fun hc : t2 = t1 => hne hc.symm)])]
            rw [hp2]
            exact hm2_t2
        · intro p hp
          have hmem := htrees_mem p hp
          rcases hmem.1 with hmemo | rfl
          · by_cases hp1 : p.1 = t2
            · rw [hp1]
              exact hm2_t2
            · exact hm2_keep p.1 p.1 hmem.2 (hinv.livecan p hmemo) hmem.2
          · exact hm2_t2
        · intro q hq
          rw [hent] at hq
          have := hinv.ent q hq
          rw [hh]
          exact this
        · intro q hq
          rw [hext] at hq
          have := hinv.ext q hq
          rw [hw, hh]
          exact this
      refine ⟨⟨hw, hh, hrate, hstrat, hinv', ?_, ?_, ?_, ?_, ?_⟩,
        hgrid, hent, hext, ?_, ?_⟩
      · intro p hp
        rw [hent]
        exact hp
      · intro p hp
        rw [hext]
        exact hp
      · intro x y hx
        rw [cellAt_eq_of_grid hgrid]
        exact hx
      · intro r a hra
        by_cases hr1 : r = t1
        · subst hr1
          rw [ht1can] at hra
          rcases Option.some.inj hra with rfl
          exact ⟨t2, hm2_t1, hm2_t1⟩
        · by_cases ha1 : a = t1
          · subst ha1
            refine ⟨t2, ?_, hm2_t1⟩
            rw [hm2get r, alGet_alSet_ne _ _ _ _ hr1, hra]
            simp
          · refine ⟨a, hm2_keep r a hr1 hra ha1, ?_⟩
            have hflat := hinv.flat (r, a) (alGet_mem hra)
            exact hm2_keep a a ha1 hflat ha1
      · unfold meas
        rw [unocc_eq_of_grid hw hh hgrid]
        omega
      · intro hcontra
        cases hcontra
      · intro l1' hl1'
        exact ⟨hm2_t1, htreesGet_t1, htrees_len⟩

/-! ## Evolution of the window scan and merge -/

theorem inB_of_evo {s s' : St} (hevo : Evo s s') (x y : Int) :
    inB s' x y = inB s x y := by
  unfold inB
  rw [hevo.w, hevo.h]

/-- `joinScan` either leaves the state unchanged, or reports a collision
and strictly decreases the measure (it paints the one-ahead bridge cell,
which was free).  It never touches entry, exit, or cells off the two
bridge positions. -/
theorem joinScan_evo {tree : Nat} {bx1 by1 bx2 by2 : Int} :
    ∀ {ms : List Nat} {s s' : St} {b : Bool}, Inv s → 1 ≤ tree →
      cellAt s bx1.toNat by1.toNat = 0 →
      joinScan s tree bx1 by1 bx2 by2 ms = .ok (s', b) →
      Evo s s' ∧ s'.entry = s.entry ∧ s'.exit = s.exit ∧
        (∀ a c : Nat, (a, c) ≠ (bx1.toNat, by1.toNat) →
          (a, c) ≠ (bx2.toNat, by2.toNat) → cellAt s' a c = cellAt s a c) ∧
        (s' = s ∨ (b = false ∧ meas s' < meas s))
  | [], s, s', b, hinv, htree, hb10, hok => by
      unfold joinScan at hok
      have h := Except.ok.inj hok
      cases h
      exact ⟨Evo.refl hinv, rfl, rfl, fun a c h1 h2 => rfl, Or.inl rfl⟩
  | m :: rest, s, s', b, hinv, htree, hb10, hok => by
      unfold joinScan at hok
      by_cases hm : m = 0
      · rw [if_pos (by simp [hm])] at hok
        exact joinScan_evo hinv htree hb10 hok
      · rw [if_neg (by simp [hm])] at hok
        by_cases hmain : (alGet s.mappings m).getD tree ≠ tree
        · rw [if_pos hmain] at hok
          rw [bind_eq_ok] at hok
          obtain ⟨s1, hw1, hok⟩ := hok
          rw [bind_eq_ok] at hok
          obtain ⟨s2, hw2, hok⟩ := hok
          rw [bind_eq_ok] at hok
          obtain ⟨s3, hr3, hok⟩ := hok
          have hfin := Except.ok.inj hok
          cases hfin
          -- the looked-up canonical id
          cases hget : alGet s.mappings m with
          | none =>
            rw [hget] at hmain
            exact absurd rfl hmain
          | some main =>
            rw [hget] at hmain hr3
            simp only [Option.getD_some] at hmain hr3
            have hmem := alGet_mem hget
            have hmainpos : 1 ≤ main := (hinv.mkeys _ hmem).2
            have hmaincan : alGet s.mappings main = some main := hinv.flat _ hmem
            obtain ⟨hevo1, hm1, ht1, he1, hx1⟩ := writeCell_evo hinv htree hw1
            have hstrict1 : unocc s1 < unocc s := writeCell_strict hinv htree hb10 hw1
            obtain ⟨hevo2, hm2, ht2, he2, hx2⟩ := writeCell_evo hevo1.inv htree hw2
            have hcan2 : alGet s2.mappings main = some main := by
              rw [hm2, hm1]
              exact hmaincan
            have hr := remap_evo hevo2.inv hcan2 hmainpos
              (fun hc => hmain hc.symm) hr3
            obtain ⟨hevo3, hg3, he3, hx3, hskip, hlive⟩ := hr
            refine ⟨evoTrans (evoTrans hevo1 hevo2) hevo3, ?_, ?_, ?_, ?_⟩
            · rw [he3, he2, he1]
            · rw [hx3, hx2, hx1]
            · intro a c h1 h2
              rw [cellAt_eq_of_grid hg3]
              have hwe1 := writeCell_ok hw1
              have hwe2 := writeCell_ok hw2
              subst hwe1
              subst hwe2
              rw [cellAt_write_other (by
                by_cases hc : a = bx2.toNat
                · exact Or.inr (fun hcc => h2 (by rw [hc, hcc]))
                · exact Or.inl hc)]
              rw [cellAt_write_other (by
                by_cases hc : a = bx1.toNat
                · exact Or.inr (fun hcc => h1 (by rw [hc, hcc]))
                · exact Or.inl hc)]
            · right
              refine ⟨rfl, ?_⟩
              have hmu3 := hevo3.mu
              have hmu2 := hevo2.mu
              have hmeas1 : meas s1 < meas s := by
                unfold meas
                have : s1.trees.length = s.trees.length := by rw [ht1]
                omega
              omega
        · rw [if_neg hmain] at hok
          have hfin := Except.ok.inj hok
          cases hfin
          exact ⟨Evo.refl hinv, rfl, rfl, fun a c h1 h2 => rfl, Or.inl rfl⟩

theorem check_row_ok {s : St} {x y : Int} {b : Bool}
    (h : check_row s x y = .ok b) :
    inB s x (y - 1) = true ∧ inB s x y = true ∧ inB s x (y + 1) = true ∧
      (b = true ↔ cellAt s x.toNat (y - 1).toNat = 0 ∧
        cellAt s x.toNat y.toNat = 0 ∧ cellAt s x.toNat (y + 1).toNat = 0) := by
  unfold check_row at h
  rw [bind_eq_ok] at h
  obtain ⟨a, ha, h⟩ := h
  rw [bind_eq_ok] at h
  obtain ⟨c, hc, h⟩ := h
  rw [bind_eq_ok] at h
  obtain ⟨d, hd, h⟩ := h
  obtain ⟨hba, hva⟩ := readCell_ok ha
  obtain ⟨hbc, hvc⟩ := readCell_ok hc
  obtain ⟨hbd, hvd⟩ := readCell_ok hd
  have hb : b = (a == 0 && c == 0 && d == 0) := (Except.ok.inj h).symm
  subst hb hva hvc hvd
  refine ⟨hba, hbc, hbd, ?_⟩
  simp [Bool.and_eq_true, beq_iff_eq, and_assoc]

theorem check_col_ok {s : St} {x y : Int} {b : Bool}
    (h : check_col s x y = .ok b) :
    inB s (x - 1) y = true ∧ inB s x y = true ∧ inB s (x + 1) y = true ∧
      (b = true ↔ cellAt s (x - 1).toNat y.toNat = 0 ∧
        cellAt s x.toNat y.toNat = 0 ∧ cellAt s (x + 1).toNat y.toNat = 0) := by
  unfold check_col at h
  rw [bind_eq_ok] at h
  obtain ⟨a, ha, h⟩ := h
  rw [bind_eq_ok] at h
  obtain ⟨c, hc, h⟩ := h
  rw [bind_eq_ok] at h
  obtain ⟨d, hd, h⟩ := h
  obtain ⟨hba, hva⟩ := readCell_ok ha
  obtain ⟨hbc, hvc⟩ := readCell_ok hc
  obtain ⟨hbd, hvd⟩ := readCell_ok hd
  have hb : b = (a == 0 && c == 0 && d == 0) := (Except.ok.inj h).symm
  subst hb hva hvc hvd
  refine ⟨hba, hbc, hbd, ?_⟩
  simp [Bool.and_eq_true, beq_iff_eq, and_assoc]

theorem readCell_total {s : St} {x y : Int} (h : inB s x y = true) :
    readCell s x y = .ok (cellAt s x.toNat y.toNat) := by
  unfold readCell
  rw [if_pos h]

theorem check_row_total {s : St} {x y : Int} (h1 : inB s x (y - 1) = true)
    (h2 : inB s x y = true) (h3 : inB s x (y + 1) = true) :
    ∃ b, check_row s x y = .ok b := by
  unfold check_row
  rw [readCell_total h1, ok_bind, readCell_total h2, ok_bind,
    readCell_total h3, ok_bind]
  exact ⟨_, rfl⟩

theorem check_col_total {s : St} {x y : Int} (h1 : inB s (x - 1) y = true)
    (h2 : inB s x y = true) (h3 : inB s (x + 1) y = true) :
    ∃ b, check_col s x y = .ok b := by
  unfold check_col
  rw [readCell_total h1, ok_bind, readCell_total h2, ok_bind,
    readCell_total h3, ok_bind]
  exact ⟨_, rfl⟩

theorem joinScan_true_zero {tree : Nat} {bx1 by1 bx2 by2 : Int} :
    ∀ {ms : List Nat} {s s' : St},
      joinScan s tree bx1 by1 bx2 by2 ms = .ok (s', true) →
      s' = s ∧ ∀ m ∈ ms, m = 0
  | [], s, s', hok => by
      unfold joinScan at hok
      have h := Except.ok.inj hok
      cases h
      exact ⟨rfl, fun m hm => absurd hm (List.not_mem_nil m)⟩
  | m :: rest, s, s', hok => by
      unfold joinScan at hok
      by_cases hm : m = 0
      · rw [if_pos (by simp [hm])] at hok
        obtain ⟨hs, hall⟩ := joinScan_true_zero hok
        refine ⟨hs, fun m' hm' => ?_⟩
        rcases List.mem_cons.mp hm' with rfl | hmem
        · exact hm
        · exact hall m' hmem
      · rw [if_neg (by simp [hm])] at hok
        by_cases hmain : (alGet s.mappings m).getD tree ≠ tree
        · rw [if_pos hmain] at hok
          rw [bind_eq_ok] at hok
          obtain ⟨s1, hw1, hok⟩ := hok
          rw [bind_eq_ok] at hok
          obtain ⟨s2, hw2, hok⟩ := hok
          rw [bind_eq_ok] at hok
          obtain ⟨s3, hr3, hok⟩ := hok
          have h := Except.ok.inj hok
          have hfalse : false = true := congrArg Prod.snd h
          cases hfalse
        · rw [if_neg hmain] at hok
          have h := Except.ok.inj hok
          have hfalse : false = true := congrArg Prod.snd h
          cases hfalse

/-- First occupied cell of a window scan (0 when the window is free). -/
def firstOcc (ms : List Nat) : Nat := (ms.find? (fun m => m != 0)).getD 0

/-- A collision result of `joinScan` on a live tree: the state is
unchanged when the first occupied cell already resolves to the current
tree; otherwise both ids resolve to a common canonical id afterwards and
the two bridge cells carry the current tree's raw id. -/
theorem joinScan_collision {tree : Nat} {bx1 by1 bx2 by2 : Int}
    (hbb : (bx1.toNat, by1.toNat) ≠ (bx2.toNat, by2.toNat)) :
    ∀ {ms : List Nat} {s s' : St}, Inv s → 1 ≤ tree →
      (alGet s.trees tree).isSome = true →
      joinScan s tree bx1 by1 bx2 by2 ms = .ok (s', false) →
      firstOcc ms ≠ 0 ∧
      ((alGet s.mappings (firstOcc ms)).getD tree = tree → s' = s) ∧
      ((alGet s.mappings (firstOcc ms)).getD tree ≠ tree →
        ∃ c, alGet s'.mappings tree = some c ∧
          alGet s'.mappings ((alGet s.mappings (firstOcc ms)).getD tree) = some c ∧
          cellAt s' bx1.toNat by1.toNat = tree ∧
          cellAt s' bx2.toNat by2.toNat = tree)
  | [], s, s', hinv, htree, hlive, hok => by
      unfold joinScan at hok
      have h := Except.ok.inj hok
      have hfalse : true = false := congrArg Prod.snd h
      cases hfalse
  | m :: rest, s, s', hinv, htree, hlive, hok => by
      by_cases hm : m = 0
      · unfold joinScan at hok
        rw [if_pos (by simp [hm])] at hok
        have hrec := joinScan_collision hbb hinv htree hlive hok
        have hfo : firstOcc (m :: rest) = firstOcc rest := by
          unfold firstOcc
          rw [List.find?_cons, show ((m != 0) = false) by simp [hm]]
        rw [hfo]
        exact hrec
      · unfold joinScan at hok
        rw [if_neg (by simp [hm])] at hok
        have hfo : firstOcc (m :: rest) = m := by
          unfold firstOcc
          rw [List.find?_cons, show ((m != 0) = true) by simp [hm]]
          rfl
        rw [hfo]
        by_cases hmain : (alGet s.mappings m).getD tree ≠ tree
        · rw [if_pos hmain] at hok
          rw [bind_eq_ok] at hok
          obtain ⟨s1, hw1, hok⟩ := hok
          rw [bind_eq_ok] at hok
          obtain ⟨s2, hw2, hok⟩ := hok
          rw [bind_eq_ok] at hok
          obtain ⟨s3, hr3, hok⟩ := hok
          have h := Except.ok.inj hok
          have hs3 : s3 = s' := congrArg Prod.fst h
          subst hs3
          refine ⟨hm, fun hc => absurd hc hmain, fun _ => ?_⟩
          cases hget : alGet s.mappings m with
          | none =>
            rw [hget] at hmain
            exact absurd rfl hmain
          | some main =>
            rw [hget] at hmain hr3
            simp only [Option.getD_some] at hmain hr3 ⊢
            have hmem := alGet_mem hget
            have hmainpos : 1 ≤ main := (hinv.mkeys _ hmem).2
            have hmaincan : alGet s.mappings main = some main := hinv.flat _ hmem
            obtain ⟨hevo1, hm1, ht1, he1, hx1⟩ := writeCell_evo hinv htree hw1
            obtain ⟨hevo2, hm2, ht2, he2, hx2⟩ := writeCell_evo hevo1.inv htree hw2
            have hcan2 : alGet s2.mappings main = some main := by
              rw [hm2, hm1]
              exact hmaincan
            obtain ⟨hevo3, hg3, he3, hx3, hskip, hmerge⟩ := remap_evo hevo2.inv
              hcan2 hmainpos (fun hc => hmain hc.symm) hr3
            have hlive2 : (alGet s2.trees tree).isSome = true := by
              rw [ht2, ht1]
              exact hlive
            rcases Option.isSome_iff_exists.mp hlive2 with ⟨l, hl⟩
            obtain ⟨hmap1, _, _⟩ := hmerge l hl
            refine ⟨main, hmap1, ?_, ?_, ?_⟩
            · have hmem3 := alGet_mem hmap1
              exact hevo3.inv.flat _ hmem3
            · rw [cellAt_eq_of_grid hg3]
              have hwe2 := writeCell_ok hw2
              subst hwe2
              rw [cellAt_write_other (by
                by_cases hc : bx1.toNat = bx2.toNat
                · exact Or.inr (fun hcc => hbb (by rw [hc, hcc]))
                · exact Or.inl hc)]
              exact writeCell_cell hinv hw1
            · rw [cellAt_eq_of_grid hg3]
              exact writeCell_cell hevo1.inv hw2
        · rw [if_neg hmain] at hok
          have h := Except.ok.inj hok
          have hs : s = s' := congrArg Prod.fst h
          subst hs
          rw [not_not] at hmain
          exact ⟨hm, fun _ => rfl, fun hc => absurd hmain hc⟩

theorem check_and_join_row_evo {s s' : St} {x y : Int} {tree : Nat}
    {inc : Int} {b : Bool} (hinv : Inv s) (htree : 1 ≤ tree)
    (hfree : cellAt s (x + inc).toNat y.toNat = 0)
    (hok : check_and_join_row s x y tree inc = .ok (s', b)) :
    Evo s s' ∧ s'.entry = s.entry ∧ s'.exit = s.exit ∧
      (∀ a c : Nat, (a, c) ≠ ((x + inc).toNat, y.toNat) →
        (a, c) ≠ ((x + 2 * inc).toNat, y.toNat) →
        cellAt s' a c = cellAt s a c) ∧
      (s' = s ∨ (b = false ∧ meas s' < meas s)) := by
  unfold check_and_join_row at hok
  rw [bind_eq_ok] at hok
  obtain ⟨m1, h1, hok⟩ := hok
  rw [bind_eq_ok] at hok
  obtain ⟨m2, h2, hok⟩ := hok
  rw [bind_eq_ok] at hok
  obtain ⟨m3, h3, hok⟩ := hok
  exact joinScan_evo hinv htree hfree hok

theorem check_and_join_col_evo {s s' : St} {x y : Int} {tree : Nat}
    {inc : Int} {b : Bool} (hinv : Inv s) (htree : 1 ≤ tree)
    (hfree : cellAt s x.toNat (y + inc).toNat = 0)
    (hok : check_and_join_col s x y tree inc = .ok (s', b)) :
    Evo s s' ∧ s'.entry = s.entry ∧ s'.exit = s.exit ∧
      (∀ a c : Nat, (a, c) ≠ (x.toNat, (y + inc).toNat) →
        (a, c) ≠ (x.toNat, (y + 2 * inc).toNat) →
        cellAt s' a c = cellAt s a c) ∧
      (s' = s ∨ (b = false ∧ meas s' < meas s)) := by
  unfold check_and_join_col at hok
  rw [bind_eq_ok] at hok
  obtain ⟨m1, h1, hok⟩ := hok
  rw [bind_eq_ok] at hok
  obtain ⟨m2, h2, hok⟩ := hok
  rw [bind_eq_ok] at hok
  obtain ⟨m3, h3, hok⟩ := hok
  exact joinScan_evo hinv htree hfree hok

theorem unocc_congr {s s' : St} (hw : s'.width = s.width)
    (hh : s'.height = s.height)
    (hc : ∀ a b, (cellAt s' a b = 0 ↔ cellAt s a b = 0)) :
    unocc s' = unocc s := by
  unfold unocc box
  rw [hw, hh]
  congr 1
  apply Finset.filter_congr
  intro p hp
  simp only [decide_eq_true_eq] at *
  exact hc p.1 p.2

/-- Recording the exit point (no grid, tree or partition change). -/
theorem setExit_evo {s : St} (hinv : Inv s) {q : Pos} (hnone : s.exit = none)
    (hq : q.1 = (s.width : Int) - 1 ∧ 0 ≤ q.2 ∧ q.2 < (s.height : Int)) :
    Evo s { s with exit := some q } ∧
      unocc { s with exit := some q } = unocc s ∧
      ({ s with exit := some q } : St).trees = s.trees ∧
      ({ s with exit := some q } : St).mappings = s.mappings := by
  have hinv' : Inv { s with exit := some q } := by
    refine ⟨hinv.dims, hinv.tpos, hinv.tkeys, hinv.mkeys, hinv.flat,
      hinv.livecan, hinv.ent, ?_⟩
    intro q' hq'
    have : q = q' := Option.some.inj hq'
    subst this
    exact hq
  have hu : unocc { s with exit := some q } = unocc s :=
    unocc_eq_of_grid rfl rfl rfl
  have hmeas : meas { s with exit := some q } = meas s := by
    unfold meas
    rw [hu]
  refine ⟨⟨rfl, rfl, rfl, rfl, hinv', fun p hp => hp, ?_, fun a b hab => hab,
    ?_, le_of_eq hmeas⟩, hu, rfl, rfl⟩
  · intro p hp
    rw [hnone] at hp
    cases hp
  · intro r a h1
    exact ⟨a, h1, hinv.flat (r, a) (alGet_mem h1)⟩

/-- Recording the entry point (no grid, tree or partition change). -/
theorem setEntry_evo {s : St} (hinv : Inv s) {q : Pos} (hnone : s.entry = none)
    (hq : q.1 = 0 ∧ 0 ≤ q.2 ∧ q.2 < (s.height : Int)) :
    Evo s { s with entry := some q } ∧
      unocc { s with entry := some q } = unocc s ∧
      ({ s with entry := some q } : St).trees = s.trees ∧
      ({ s with entry := some q } : St).mappings = s.mappings := by
  have hinv' : Inv { s with entry := some q } := by
    refine ⟨hinv.dims, hinv.tpos, hinv.tkeys, hinv.mkeys, hinv.flat,
      hinv.livecan, ?_, hinv.ext⟩
    intro q' hq'
    have : q = q' := Option.some.inj hq'
    subst this
    exact hq
  have hu : unocc { s with entry := some q } = unocc s :=
    unocc_eq_of_grid rfl rfl rfl
  have hmeas : meas { s with entry := some q } = meas s := by
    unfold meas
    rw [hu]
  refine ⟨⟨rfl, rfl, rfl, rfl, hinv', ?_, fun p hp => hp, fun a b hab => hab,
    ?_, le_of_eq hmeas⟩, hu, rfl, rfl⟩
  · intro p hp
    rw [hnone] at hp
    cases hp
  · intro r a h1
    exact ⟨a, h1, hinv.flat (r, a) (alGet_mem h1)⟩

/-- A neutral `writeCell` on an already-occupied cell: evolution with no
change to the unoccupied count, trees, or partition. -/
theorem writeCell_neutral {s s' : St} {x y : Int} {v : Nat} (hinv : Inv s)
    (hv : 1 ≤ v) (hocc : cellAt s x.toNat y.toNat ≠ 0)
    (hok : writeCell s x y v = .ok s') :
    Evo s s' ∧ unocc s' = unocc s ∧ s'.trees = s.trees ∧
      s'.mappings = s.mappings ∧ s'.entry = s.entry ∧ s'.exit = s.exit := by
  obtain ⟨hevo, hm, ht, he, hx⟩ := writeCell_evo hinv hv hok
  refine ⟨hevo, ?_, ht, hm, he, hx⟩
  have hs' := writeCell_ok hok
  subst hs'
  have hupd : ∀ a b,
      (cellAt { s with grid := setCell s.grid x.toNat y.toNat v } a b = 0 ↔
        cellAt s a b = 0) := by
    intro a b
    by_cases hab : a = x.toNat ∧ b = y.toNat
    · obtain ⟨rfl, rfl⟩ := hab
      have hcell := writeCell_cell hinv hok
      constructor
      · intro hc
        rw [hcell] at hc
        omega
      · intro hc
        exact absurd hc hocc
    · rw [cellAt_write_other (by
        by_cases hc : a = x.toNat
        · exact Or.inr (fun hcc => hab ⟨hc, hcc⟩)
        · exact Or.inl hc)]
  exact unocc_congr rfl rfl hupd

/-- Any successful `writeCell` of a tree id: evolution plus the progress
disjunction (strict decrease, or unchanged occupancy and bookkeeping). -/
theorem writeCell_prog {s s' : St} {x y : Int} {v : Nat} (hinv : Inv s)
    (hv : 1 ≤ v) (hok : writeCell s x y v = .ok s') :
    Evo s s' ∧ s'.entry = s.entry ∧ s'.exit = s.exit ∧
      (meas s' < meas s ∨
        (unocc s' = unocc s ∧ s'.trees = s.trees ∧ s'.mappings = s.mappings)) := by
  obtain ⟨hevo, hm, ht, he, hx⟩ := writeCell_evo hinv hv hok
  refine ⟨hevo, he, hx, ?_⟩
  by_cases hz : cellAt s x.toNat y.toNat = 0
  · left
    have := writeCell_strict hinv hv hz hok
    unfold meas
    rw [ht]
    omega
  · obtain ⟨_, hu, ht', hm', _, _⟩ := writeCell_neutral hinv hv hz hok
    exact Or.inr ⟨hu, ht', hm'⟩

theorem drawGate_bounds (r : Rnd) : 0 ≤ (drawGate r).1 ∧ (drawGate r).1 < 1 := by
  unfold drawGate
  by_cases h : 0 ≤ r.gates r.gi ∧ r.gates r.gi < 1
  · rw [if_pos h]
    exact h
  · rw [if_neg h]
    norm_num

theorem alSet_alSet {α : Type} (l : List (Nat × α)) (k : Nat) (v w : α) :
    alSet (alSet l k v) k w = alSet l k w := by
  unfold alSet
  split
  · next hsome =>
    rw [if_pos (by
      rw [List.find?_isSome] at hsome ⊢
      obtain ⟨p, hp, hpk⟩ := hsome
      exact ⟨(k, v), List.mem_map.mpr ⟨p, hp, by rw [if_pos hpk]⟩, by simp⟩)]
    rw [List.map_map]
    apply List.map_congr_left
    intro p hp
    by_cases hpk : p.1 = k
    · simp [hpk]
    · simp [beq_eq_false_iff_ne.mpr hpk, Function.comp]
  · next hnone =>
    rw [if_pos (by
      rw [List.find?_isSome]
      exact ⟨(k, v), List.mem_append_right _ (List.mem_singleton_self _), by simp⟩)]
    have hfn : l.find? (fun p => p.1 == k) = none := by
      rcases Option.eq_none_or_eq_some (l.find? (fun p => p.1 == k)) with h | ⟨a, h⟩
      · exact h
      · exact absurd (by rw [h]; rfl) hnone
    have hl : l.map (fun p => if p.1 == k then (k, w) else p) = l := by
      conv_rhs => rw [show l = l.map id from (List.map_id l).symm]
      apply List.map_congr_left
      intro p hp
      have hnk := List.find?_eq_none.mp hfn p hp
      rw [if_neg hnk]
      rfl
    rw [List.map_append, hl]
    simp

/-- Progress disjunction of one growth-loop operation: either the
termination measure strictly drops, or trees, partition and occupancy are
all untouched. -/
def Prog (s s' : St) : Prop :=
  meas s' < meas s ∨
    (s'.trees = s.trees ∧ s'.mappings = s.mappings ∧ unocc s' = unocc s)

/-- Interior bounds of a frontier position. -/
def Bnds (s : St) (p : Pos) : Prop :=
  1 ≤ p.1 ∧ p.1 ≤ (s.width : Int) - 2 ∧ 1 ≤ p.2 ∧ p.2 ≤ (s.height : Int) - 2

theorem prog_refl (s : St) : Prog s s := Or.inr ⟨rfl, rfl, rfl⟩

theorem progTrans {s1 s2 s3 : St} (h23 : Evo s2 s3)
    (p12 : Prog s1 s2) (p23 : Prog s2 s3) : Prog s1 s3 := by
  rcases p12 with h | ⟨ht, hm, hu⟩
  · exact Or.inl (lt_of_le_of_lt h23.mu h)
  · rcases p23 with h' | ⟨ht', hm', hu'⟩
    · left
      have hlen : s2.trees.length = s1.trees.length := by rw [ht]
      unfold meas at h' ⊢
      omega
    · exact Or.inr ⟨ht'.trans ht, hm'.trans hm, hu'.trans hu⟩

theorem bnds_congr {s s' : St} (hw : s'.width = s.width)
    (hh : s'.height = s.height) {p : Pos} (hb : Bnds s p) : Bnds s' p := by
  unfold Bnds at hb ⊢
  rw [hw, hh]
  exact hb

theorem pure_eq_ok {α : Type} {a b : α} (h : (pure a : Except Err α) = .ok b) :
    a = b :=
  Except.ok.inj h

/-- The guarded `y + 1` column check: evolution, progress, and slot
tracking (old slots keep their off-column separation, the new slot is
`(x, y + 1)`). -/
theorem colCheck1_evo {s s' : St} {x y : Int} {tree : Nat} {sl0 sl : List Pos}
    (hinv : Inv s) (htree : 1 ≤ tree)
    (hxb : 1 ≤ x ∧ x ≤ (s.width : Int) - 2)
    (hyb : 1 ≤ y ∧ y ≤ (s.height : Int) - 2)
    (hsl0 : ∀ p ∈ sl0, Bnds s p ∧ cellAt s p.1.toNat p.2.toNat = 0)
    (hsep : ∀ p ∈ sl0, p.1.toNat ≠ x.toNat)
    (hok : colCheck1 s x y tree sl0 = .ok (s', sl)) :
    Evo s s' ∧ s'.entry = s.entry ∧ s'.exit = s.exit ∧ Prog s s' ∧
      ∀ p ∈ sl, (Bnds s p ∧ cellAt s' p.1.toNat p.2.toNat = 0 ∧
          p.1.toNat ≠ x.toNat) ∨
        (p = ((x : Int), y + 1) ∧ Bnds s p ∧
          cellAt s' p.1.toNat p.2.toNat = 0) := by
  unfold colCheck1 at hok
  by_cases hy2 : y + 2 < (s.height : Int)
  · rw [if_pos hy2] at hok
    rw [bind_eq_ok] at hok
    obtain ⟨cc, hcc, hC2⟩ := hok
    cases cc with
    | false =>
      rw [if_neg (by simp)] at hC2
      have hpair := pure_eq_ok hC2
      rw [Prod.mk.injEq] at hpair
      obtain ⟨rfl, rfl⟩ := hpair
      exact ⟨Evo.refl hinv, rfl, rfl, prog_refl s,
        fun p hp => Or.inl ⟨(hsl0 p hp).1, (hsl0 p hp).2, hsep p hp⟩⟩
    | true =>
      rw [if_pos rfl] at hC2
      rw [bind_eq_ok] at hC2
      obtain ⟨⟨sA, okb⟩, hj, hpure⟩ := hC2
      have hpair := pure_eq_ok hpure
      rw [Prod.mk.injEq] at hpair
      obtain ⟨rfl, rfl⟩ := hpair
      obtain ⟨hbc1, hbc2, hbc3, hiff⟩ := check_col_ok hcc
      obtain ⟨hmid1, hmid2, hmid3⟩ := hiff.mp rfl
      obtain ⟨hevoC, hentC, hextC, hoffC, hdisjC⟩ :=
        check_and_join_col_evo hinv htree hmid2 hj
      have hprogC : Prog s sA := by
        rcases hdisjC with h | ⟨_, h⟩
        · rw [h]
          exact prog_refl s
        · exact Or.inl h
      refine ⟨hevoC, hentC, hextC, hprogC, ?_⟩
      intro p hp
      cases hko : okb with
      | false =>
        rw [hko] at hp
        simp only [Bool.false_eq_true, if_false] at hp
        refine Or.inl ⟨(hsl0 p hp).1, ?_, hsep p hp⟩
        rw [hoffC p.1.toNat p.2.toNat
          (fun hcon => hsep p hp (congrArg Prod.fst hcon))
          (fun hcon => hsep p hp (congrArg Prod.fst hcon))]
        exact (hsl0 p hp).2
      | true =>
        rw [hko] at hp
        simp only [if_pos rfl] at hp
        have hAeq : sA = s := by
          rcases hdisjC with h | ⟨hfalse, _⟩
          · exact h
          · rw [hko] at hfalse
            cases hfalse
        rcases List.mem_append.mp hp with hmem | hnew
        · refine Or.inl ⟨(hsl0 p hmem).1, ?_, hsep p hmem⟩
          rw [hAeq]
          exact (hsl0 p hmem).2
        · have hpe : p = ((x : Int), y + 1) := List.mem_singleton.mp hnew
          right
          refine ⟨hpe, ?_, ?_⟩
          · rw [hpe]
            unfold Bnds
            obtain ⟨hx1, hx2⟩ := hxb
            obtain ⟨hy1, hy2'⟩ := hyb
            exact ⟨hx1, hx2, by omega, by omega⟩
          · rw [hpe, hAeq]
            exact hmid2
  · rw [if_neg hy2] at hok
    have hpair := pure_eq_ok hok
    rw [Prod.mk.injEq] at hpair
    obtain ⟨rfl, rfl⟩ := hpair
    exact ⟨Evo.refl hinv, rfl, rfl, prog_refl s,
      fun p hp => Or.inl ⟨(hsl0 p hp).1, (hsl0 p hp).2, hsep p hp⟩⟩

/-- The guarded `y - 1` column check: evolution, progress, and all slots
interior and free afterwards. -/
theorem colCheck2_evo {s s' : St} {x y : Int} {tree : Nat} {sl0 sl : List Pos}
    (hinv : Inv s) (htree : 1 ≤ tree)
    (hxb : 1 ≤ x ∧ x ≤ (s.width : Int) - 2)
    (hyb : 1 ≤ y ∧ y ≤ (s.height : Int) - 2)
    (hsl0 : ∀ p ∈ sl0, Bnds s p ∧ cellAt s p.1.toNat p.2.toNat = 0 ∧
      (p.1.toNat ≠ x.toNat ∨ p.2 = y + 1))
    (hok : colCheck2 s x y tree sl0 = .ok (s', sl)) :
    Evo s s' ∧ s'.entry = s.entry ∧ s'.exit = s.exit ∧ Prog s s' ∧
      ∀ p ∈ sl, Bnds s p ∧ cellAt s' p.1.toNat p.2.toNat = 0 := by
  unfold colCheck2 at hok
  by_cases hy1 : y > 1
  · rw [if_pos hy1] at hok
    rw [bind_eq_ok] at hok
    obtain ⟨cc, hcc, hC2⟩ := hok
    cases cc with
    | false =>
      rw [if_neg (by simp)] at hC2
      have hpair := pure_eq_ok hC2
      rw [Prod.mk.injEq] at hpair
      obtain ⟨rfl, rfl⟩ := hpair
      exact ⟨Evo.refl hinv, rfl, rfl, prog_refl s,
        fun p hp => ⟨(hsl0 p hp).1, (hsl0 p hp).2.1⟩⟩
    | true =>
      rw [if_pos rfl] at hC2
      rw [bind_eq_ok] at hC2
      obtain ⟨⟨sB, okb⟩, hj, hpure⟩ := hC2
      have hpair := pure_eq_ok hpure
      rw [Prod.mk.injEq] at hpair
      obtain ⟨rfl, rfl⟩ := hpair
      obtain ⟨hbc1, hbc2, hbc3, hiff⟩ := check_col_ok hcc
      obtain ⟨hmid1, hmid2, hmid3⟩ := hiff.mp rfl
      have hfree : cellAt s x.toNat (y + (-1 : Int)).toNat = 0 := by
        rw [show (y + (-1 : Int)) = y - 1 from by ring]
        exact hmid2
      obtain ⟨hevoD, hentD, hextD, hoffD, hdisjD⟩ :=
        check_and_join_col_evo hinv htree hfree hj
      have hprogD : Prog s sB := by
        rcases hdisjD with h | ⟨_, h⟩
        · rw [h]
          exact prog_refl s
        · exact Or.inl h
      refine ⟨hevoD, hentD, hextD, hprogD, ?_⟩
      intro p hp
      have hybb := hyb
      cases hko : okb with
      | false =>
        rw [hko] at hp
        simp only [Bool.false_eq_true, if_false] at hp
        obtain ⟨hb, hc, hs⟩ := hsl0 p hp
        refine ⟨hb, ?_⟩
        rcases hs with hs | hs
        · rw [hoffD p.1.toNat p.2.toNat
            (fun hcon => hs (congrArg Prod.fst hcon))
            (fun hcon => hs (congrArg Prod.fst hcon))]
          exact hc
        · rw [hoffD p.1.toNat p.2.toNat
            (by
              intro hcon
              have h2 := congrArg Prod.snd hcon
              simp only at h2
              rw [hs] at h2
              omega)
            (by
              intro hcon
              have h2 := congrArg Prod.snd hcon
              simp only at h2
              rw [hs] at h2
              omega)]
          exact hc
      | true =>
        rw [hko] at hp
        simp only [if_pos rfl] at hp
        have hBeq : sB = s := by
          rcases hdisjD with h | ⟨hfalse, _⟩
          · exact h
          · rw [hko] at hfalse
            cases hfalse
        rcases List.mem_append.mp hp with hmem | hnew
        · obtain ⟨hb, hc, _⟩ := hsl0 p hmem
          refine ⟨hb, ?_⟩
          rw [hBeq]
          exact hc
        · have hpe : p = ((x : Int), y - 1) := List.mem_singleton.mp hnew
          refine ⟨?_, ?_⟩
          · rw [hpe]
            unfold Bnds
            obtain ⟨hx1, hx2⟩ := hxb
            obtain ⟨hy1', hy2'⟩ := hybb
            exact ⟨hx1, hx2, by omega, by omega⟩
          · rw [hpe, hBeq]
            exact hmid2
  · rw [if_neg hy1] at hok
    have hpair := pure_eq_ok hok
    rw [Prod.mk.injEq] at hpair
    obtain ⟨rfl, rfl⟩ := hpair
    exact ⟨Evo.refl hinv, rfl, rfl, prog_refl s,
      fun p hp => ⟨(hsl0 p hp).1, (hsl0 p hp).2.1⟩⟩

/-- The two column checks in sequence. -/
theorem colChecks_evo {s s' : St} {x y : Int} {tree : Nat} {sl0 sl : List Pos}
    (hinv : Inv s) (htree : 1 ≤ tree)
    (hxb : 1 ≤ x ∧ x ≤ (s.width : Int) - 2)
    (hyb : 1 ≤ y ∧ y ≤ (s.height : Int) - 2)
    (hsl0 : ∀ p ∈ sl0, Bnds s p ∧ cellAt s p.1.toNat p.2.toNat = 0)
    (hsep : ∀ p ∈ sl0, p.1.toNat ≠ x.toNat)
    (hok : colChecks s x y tree sl0 = .ok (s', sl)) :
    Evo s s' ∧ s'.entry = s.entry ∧ s'.exit = s.exit ∧ Prog s s' ∧
      ∀ p ∈ sl, Bnds s p ∧ cellAt s' p.1.toNat p.2.toNat = 0 := by
  unfold colChecks at hok
  rw [bind_eq_ok] at hok
  obtain ⟨⟨s1, slots1⟩, hC1, hC2⟩ := hok
  obtain ⟨hevo1, hent1, hext1, hprog1, hsl1⟩ :=
    colCheck1_evo hinv htree hxb hyb hsl0 hsep hC1
  have hxb1 : 1 ≤ x ∧ x ≤ (s1.width : Int) - 2 := by
    rw [hevo1.w]
    exact hxb
  have hyb1 : 1 ≤ y ∧ y ≤ (s1.height : Int) - 2 := by
    rw [hevo1.h]
    exact hyb
  have hsl1' : ∀ p ∈ slots1, Bnds s1 p ∧ cellAt s1 p.1.toNat p.2.toNat = 0 ∧
      (p.1.toNat ≠ x.toNat ∨ p.2 = y + 1) := by
    intro p hp
    rcases hsl1 p hp with ⟨hb, hc, hs⟩ | ⟨hpe, hb, hc⟩
    · exact ⟨bnds_congr hevo1.w hevo1.h hb, hc, Or.inl hs⟩
    · exact ⟨bnds_congr hevo1.w hevo1.h hb, hc, Or.inr (by rw [hpe])⟩
  obtain ⟨hevo2, hent2, hext2, hprog2, hsl2⟩ :=
    colCheck2_evo hevo1.inv htree hxb1 hyb1 hsl1' hC2
  refine ⟨evoTrans hevo1 hevo2, hent2.trans hent1, hext2.trans hext1,
    progTrans hevo2 hprog1 hprog2, ?_⟩
  intro p hp
  obtain ⟨hb, hc⟩ := hsl2 p hp
  exact ⟨bnds_congr hevo1.w.symm hevo1.h.symm hb, hc⟩

/-- The `x + 1` row check: evolution, progress, and the only possible
slot is `(x + 1, y)`, interior and free afterwards. -/
theorem rowCheck1_evo {s s' : St} {x y : Int} {tree : Nat} {sl : List Pos}
    (hinv : Inv s) (htree : 1 ≤ tree)
    (hxb : 1 ≤ x ∧ x + 2 ≤ (s.width : Int) - 1)
    (hyb : 1 ≤ y ∧ y ≤ (s.height : Int) - 2)
    (hok : rowCheck1 s x y tree = .ok (s', sl)) :
    Evo s s' ∧ s'.entry = s.entry ∧ s'.exit = s.exit ∧ Prog s s' ∧
      ∀ p ∈ sl, p = ((x + 1 : Int), y) ∧ Bnds s p ∧
        cellAt s' p.1.toNat p.2.toNat = 0 := by
  unfold rowCheck1 at hok
  rw [bind_eq_ok] at hok
  obtain ⟨cr, hcr, hC2⟩ := hok
  cases cr with
  | false =>
    rw [if_neg (by simp)] at hC2
    have hpair := pure_eq_ok hC2
    rw [Prod.mk.injEq] at hpair
    obtain ⟨rfl, rfl⟩ := hpair
    exact ⟨Evo.refl hinv, rfl, rfl, prog_refl s,
      fun p hp => absurd hp (List.not_mem_nil p)⟩
  | true =>
    rw [if_pos rfl] at hC2
    rw [bind_eq_ok] at hC2
    obtain ⟨⟨sA, okb⟩, hj, hpure⟩ := hC2
    have hpair := pure_eq_ok hpure
    rw [Prod.mk.injEq] at hpair
    obtain ⟨rfl, rfl⟩ := hpair
    obtain ⟨hbc1, hbc2, hbc3, hiff⟩ := check_row_ok hcr
    obtain ⟨hmid1, hmid2, hmid3⟩ := hiff.mp rfl
    obtain ⟨hevoA, hentA, hextA, hoffA, hdisjA⟩ :=
      check_and_join_row_evo hinv htree hmid2 hj
    have hprogA : Prog s sA := by
      rcases hdisjA with h | ⟨_, h⟩
      · rw [h]
        exact prog_refl s
      · exact Or.inl h
    refine ⟨hevoA, hentA, hextA, hprogA, ?_⟩
    intro p hp
    cases hko : okb with
    | false =>
      rw [hko] at hp
      simp only [Bool.false_eq_true, if_false] at hp
      exact absurd hp (List.not_mem_nil p)
    | true =>
      rw [hko] at hp
      simp only [if_pos rfl] at hp
      have hAeq : sA = s := by
        rcases hdisjA with h | ⟨hfalse, _⟩
        · exact h
        · rw [hko] at hfalse
          cases hfalse
      have hpe : p = ((x + 1 : Int), y) := List.mem_singleton.mp hp
      refine ⟨hpe, ?_, ?_⟩
      · rw [hpe]
        unfold Bnds
        obtain ⟨hx1, hx2⟩ := hxb
        obtain ⟨hy1, hy2⟩ := hyb
        exact ⟨by omega, by omega, hy1, hy2⟩
      · rw [hpe, hAeq]
        exact hmid2

/-- The `x - 1` row check (reached only when `x > 1`): evolution, progress,
and all slots interior, free afterwards, and off the column of `x`. -/
theorem rowCheck2_evo {s s' : St} {x y : Int} {tree : Nat} {sl0 sl : List Pos}
    (hinv : Inv s) (htree : 1 ≤ tree)
    (hx1 : 1 < x) (hxw : x ≤ (s.width : Int) - 2)
    (hyb : 1 ≤ y ∧ y ≤ (s.height : Int) - 2)
    (hsl0 : ∀ p ∈ sl0, p = ((x + 1 : Int), y) ∧ Bnds s p ∧
      cellAt s p.1.toNat p.2.toNat = 0)
    (hok : rowCheck2 s x y tree sl0 = .ok (s', sl)) :
    Evo s s' ∧ s'.entry = s.entry ∧ s'.exit = s.exit ∧ Prog s s' ∧
      ∀ p ∈ sl, Bnds s p ∧ cellAt s' p.1.toNat p.2.toNat = 0 ∧
        p.1.toNat ≠ x.toNat := by
  unfold rowCheck2 at hok
  rw [bind_eq_ok] at hok
  obtain ⟨cr, hcr, hC2⟩ := hok
  cases cr with
  | false =>
    rw [if_neg (by simp)] at hC2
    have hpair := pure_eq_ok hC2
    rw [Prod.mk.injEq] at hpair
    obtain ⟨rfl, rfl⟩ := hpair
    refine ⟨Evo.refl hinv, rfl, rfl, prog_refl s, ?_⟩
    intro p hp
    obtain ⟨hpe, hb, hc⟩ := hsl0 p hp
    refine ⟨hb, hc, ?_⟩
    rw [hpe]
    simp only
    omega
  | true =>
    rw [if_pos rfl] at hC2
    rw [bind_eq_ok] at hC2
    obtain ⟨⟨sB, okb⟩, hj, hpure⟩ := hC2
    have hpair := pure_eq_ok hpure
    rw [Prod.mk.injEq] at hpair
    obtain ⟨rfl, rfl⟩ := hpair
    obtain ⟨hbc1, hbc2, hbc3, hiff⟩ := check_row_ok hcr
    obtain ⟨hmid1, hmid2, hmid3⟩ := hiff.mp rfl
    have hfree : cellAt s (x + (-1 : Int)).toNat y.toNat = 0 := by
      rw [show (x + (-1 : Int)) = x - 1 from by ring]
      exact hmid2
    obtain ⟨hevoB, hentB, hextB, hoffB, hdisjB⟩ :=
      check_and_join_row_evo hinv htree hfree hj
    have hprogB : Prog s sB := by
      rcases hdisjB with h | ⟨_, h⟩
      · rw [h]
        exact prog_refl s
      · exact Or.inl h
    refine ⟨hevoB, hentB, hextB, hprogB, ?_⟩
    intro p hp
    cases hko : okb with
    | false =>
      rw [hko] at hp
      simp only [Bool.false_eq_true, if_false] at hp
      obtain ⟨hpe, hb, hc⟩ := hsl0 p hp
      refine ⟨hb, ?_, ?_⟩
      · rw [hoffB p.1.toNat p.2.toNat
          (by
            intro hcon
            have h1 := congrArg Prod.fst hcon
            rw [hpe] at h1
            simp only at h1
            omega)
          (by
            intro hcon
            have h1 := congrArg Prod.fst hcon
            rw [hpe] at h1
            simp only at h1
            omega)]
        exact hc
      · rw [hpe]
        simp only
        omega
    | true =>
      rw [hko] at hp
      simp only [if_pos rfl] at hp
      have hBeq : sB = s := by
        rcases hdisjB with h | ⟨hfalse, _⟩
        · exact h
        · rw [hko] at hfalse
          cases hfalse
      rcases List.mem_append.mp hp with hmem | hnew
      · obtain ⟨hpe, hb, hc⟩ := hsl0 p hmem
        refine ⟨hb, by rw [hBeq]; exact hc, ?_⟩
        rw [hpe]
        simp only
        omega
      · have hpe : p = ((x - 1 : Int), y) := List.mem_singleton.mp hnew
        refine ⟨?_, ?_, ?_⟩
        · rw [hpe]
          unfold Bnds
          obtain ⟨hy1, hy2⟩ := hyb
          exact ⟨by omega, by omega, hy1, hy2⟩
        · rw [hpe, hBeq]
          exact hmid2
        · rw [hpe]
          simp only
          omega

/-- `__free_spots` from an interior frontier position: evolution, the
progress disjunction, and every returned slot is interior and free in the
resulting state. -/
theorem free_spots_evo {s s' : St} {x y : Int} {tree : Nat} {sl : List Pos}
    (hinv : Inv s) (htree : 1 ≤ tree)
    (hxb : 1 ≤ x ∧ x ≤ (s.width : Int) - 2)
    (hyb : 1 ≤ y ∧ y ≤ (s.height : Int) - 2)
    (hok : free_spots s (x, y) tree = .ok (s', sl)) :
    Evo s s' ∧ Prog s s' ∧
      ∀ p ∈ sl, Bnds s p ∧ cellAt s' p.1.toNat p.2.toNat = 0 := by
  unfold free_spots at hok
  dsimp only [] at hok
  by_cases hedge : x + 2 = (s.width : Int)
  · rw [if_pos (beq_iff_eq.mpr hedge)] at hok
    cases hex : s.exit with
    | none =>
      rw [hex] at hok
      rw [if_pos (show (none : Option Pos).isNone = true from rfl)] at hok
      rw [bind_eq_ok] at hok
      obtain ⟨s1, hw1, hpure⟩ := hok
      have hpair := pure_eq_ok hpure
      rw [Prod.mk.injEq] at hpair
      obtain ⟨rfl, rfl⟩ := hpair
      obtain ⟨hevo1, hent1, hext1, hdisj1⟩ := writeCell_prog hinv htree hw1
      have hq : ((x + 1 : Int), y).1 = (s1.width : Int) - 1 ∧
          0 ≤ ((x + 1 : Int), y).2 ∧ ((x + 1 : Int), y).2 < (s1.height : Int) := by
        rw [hevo1.w, hevo1.h]
        simp only
        obtain ⟨hy1, hy2⟩ := hyb
        refine ⟨by omega, by omega, by omega⟩
      obtain ⟨hevo2, hu2, ht2, hm2⟩ :=
        setExit_evo hevo1.inv (by rw [hext1]; exact hex) hq
      refine ⟨evoTrans hevo1 hevo2, ?_,
        fun p hp => absurd hp (List.not_mem_nil p)⟩
      have hprog1 : Prog s s1 := by
        rcases hdisj1 with h | ⟨hu, ht, hm⟩
        · exact Or.inl h
        · exact Or.inr ⟨ht, hm, hu⟩
      exact progTrans hevo2 hprog1 (Or.inr ⟨ht2, hm2, hu2⟩)
    | some q =>
      rw [hex] at hok
      rw [if_neg (by simp)] at hok
      have hpair := pure_eq_ok hok
      rw [Prod.mk.injEq] at hpair
      obtain ⟨rfl, rfl⟩ := hpair
      exact ⟨Evo.refl hinv, prog_refl s,
        fun p hp => absurd hp (List.not_mem_nil p)⟩
  · rw [if_neg (by simpa using hedge)] at hok
    rw [bind_eq_ok] at hok
    obtain ⟨⟨s1, slots1⟩, hR1, hok2⟩ := hok
    have hxb1 : 1 ≤ x ∧ x + 2 ≤ (s.width : Int) - 1 := by
      obtain ⟨hx1, hx2⟩ := hxb
      exact ⟨hx1, by omega⟩
    obtain ⟨hevo1, hent1, hext1, hprog1, hsl1⟩ :=
      rowCheck1_evo hinv htree hxb1 hyb hR1
    have hw1 : s1.width = s.width := hevo1.w
    have hh1 : s1.height = s.height := hevo1.h
    by_cases hx1 : x > 1
    · rw [if_pos hx1] at hok2
      rw [bind_eq_ok] at hok2
      obtain ⟨⟨s2, slots2⟩, hR2, hok3⟩ := hok2
      obtain ⟨hevo2, hent2, hext2, hprog2, hsl2⟩ :=
        rowCheck2_evo hevo1.inv htree hx1 (by rw [hw1]; exact hxb.2)
          (by rw [hh1]; exact hyb)
          (fun p hp => ⟨(hsl1 p hp).1,
            bnds_congr hw1 hh1 (hsl1 p hp).2.1, (hsl1 p hp).2.2⟩) hR2
      have hw2 : s2.width = s.width := hevo2.w.trans hw1
      have hh2 : s2.height = s.height := hevo2.h.trans hh1
      obtain ⟨hevo3, hent3, hext3, hprog3, hsl3⟩ :=
        colChecks_evo hevo2.inv htree (by rw [hw2]; exact hxb)
          (by rw [hh2]; exact hyb)
          (fun p hp => ⟨bnds_congr hevo2.w hevo2.h (hsl2 p hp).1,
            (hsl2 p hp).2.1⟩)
          (fun p hp => (hsl2 p hp).2.2) hok3
      refine ⟨evoTrans hevo1 (evoTrans hevo2 hevo3),
        progTrans hevo3 (progTrans hevo2 hprog1 hprog2) hprog3, ?_⟩
      intro p hp
      obtain ⟨hb, hc⟩ := hsl3 p hp
      exact ⟨bnds_congr hw2.symm hh2.symm hb, hc⟩
    · rw [if_neg hx1] at hok2
      cases hent : s1.entry with
      | none =>
        rw [hent] at hok2
        rw [if_pos (show (none : Option Pos).isNone = true from rfl)] at hok2
        rw [bind_eq_ok] at hok2
        obtain ⟨s2, hw2', hpure⟩ := hok2
        have hpair := pure_eq_ok hpure
        rw [Prod.mk.injEq] at hpair
        obtain ⟨rfl, rfl⟩ := hpair
        obtain ⟨hevo2, hent2, hext2, hdisj2⟩ :=
          writeCell_prog hevo1.inv htree hw2'
        have hq : ((0 : Int), y).1 = 0 ∧
            0 ≤ ((0 : Int), y).2 ∧ ((0 : Int), y).2 < (s2.height : Int) := by
          rw [hevo2.h, hh1]
          simp only
          obtain ⟨hy1, hy2⟩ := hyb
          exact ⟨by trivial, by omega, by omega⟩
        obtain ⟨hevo3, hu3, ht3, hm3⟩ :=
          setEntry_evo hevo2.inv (by rw [hent2]; exact hent) hq
        refine ⟨evoTrans hevo1 (evoTrans hevo2 hevo3), ?_,
          fun p hp => absurd hp (List.not_mem_nil p)⟩
        have hprog2 : Prog s1 s2 := by
          rcases hdisj2 with h | ⟨hu, ht, hm⟩
          · exact Or.inl h
          · exact Or.inr ⟨ht, hm, hu⟩
        exact progTrans hevo3 (progTrans hevo2 hprog1 hprog2)
          (Or.inr ⟨ht3, hm3, hu3⟩)
      | some q =>
        rw [hent] at hok2
        rw [if_neg (by simp)] at hok2
        obtain ⟨hevo3, hent3, hext3, hprog3, hsl3⟩ :=
          colChecks_evo hevo1.inv htree (by rw [hw1]; exact hxb)
            (by rw [hh1]; exact hyb)
            (fun p hp => ⟨bnds_congr hw1 hh1 (hsl1 p hp).2.1,
              (hsl1 p hp).2.2⟩)
            (fun p hp => by
              have hpe := (hsl1 p hp).1
              rw [hpe]
              simp only
              omega) hok2
        refine ⟨evoTrans hevo1 hevo3,
          progTrans hevo3 hprog1 hprog3, ?_⟩
        intro p hp
        obtain ⟨hb, hc⟩ := hsl3 p hp
        exact ⟨bnds_congr hw1.symm hh1.symm hb, hc⟩

theorem sampleList_mem {moves : List Pos} {k : Nat} {sel : List Nat}
    (hk : k ≤ moves.length) : ∀ p ∈ sampleList moves k sel, p ∈ moves := by
  intro p hp
  obtain ⟨hl, hnd2, hlt⟩ := samplePick_spec sel moves.length k hk
  unfold sampleList at hp
  simp only [List.mem_map] at hp
  obtain ⟨i, hi, hgd⟩ := hp
  have hilen := hlt i hi
  have hge : moves.getD i ((0 : Int), (0 : Int)) = moves[i] := by
    rw [List.getD_eq_getElem?_getD, List.getElem?_eq_getElem hilen]
    rfl
  rw [← hgd, hge]
  exact List.getElem_mem hilen

theorem new_branches_mem (s : St) (moves : List Pos) (r : Rnd) :
    ∀ p ∈ (new_branches s moves r).1, p ∈ moves := by
  cases hst : s.strategy with
  | RANDOM =>
    by_cases hlen : moves.length > 1
    · have hres : new_branches s moves r =
          (sampleList moves
            (if 1 ≤ (drawSize r).1 ∧ (drawSize r).1 ≤ moves.length - 1
              then (drawSize r).1 else 1) (drawPick (drawSize r).2).1,
           (drawPick (drawSize r).2).2) := by
        unfold new_branches
        rw [hst, if_pos hlen]
      rw [hres]
      refine sampleList_mem ?_
      split
      · next hcond => omega
      · omega
    · have hres : new_branches s moves r = (moves, r) := by
        unfold new_branches
        rw [hst, if_neg hlen]
      rw [hres]
      exact fun p hp => hp
  | PARTIAL =>
    have hres : new_branches s moves r =
        (sampleList moves (min moves.length 2) (drawPick r).1, (drawPick r).2) := by
      unfold new_branches
      rw [hst]
    rw [hres]
    exact sampleList_mem (min_le_left _ _)
  | FULL =>
    have hres : new_branches s moves r = (moves, r) := by
      unfold new_branches
      rw [hst]
    rw [hres]
    exact fun p hp => hp

theorem activateList_evo {tree : Nat} (htree : 1 ≤ tree) :
    ∀ {l : List Pos} {s s' : St}, Inv s → activateList s tree l = .ok s' →
      Evo s s' ∧ s'.entry = s.entry ∧ s'.exit = s.exit ∧
        s'.trees = s.trees ∧ s'.mappings = s.mappings
  | [], s, s', hinv, hok => by
      unfold activateList at hok
      cases hok
      exact ⟨Evo.refl hinv, rfl, rfl, rfl, rfl⟩
  | p :: rest, s, s', hinv, hok => by
      unfold activateList at hok
      rw [bind_eq_ok] at hok
      obtain ⟨s1, hw, hrest⟩ := hok
      obtain ⟨hevo1, hm1, ht1, he1, hx1⟩ := writeCell_evo hinv htree hw
      obtain ⟨hevo2, he2, hx2, ht2, hm2⟩ := activateList_evo htree hevo1.inv hrest
      exact ⟨evoTrans hevo1 hevo2, he2.trans he1, hx2.trans hx1,
        ht2.trans ht1, hm2.trans hm1⟩

theorem activateList_strict {tree : Nat} {p : Pos} {rest : List Pos}
    {s s' : St} (hinv : Inv s) (htree : 1 ≤ tree)
    (hz : cellAt s p.1.toNat p.2.toNat = 0)
    (hok : activateList s tree (p :: rest) = .ok s') :
    unocc s' < unocc s := by
  unfold activateList at hok
  rw [bind_eq_ok] at hok
  obtain ⟨s1, hw, hrest⟩ := hok
  have h1 := writeCell_strict hinv htree hz hw
  obtain ⟨hevo1, _, _, _, _⟩ := writeCell_evo hinv htree hw
  obtain ⟨hevo2, _, _, _, _⟩ := activateList_evo htree hevo1.inv hrest
  have h2 : unocc s' ≤ unocc s1 := unocc_mono hevo2.w hevo2.h hevo2.grid
  omega

/-- `__branch_out` from an interior frontier position: evolution, the
activated moves are interior, and either the measure strictly drops or
nothing happened (no moves, no tree / partition / occupancy change). -/
theorem branch_out_evo {s s' : St} {x y : Int} {tree : Nat} {moves : List Pos}
    {r r' : Rnd} (hinv : Inv s) (htree : 1 ≤ tree)
    (hxb : 1 ≤ x ∧ x ≤ (s.width : Int) - 2)
    (hyb : 1 ≤ y ∧ y ≤ (s.height : Int) - 2)
    (hok : branch_out s (x, y) tree r = .ok (s', moves, r')) :
    Evo s s' ∧ (∀ p ∈ moves, Bnds s p) ∧
      (meas s' < meas s ∨
        (moves = [] ∧ s'.trees = s.trees ∧ s'.mappings = s.mappings ∧
          unocc s' = unocc s)) := by
  unfold branch_out at hok
  rw [bind_eq_ok] at hok
  obtain ⟨⟨s1, spots⟩, hfs, hok2⟩ := hok
  dsimp only at hok2
  obtain ⟨hevo1, hprog1, hsl1⟩ := free_spots_evo hinv htree hxb hyb hfs
  cases hnb : new_branches s1 spots r with
  | mk mv r1 =>
    rw [hnb] at hok2
    dsimp only at hok2
    rw [bind_eq_ok] at hok2
    obtain ⟨s2, hact, hpure⟩ := hok2
    have hpair := pure_eq_ok hpure
    rw [Prod.mk.injEq] at hpair
    obtain ⟨rfl, hpair2⟩ := hpair
    rw [Prod.mk.injEq] at hpair2
    obtain ⟨rfl, rfl⟩ := hpair2
    have hmem : ∀ p ∈ mv, p ∈ spots := by
      intro p hp
      have := new_branches_mem s1 spots r
      rw [hnb] at this
      exact this p hp
    obtain ⟨hevo2, he2, hx2, ht2, hm2⟩ := activateList_evo htree hevo1.inv hact
    refine ⟨evoTrans hevo1 hevo2, ?_, ?_⟩
    · intro p hp
      exact (hsl1 p (hmem p hp)).1
    · cases hmv : mv with
      | nil =>
        rw [hmv] at hact
        unfold activateList at hact
        cases hact
        rcases hprog1 with h | ⟨ht, hm, hu⟩
        · exact Or.inl h
        · exact Or.inr ⟨rfl, ht, hm, hu⟩
      | cons q restmv =>
        left
        have hz : cellAt s1 q.1.toNat q.2.toNat = 0 := by
          have hq : q ∈ mv := by
            rw [hmv]
            exact List.mem_cons_self q restmv
          exact (hsl1 q (hmem q hq)).2
        rw [hmv] at hact
        have hstrict := activateList_strict hevo1.inv htree hz hact
        have hmeas2 : meas s2 < meas s1 := by
          have hlen : s2.trees.length = s1.trees.length := by rw [ht2]
          unfold meas
          omega
        exact lt_of_lt_of_le hmeas2 hevo1.mu

/-- Per-tree frontier preservation: the operation leaves this tree's
frontier entry untouched, or removes it (a merge of the tree into another
one).  No sub-operation of the growth loop ever extends the frontier of
the tree it is currently processing. -/
def TreePres (t : Nat) (s s' : St) : Prop :=
  alGet s'.trees t = alGet s.trees t ∨ alGet s'.trees t = none

theorem treePres_refl (t : Nat) (s : St) : TreePres t s s := Or.inl rfl

theorem treePres_trans {t : Nat} {s1 s2 s3 : St} (h12 : TreePres t s1 s2)
    (h23 : TreePres t s2 s3) : TreePres t s1 s3 := by
  rcases h23 with h | h
  · rcases h12 with h2 | h2
    · exact Or.inl (h.trans h2)
    · exact Or.inr (h.trans h2)
  · exact Or.inr h

theorem writeCell_trees {s s' : St} {x y : Int} {v : Nat}
    (hok : writeCell s x y v = .ok s') : s'.trees = s.trees := by
  have h := writeCell_ok hok
  subst h
  rfl

theorem remap_self {s s' : St} {t1 t2 : Nat} (hok : remap s t1 t2 = .ok s') :
    TreePres t1 s s' := by
  unfold remap at hok
  cases h1 : alGet s.trees t1 with
  | none =>
    rw [h1] at hok
    have hs := Except.ok.inj hok
    subst hs
    exact treePres_refl t1 _
  | some l1 =>
    rw [h1] at hok
    cases h2 : alGet s.trees t2 with
    | none =>
      rw [h2] at hok
      cases hok
    | some l2 =>
      rw [h2] at hok
      have hs := (Except.ok.inj hok).symm
      right
      rw [hs]
      exact alGet_alDel_self _ _

theorem joinScan_self {tree : Nat} {bx1 by1 bx2 by2 : Int} :
    ∀ {ms : List Nat} {s s' : St} {b : Bool},
      joinScan s tree bx1 by1 bx2 by2 ms = .ok (s', b) → TreePres tree s s'
  | [], s, s', b, hok => by
      unfold joinScan at hok
      have h := Except.ok.inj hok
      cases h
      exact treePres_refl tree s
  | m :: rest, s, s', b, hok => by
      unfold joinScan at hok
      by_cases hm : m = 0
      · rw [if_pos (by simp [hm])] at hok
        exact joinScan_self hok
      · rw [if_neg (by simp [hm])] at hok
        by_cases hmain : (alGet s.mappings m).getD tree ≠ tree
        · rw [if_pos hmain] at hok
          rw [bind_eq_ok] at hok
          obtain ⟨s1, hw1, hok⟩ := hok
          rw [bind_eq_ok] at hok
          obtain ⟨s2, hw2, hok⟩ := hok
          rw [bind_eq_ok] at hok
          obtain ⟨s3, hr3, hok⟩ := hok
          have hfin := Except.ok.inj hok
          cases hfin
          have ht1 := writeCell_trees hw1
          have ht2 := writeCell_trees hw2
          rcases remap_self hr3 with h | h
          · exact Or.inl (by rw [h, ht2, ht1])
          · exact Or.inr h
        · rw [if_neg hmain] at hok
          have hfin := Except.ok.inj hok
          cases hfin
          exact treePres_refl tree s

theorem check_and_join_row_self {s s' : St} {x y : Int} {tree : Nat}
    {inc : Int} {b : Bool}
    (hok : check_and_join_row s x y tree inc = .ok (s', b)) :
    TreePres tree s s' := by
  unfold check_and_join_row at hok
  rw [bind_eq_ok] at hok
  obtain ⟨m1, h1, hok⟩ := hok
  rw [bind_eq_ok] at hok
  obtain ⟨m2, h2, hok⟩ := hok
  rw [bind_eq_ok] at hok
  obtain ⟨m3, h3, hok⟩ := hok
  exact joinScan_self hok

theorem check_and_join_col_self {s s' : St} {x y : Int} {tree : Nat}
    {inc : Int} {b : Bool}
    (hok : check_and_join_col s x y tree inc = .ok (s', b)) :
    TreePres tree s s' := by
  unfold check_and_join_col at hok
  rw [bind_eq_ok] at hok
  obtain ⟨m1, h1, hok⟩ := hok
  rw [bind_eq_ok] at hok
  obtain ⟨m2, h2, hok⟩ := hok
  rw [bind_eq_ok] at hok
  obtain ⟨m3, h3, hok⟩ := hok
  exact joinScan_self hok

theorem rowCheck1_self {s s' : St} {x y : Int} {tree : Nat} {sl : List Pos}
    (hok : rowCheck1 s x y tree = .ok (s', sl)) : TreePres tree s s' := by
  unfold rowCheck1 at hok
  rw [bind_eq_ok] at hok
  obtain ⟨cr, hcr, h2⟩ := hok
  cases cr with
  | false =>
    rw [if_neg (by simp)] at h2
    have hpair := pure_eq_ok h2
    rw [Prod.mk.injEq] at hpair
    obtain ⟨rfl, rfl⟩ := hpair
    exact treePres_refl tree _
  | true =>
    rw [if_pos rfl] at h2
    rw [bind_eq_ok] at h2
    obtain ⟨⟨sA, okb⟩, hj, hpure⟩ := h2
    have hpair := pure_eq_ok hpure
    rw [Prod.mk.injEq] at hpair
    obtain ⟨rfl, rfl⟩ := hpair
    exact check_and_join_row_self hj

theorem rowCheck2_self {s s' : St} {x y : Int} {tree : Nat} {sl0 sl : List Pos}
    (hok : rowCheck2 s x y tree sl0 = .ok (s', sl)) : TreePres tree s s' := by
  unfold rowCheck2 at hok
  rw [bind_eq_ok] at hok
  obtain ⟨cr, hcr, h2⟩ := hok
  cases cr with
  | false =>
    rw [if_neg (by simp)] at h2
    have hpair := pure_eq_ok h2
    rw [Prod.mk.injEq] at hpair
    obtain ⟨rfl, rfl⟩ := hpair
    exact treePres_refl tree _
  | true =>
    rw [if_pos rfl] at h2
    rw [bind_eq_ok] at h2
    obtain ⟨⟨sA, okb⟩, hj, hpure⟩ := h2
    have hpair := pure_eq_ok hpure
    rw [Prod.mk.injEq] at hpair
    obtain ⟨rfl, rfl⟩ := hpair
    exact check_and_join_row_self hj

theorem colCheck1_self {s s' : St} {x y : Int} {tree : Nat} {sl0 sl : List Pos}
    (hok : colCheck1 s x y tree sl0 = .ok (s', sl)) : TreePres tree s s' := by
  unfold colCheck1 at hok
  by_cases hy2 : y + 2 < (s.height : Int)
  · rw [if_pos hy2] at hok
    rw [bind_eq_ok] at hok
    obtain ⟨cc, hcc, h2⟩ := hok
    cases cc with
    | false =>
      rw [if_neg (by simp)] at h2
      have hpair := pure_eq_ok h2
      rw [Prod.mk.injEq] at hpair
      obtain ⟨rfl, rfl⟩ := hpair
      exact treePres_refl tree _
    | true =>
      rw [if_pos rfl] at h2
      rw [bind_eq_ok] at h2
      obtain ⟨⟨sA, okb⟩, hj, hpure⟩ := h2
      have hpair := pure_eq_ok hpure
      rw [Prod.mk.injEq] at hpair
      obtain ⟨rfl, rfl⟩ := hpair
      exact check_and_join_col_self hj
  · rw [if_neg hy2] at hok
    have hpair := pure_eq_ok hok
    rw [Prod.mk.injEq] at hpair
    obtain ⟨rfl, rfl⟩ := hpair
    exact treePres_refl tree _

theorem colCheck2_self {s s' : St} {x y : Int} {tree : Nat} {sl0 sl : List Pos}
    (hok : colCheck2 s x y tree sl0 = .ok (s', sl)) : TreePres tree s s' := by
  unfold colCheck2 at hok
  by_cases hy1 : y > 1
  · rw [if_pos hy1] at hok
    rw [bind_eq_ok] at hok
    obtain ⟨cc, hcc, h2⟩ := hok
    cases cc with
    | false =>
      rw [if_neg (by simp)] at h2
      have hpair := pure_eq_ok h2
      rw [Prod.mk.injEq] at hpair
      obtain ⟨rfl, rfl⟩ := hpair
      exact treePres_refl tree _
    | true =>
      rw [if_pos rfl] at h2
      rw [bind_eq_ok] at h2
      obtain ⟨⟨sA, okb⟩, hj, hpure⟩ := h2
      have hpair := pure_eq_ok hpure
      rw [Prod.mk.injEq] at hpair
      obtain ⟨rfl, rfl⟩ := hpair
      exact check_and_join_col_self hj
  · rw [if_neg hy1] at hok
    have hpair := pure_eq_ok hok
    rw [Prod.mk.injEq] at hpair
    obtain ⟨rfl, rfl⟩ := hpair
    exact treePres_refl tree _

theorem colChecks_self {s s' : St} {x y : Int} {tree : Nat} {sl0 sl : List Pos}
    (hok : colChecks s x y tree sl0 = .ok (s', sl)) : TreePres tree s s' := by
  unfold colChecks at hok
  rw [bind_eq_ok] at hok
  obtain ⟨⟨s1, slots1⟩, h1, h2⟩ := hok
  exact treePres_trans (colCheck1_self h1) (colCheck2_self h2)

theorem free_spots_self {s s' : St} {x y : Int} {tree : Nat} {sl : List Pos}
    (hok : free_spots s (x, y) tree = .ok (s', sl)) : TreePres tree s s' := by
  unfold free_spots at hok
  dsimp only [] at hok
  by_cases hedge : x + 2 = (s.width : Int)
  · rw [if_pos (beq_iff_eq.mpr hedge)] at hok
    cases hex : s.exit with
    | none =>
      rw [hex] at hok
      rw [if_pos (show (none : Option Pos).isNone = true from rfl)] at hok
      rw [bind_eq_ok] at hok
      obtain ⟨s1, hw1, hpure⟩ := hok
      have hpair := pure_eq_ok hpure
      rw [Prod.mk.injEq] at hpair
      obtain ⟨rfl, rfl⟩ := hpair
      left
      show alGet s1.trees tree = alGet s.trees tree
      rw [writeCell_trees hw1]
    | some q =>
      rw [hex] at hok
      rw [if_neg (by simp)] at hok
      have hpair := pure_eq_ok hok
      rw [Prod.mk.injEq] at hpair
      obtain ⟨rfl, rfl⟩ := hpair
      exact treePres_refl tree _
  · rw [if_neg (by simpa using hedge)] at hok
    rw [bind_eq_ok] at hok
    obtain ⟨⟨s1, slots1⟩, hR1, hok2⟩ := hok
    have hp1 := rowCheck1_self hR1
    by_cases hx1 : x > 1
    · rw [if_pos hx1] at hok2
      rw [bind_eq_ok] at hok2
      obtain ⟨⟨s2, slots2⟩, hR2, hok3⟩ := hok2
      exact treePres_trans hp1
        (treePres_trans (rowCheck2_self hR2) (colChecks_self hok3))
    · rw [if_neg hx1] at hok2
      cases hent : s1.entry with
      | none =>
        rw [hent] at hok2
        rw [if_pos (show (none : Option Pos).isNone = true from rfl)] at hok2
        rw [bind_eq_ok] at hok2
        obtain ⟨s2, hw2, hpure⟩ := hok2
        have hpair := pure_eq_ok hpure
        rw [Prod.mk.injEq] at hpair
        obtain ⟨rfl, rfl⟩ := hpair
        refine treePres_trans hp1 (Or.inl ?_)
        show alGet s2.trees tree = alGet s1.trees tree
        rw [writeCell_trees hw2]
      | some q =>
        rw [hent] at hok2
        rw [if_neg (by simp)] at hok2
        exact treePres_trans hp1 (colChecks_self hok2)

theorem branch_out_self {s s' : St} {pos : Pos} {tree : Nat}
    {moves : List Pos} {r r' : Rnd}
    (hok : branch_out s pos tree r = .ok (s', moves, r')) :
    TreePres tree s s' := by
  unfold branch_out at hok
  rw [bind_eq_ok] at hok
  obtain ⟨⟨s1, spots⟩, hfs, hok2⟩ := hok
  dsimp only at hok2
  cases hnb : new_branches s1 spots r with
  | mk mv r1 =>
    rw [hnb] at hok2
    dsimp only at hok2
    rw [bind_eq_ok] at hok2
    obtain ⟨s2, hact, hpure⟩ := hok2
    have hpair := pure_eq_ok hpure
    rw [Prod.mk.injEq] at hpair
    obtain ⟨rfl, hpair2⟩ := hpair
    have hfsp : TreePres tree s s1 := by
      cases pos with
      | mk px py => exact free_spots_self hfs
    refine treePres_trans hfsp (Or.inl ?_)
    rw [(activateList_same hact).2.2.2.2.2.1]

/-- One branch step under full growth rate: the gate always fires, the
indexed branch is popped, and either the measure strictly drops or
nothing else changed. -/
theorem processBranch_evo {s s' : St} {tree i : Nat} {r r' : Rnd}
    {heads heads' : List Pos} (hinv : Inv s) (htree : 1 ≤ tree)
    (hrate : (1 : ℚ) ≤ s.rate)
    (hbr : alGet s.trees tree = none ∨
      ∃ br, alGet s.trees tree = some br ∧ br.length = i + 1)
    (hok : processBranch s tree i r heads = .ok (s', r', heads')) :
    Evo s s' ∧ (∀ p ∈ heads', p ∈ heads ∨ Bnds s p) ∧
      (alGet s'.trees tree = none ∨
        ∃ br', alGet s'.trees tree = some br' ∧ br'.length = i) ∧
      (meas s' < meas s ∨
        (heads' = heads ∧ s'.mappings = s.mappings ∧ unocc s' = unocc s ∧
          s'.trees.length = s.trees.length ∧
          (alGet s.trees tree = none → alGet s'.trees tree = none) ∧
          (∀ br0, alGet s.trees tree = some br0 →
            alGet s'.trees tree = some (br0.eraseIdx i)))) := by
  unfold processBranch at hok
  rcases hbr with hget | ⟨br, hget, hlen⟩
  · rw [hget] at hok
    dsimp only at hok
    have hfin := Except.ok.inj hok
    cases hfin
    exact ⟨Evo.refl hinv, fun p hp => Or.inl hp, Or.inl hget,
      Or.inr ⟨rfl, rfl, rfl, rfl, fun _ => hget,
        fun br0 hbr0 => by rw [hget] at hbr0; cases hbr0⟩⟩
  · rw [hget] at hok
    dsimp only at hok
    rw [if_neg (by
      rw [List.isEmpty_iff]
      intro hc
      rw [hc] at hlen
      exact absurd hlen (by simp))] at hok
    cases hdg : drawGate r with
    | mk q r1 =>
      rw [hdg] at hok
      dsimp only at hok
      have hq1 : q < 1 := by
        have hb := (drawGate_bounds r).2
        rw [hdg] at hb
        exact hb
      rw [if_pos (lt_of_lt_of_le hq1 hrate)] at hok
      rw [bind_eq_ok] at hok
      obtain ⟨⟨s2, mv, r2⟩, hbo, hpure⟩ := hok
      have hpair := pure_eq_ok hpure
      rw [Prod.mk.injEq] at hpair
      obtain ⟨rfl, hpair2⟩ := hpair
      rw [Prod.mk.injEq] at hpair2
      obtain ⟨rfl, rfl⟩ := hpair2
      have hmem_tree : (tree, br) ∈ s.trees := alGet_mem hget
      have hinvS1 : Inv { s with trees := alSet s.trees tree (br.eraseIdx i) } := by
        refine ⟨⟨hinv.dims.1, hinv.dims.2⟩, ?_, ?_, hinv.mkeys, hinv.flat,
          ?_, hinv.ent, hinv.ext⟩
        · intro p hp q' hq'
          rcases mem_alSet hp with hmem | rfl
          · exact hinv.tpos p hmem q' hq'
          · exact hinv.tpos (tree, br) hmem_tree q'
              ((List.eraseIdx_sublist br i).subset hq')
        · intro p hp
          rcases mem_alSet hp with hmem | rfl
          · exact hinv.tkeys p hmem
          · exact htree
        · intro p hp
          rcases mem_alSet hp with hmem | rfl
          · exact hinv.livecan p hmem
          · exact hinv.livecan (tree, br) hmem_tree
      have hlenS1 : (alSet s.trees tree (br.eraseIdx i)).length =
          s.trees.length := alSet_length _ _ _ (find?_isSome_of_alGet hget)
      have huS1 : unocc { s with trees := alSet s.trees tree (br.eraseIdx i) } =
          unocc s := unocc_eq_of_grid rfl rfl rfl
      have hmeasS1 : meas { s with trees := alSet s.trees tree (br.eraseIdx i) } =
          meas s := by
        unfold meas
        rw [huS1]
        simp only
        rw [hlenS1]
      have hevoS1 : Evo s { s with trees := alSet s.trees tree (br.eraseIdx i) } := by
        refine ⟨rfl, rfl, rfl, rfl, hinvS1, fun p hp => hp, fun p hp => hp,
          fun a b hab => hab, ?_, le_of_eq hmeasS1⟩
        intro k a h1
        exact ⟨a, h1, hinv.flat (k, a) (alGet_mem h1)⟩
      have hil : i < br.length := by omega
      have hpos_mem : br.getD i ((0 : Int), (0 : Int)) ∈ br := by
        rw [List.getD_eq_getElem?_getD, List.getElem?_eq_getElem hil]
        exact List.getElem_mem hil
      have hpos_b := hinv.tpos (tree, br) hmem_tree _ hpos_mem
      cases hpos : br.getD i ((0 : Int), (0 : Int)) with
      | mk px py =>
        rw [hpos] at hbo hpos_b
        obtain ⟨hevoB, hmoves, hdisj⟩ :=
          branch_out_evo hinvS1 htree
            ⟨hpos_b.1, hpos_b.2.1⟩ ⟨hpos_b.2.2.1, hpos_b.2.2.2⟩ hbo
        have hfront : alGet s2.trees tree = none ∨
            ∃ br', alGet s2.trees tree = some br' ∧ br'.length = i := by
          rcases branch_out_self hbo with h | h
          · right
            refine ⟨br.eraseIdx i, ?_, ?_⟩
            · rw [h]
              exact alGet_alSet_self _ _ _
            · rw [List.length_eraseIdx]
              simp [hil]
              omega
          · exact Or.inl h
        refine ⟨evoTrans hevoS1 hevoB, ?_, hfront, ?_⟩
        · intro p hp
          rcases List.mem_append.mp hp with hmem | hmem
          · exact Or.inl hmem
          · exact Or.inr (hmoves p hmem)
        · rcases hdisj with h | ⟨hmv, ht2, hm2, hu2⟩
          · left
            rw [← hmeasS1]
            exact h
          · right
            refine ⟨by rw [hmv, List.append_nil], by rw [hm2], ?_, ?_, ?_, ?_⟩
            · rw [hu2, huS1]
            · rw [ht2]
              simp only
              rw [hlenS1]
            · intro hc
              rw [hc] at hget
              cases hget
            · intro br0 hbr0
              rw [hbr0] at hget
              rcases Option.some.inj hget with rfl
              rw [ht2]
              exact alGet_alSet_self _ _ _

/-- The descending branch loop under full rate: every remaining branch is
popped; either the measure strictly drops, or nothing changed except that
the processed tree's frontier was emptied. -/
theorem loopBranches_evo {tree : Nat} (htree : 1 ≤ tree) :
    ∀ {j : Nat} {s s' : St} {r r' : Rnd} {heads heads' : List Pos},
      Inv s → (1 : ℚ) ≤ s.rate →
      (alGet s.trees tree = none ∨
        ∃ br, alGet s.trees tree = some br ∧ br.length = j) →
      loopBranches tree j s r heads = .ok (s', r', heads') →
      Evo s s' ∧ (∀ p ∈ heads', p ∈ heads ∨ Bnds s p) ∧
        (meas s' < meas s ∨
          (heads' = heads ∧ s'.mappings = s.mappings ∧ unocc s' = unocc s ∧
            s'.trees.length = s.trees.length ∧
            (alGet s.trees tree = none → alGet s'.trees tree = none) ∧
            (∀ br, alGet s.trees tree = some br → br.length = j →
              alGet s'.trees tree = some [])))
  | 0, s, s', r, r', heads, heads', hinv, hrate, hfr, hok => by
      unfold loopBranches at hok
      have hfin := Except.ok.inj hok
      cases hfin
      refine ⟨Evo.refl hinv, fun p hp => Or.inl hp,
        Or.inr ⟨rfl, rfl, rfl, rfl, fun h => h, ?_⟩⟩
      intro br hbr hlen
      rw [List.length_eq_zero] at hlen
      rw [hlen] at hbr
      exact hbr
  | j + 1, s, s', r, r', heads, heads', hinv, hrate, hfr, hok => by
      unfold loopBranches at hok
      rw [bind_eq_ok] at hok
      obtain ⟨⟨s1, r1, h1⟩, hpb, hrest⟩ := hok
      obtain ⟨hevo1, hheads1, hfront1, hdisj1⟩ :=
        processBranch_evo hinv htree hrate hfr hpb
      obtain ⟨hevo2, hheads2, hdisj2⟩ :=
        loopBranches_evo htree hevo1.inv (by rw [hevo1.rt]; exact hrate)
          hfront1 hrest
      refine ⟨evoTrans hevo1 hevo2, ?_, ?_⟩
      · intro p hp
        rcases hheads2 p hp with hmem | hb
        · rcases hheads1 p hmem with hmem2 | hb2
          · exact Or.inl hmem2
          · exact Or.inr hb2
        · exact Or.inr (bnds_congr hevo1.w.symm hevo1.h.symm hb)
      · rcases hdisj1 with h | ⟨hh1, hm1, hu1, hl1, hn1, hs1⟩
        · exact Or.inl (lt_of_le_of_lt hevo2.mu h)
        · rcases hdisj2 with h2 | ⟨hh2, hm2, hu2, hl2, hn2, hs2⟩
          · left
            have hme : meas s1 = meas s := by
              unfold meas
              rw [hu1, hl1]
            rw [← hme]
            exact h2
          · right
            refine ⟨hh2.trans hh1, hm2.trans hm1, hu2.trans hu1,
              hl2.trans hl1, fun hc => hn2 (hn1 hc), ?_⟩
            intro br hbr hlen
            have hstep := hs1 br hbr
            refine hs2 (br.eraseIdx j) hstep ?_
            rw [List.length_eraseIdx]
            simp [show j < br.length by omega]
            omega

/-- Processing one snapshotted live tree under full rate strictly
decreases the measure. -/
theorem processTree_evo {s s' : St} {tree : Nat} {r r' : Rnd}
    (hinv : Inv s) (htree : 1 ≤ tree) (hrate : (1 : ℚ) ≤ s.rate)
    (hlive : (alGet s.trees tree).isSome = true)
    (hok : processTree s tree r = .ok (s', r')) :
    Evo s s' ∧ meas s' < meas s := by
  unfold processTree at hok
  rcases Option.isSome_iff_exists.mp hlive with ⟨branches, hget⟩
  rw [hget] at hok
  dsimp only at hok
  rw [bind_eq_ok] at hok
  obtain ⟨⟨s1, r1, heads⟩, hloop, htail⟩ := hok
  obtain ⟨hevo1, hheads1, hdisj1⟩ :=
    loopBranches_evo htree hinv hrate (Or.inr ⟨branches, hget, rfl⟩) hloop
  have hheads : ∀ p ∈ heads, Bnds s p := by
    intro p hp
    rcases hheads1 p hp with hmem | hb
    · exact absurd hmem (List.not_mem_nil p)
    · exact hb
  cases hmt : alGet s1.mappings tree with
  | none =>
    rw [hmt] at htail
    cases htail
  | some mt =>
    rw [hmt] at htail
    dsimp only at htail
    cases hlst : alGet s1.trees mt with
    | none =>
      rw [hlst] at htail
      cases htail
    | some lst =>
      rw [hlst] at htail
      dsimp only at htail
      have hmtmem : (mt, lst) ∈ s1.trees := alGet_mem hlst
      have hmtpos : 1 ≤ mt := hevo1.inv.tkeys _ hmtmem
      have hinv2 : Inv { s1 with
          trees := alSet s1.trees mt (lst ++ heads) } := by
        refine ⟨⟨hevo1.inv.dims.1, hevo1.inv.dims.2⟩, ?_, ?_,
          hevo1.inv.mkeys, hevo1.inv.flat, ?_, hevo1.inv.ent, hevo1.inv.ext⟩
        · intro p hp q hq
          rcases mem_alSet hp with hmem | rfl
          · exact hevo1.inv.tpos p hmem q hq
          · rcases List.mem_append.mp hq with hq2 | hq2
            · exact hevo1.inv.tpos (mt, lst) hmtmem q hq2
            · have hb := hheads q hq2
              unfold Bnds at hb
              show 1 ≤ q.1 ∧ q.1 ≤ (s1.width : Int) - 2 ∧ 1 ≤ q.2 ∧
                q.2 ≤ (s1.height : Int) - 2
              rw [hevo1.w, hevo1.h]
              exact hb
        · intro p hp
          rcases mem_alSet hp with hmem | rfl
          · exact hevo1.inv.tkeys p hmem
          · exact hmtpos
        · intro p hp
          rcases mem_alSet hp with hmem | rfl
          · exact hevo1.inv.livecan p hmem
          · exact hevo1.inv.livecan (mt, lst) hmtmem
      have hlen2 : (alSet s1.trees mt (lst ++ heads)).length =
          s1.trees.length := alSet_length _ _ _ (find?_isSome_of_alGet hlst)
      have hu2 : unocc { s1 with trees := alSet s1.trees mt (lst ++ heads) } =
          unocc s1 := unocc_eq_of_grid rfl rfl rfl
      have hmeas2 : meas { s1 with trees := alSet s1.trees mt (lst ++ heads) } =
          meas s1 := by
        unfold meas
        rw [hu2]
        simp only
        rw [hlen2]
      have hevo2 : Evo s1 { s1 with
          trees := alSet s1.trees mt (lst ++ heads) } := by
        refine ⟨rfl, rfl, rfl, rfl, hinv2, fun p hp => hp, fun p hp => hp,
          fun a b hab => hab, ?_, le_of_eq hmeas2⟩
        intro k a hka
        exact ⟨a, hka, hevo1.inv.flat (k, a) (alGet_mem hka)⟩
      cases hemp : (lst ++ heads).isEmpty with
      | true =>
        rw [hemp] at htail
        rw [if_pos rfl] at htail
        have hpair := pure_eq_ok htail
        rw [Prod.mk.injEq] at hpair
        obtain ⟨hs', rfl⟩ := hpair
        have hmem2 : (mt, lst ++ heads) ∈
            alSet s1.trees mt (lst ++ heads) :=
          alGet_mem (alGet_alSet_self _ _ _)
        have hinv3 : Inv s' := by
          rw [← hs']
          refine ⟨⟨hinv2.dims.1, hinv2.dims.2⟩, ?_, ?_, hinv2.mkeys,
            hinv2.flat, ?_, hinv2.ent, hinv2.ext⟩
          · intro p hp q hq
            exact hinv2.tpos p (mem_alDel hp).1 q hq
          · intro p hp
            exact hinv2.tkeys p (mem_alDel hp).1
          · intro p hp
            exact hinv2.livecan p (mem_alDel hp).1
        have hevo3 : Evo { s1 with trees := alSet s1.trees mt (lst ++ heads) } s' := by
          rw [← hs']
          refine ⟨rfl, rfl, rfl, rfl, by rw [hs']; exact hinv3,
            fun p hp => hp, fun p hp => hp, fun a b hab => hab, ?_, ?_⟩
          · intro k a hka
            exact ⟨a, hka, hinv2.flat (k, a) (alGet_mem hka)⟩
          · unfold meas
            have hle := alDel_length_le
              (alSet s1.trees mt (lst ++ heads)) mt
            have hueq : unocc { { s1 with
                trees := alSet s1.trees mt (lst ++ heads) } with
                trees := alDel (alSet s1.trees mt (lst ++ heads)) mt } =
                unocc { s1 with trees := alSet s1.trees mt (lst ++ heads) } :=
              unocc_eq_of_grid rfl rfl rfl
            rw [hueq]
            simp only
            omega
        have hstrict3 : meas s' < meas { s1 with
            trees := alSet s1.trees mt (lst ++ heads) } := by
          rw [← hs']
          unfold meas
          have hlt := alDel_length_lt hmem2
          have hueq : unocc { { s1 with
              trees := alSet s1.trees mt (lst ++ heads) } with
              trees := alDel (alSet s1.trees mt (lst ++ heads)) mt } =
              unocc { s1 with trees := alSet s1.trees mt (lst ++ heads) } :=
            unocc_eq_of_grid rfl rfl rfl
          rw [hueq]
          simp only
          omega
        refine ⟨evoTrans hevo1 (evoTrans hevo2 hevo3), ?_⟩
        calc meas s' < meas { s1 with
              trees := alSet s1.trees mt (lst ++ heads) } := hstrict3
          _ = meas s1 := hmeas2
          _ ≤ meas s := hevo1.mu
      | false =>
        rw [hemp] at htail
        rw [if_neg (by simp)] at htail
        have hpair := pure_eq_ok htail
        rw [Prod.mk.injEq] at hpair
        obtain ⟨hs', rfl⟩ := hpair
        rcases hdisj1 with h | ⟨hh1, hm1, hu1, hl1, hn1, hs1⟩
        · refine ⟨evoTrans hevo1 (by rw [← hs']; exact hevo2), ?_⟩
          rw [← hs']
          rw [hmeas2]
          exact h
        · exfalso
          have hmteq : mt = tree := by
            have hcan : alGet s.mappings tree = some tree :=
              hinv.livecan (tree, branches) (alGet_mem hget)
            rw [hm1] at hmt
            rw [hcan] at hmt
            exact (Option.some.inj hmt).symm
          have hempty : alGet s1.trees tree = some [] :=
            hs1 branches hget rfl
          rw [hmteq] at hlst
          rw [hempty] at hlst
          rcases Option.some.inj hlst with rfl
          have hh0 : heads = [] := hh1
          rw [hh0] at hemp
          simp at hemp

/-- One branch step at any growth rate: evolution and frontier-length
discipline (the gate may or may not fire). -/
theorem processBranch_evo_gen {s s' : St} {tree i : Nat} {r r' : Rnd}
    {heads heads' : List Pos} (hinv : Inv s) (htree : 1 ≤ tree)
    (hbr : alGet s.trees tree = none ∨
      ∃ br, alGet s.trees tree = some br ∧ i < br.length)
    (hok : processBranch s tree i r heads = .ok (s', r', heads')) :
    Evo s s' ∧ (∀ p ∈ heads', p ∈ heads ∨ Bnds s p) ∧
      (alGet s'.trees tree = none ∨
        ∃ br', alGet s'.trees tree = some br' ∧ i ≤ br'.length) := by
  unfold processBranch at hok
  rcases hbr with hget | ⟨br, hget, hlen⟩
  · rw [hget] at hok
    dsimp only at hok
    have hfin := Except.ok.inj hok
    cases hfin
    exact ⟨Evo.refl hinv, fun p hp => Or.inl hp, Or.inl hget⟩
  · rw [hget] at hok
    dsimp only at hok
    by_cases hemp : br.isEmpty = true
    · rw [if_pos hemp] at hok
      have hfin := Except.ok.inj hok
      cases hfin
      exact ⟨Evo.refl hinv, fun p hp => Or.inl hp,
        Or.inr ⟨br, hget, le_of_lt hlen⟩⟩
    · rw [if_neg hemp] at hok
      cases hdg : drawGate r with
      | mk q r1 =>
        rw [hdg] at hok
        dsimp only at hok
        by_cases hq : q < s.rate
        · rw [if_pos hq] at hok
          rw [bind_eq_ok] at hok
          obtain ⟨⟨s2, mv, r2⟩, hbo, hpure⟩ := hok
          have hpair := pure_eq_ok hpure
          rw [Prod.mk.injEq] at hpair
          obtain ⟨rfl, hpair2⟩ := hpair
          rw [Prod.mk.injEq] at hpair2
          obtain ⟨rfl, rfl⟩ := hpair2
          have hmem_tree : (tree, br) ∈ s.trees := alGet_mem hget
          have hinvS1 : Inv { s with
              trees := alSet s.trees tree (br.eraseIdx i) } := by
            refine ⟨⟨hinv.dims.1, hinv.dims.2⟩, ?_, ?_, hinv.mkeys,
              hinv.flat, ?_, hinv.ent, hinv.ext⟩
            · intro p hp q' hq'
              rcases mem_alSet hp with hmem | rfl
              · exact hinv.tpos p hmem q' hq'
              · exact hinv.tpos (tree, br) hmem_tree q'
                  ((List.eraseIdx_sublist br i).subset hq')
            · intro p hp
              rcases mem_alSet hp with hmem | rfl
              · exact hinv.tkeys p hmem
              · exact htree
            · intro p hp
              rcases mem_alSet hp with hmem | rfl
              · exact hinv.livecan p hmem
              · exact hinv.livecan (tree, br) hmem_tree
          have hlenS1 : (alSet s.trees tree (br.eraseIdx i)).length =
              s.trees.length := alSet_length _ _ _ (find?_isSome_of_alGet hget)
          have hmeasS1 : meas { s with
              trees := alSet s.trees tree (br.eraseIdx i) } = meas s := by
            have hu : unocc { s with
                trees := alSet s.trees tree (br.eraseIdx i) } = unocc s :=
              unocc_eq_of_grid rfl rfl rfl
            unfold meas
            rw [hu]
            simp only
            rw [hlenS1]
          have hevoS1 : Evo s { s with
              trees := alSet s.trees tree (br.eraseIdx i) } := by
            refine ⟨rfl, rfl, rfl, rfl, hinvS1, fun p hp => hp, fun p hp => hp,
              fun a b hab => hab, ?_, le_of_eq hmeasS1⟩
            intro k a h1
            exact ⟨a, h1, hinv.flat (k, a) (alGet_mem h1)⟩
          have hpos_mem : br.getD i ((0 : Int), (0 : Int)) ∈ br := by
            rw [List.getD_eq_getElem?_getD, List.getElem?_eq_getElem hlen]
            exact List.getElem_mem hlen
          have hpos_b := hinv.tpos (tree, br) hmem_tree _ hpos_mem
          cases hpos : br.getD i ((0 : Int), (0 : Int)) with
          | mk px py =>
            rw [hpos] at hbo hpos_b
            obtain ⟨hevoB, hmoves, hdisj⟩ :=
              branch_out_evo hinvS1 htree
                ⟨hpos_b.1, hpos_b.2.1⟩ ⟨hpos_b.2.2.1, hpos_b.2.2.2⟩ hbo
            refine ⟨evoTrans hevoS1 hevoB, ?_, ?_⟩
            · intro p hp
              rcases List.mem_append.mp hp with hmem | hmem
              · exact Or.inl hmem
              · exact Or.inr (hmoves p hmem)
            · rcases branch_out_self hbo with h | h
              · right
                refine ⟨br.eraseIdx i, ?_, ?_⟩
                · rw [h]
                  exact alGet_alSet_self _ _ _
                · rw [List.length_eraseIdx]
                  simp [hlen]
                  omega
              · exact Or.inl h
        · rw [if_neg hq] at hok
          have hfin := Except.ok.inj hok
          cases hfin
          exact ⟨Evo.refl hinv, fun p hp => Or.inl hp,
            Or.inr ⟨br, hget, le_of_lt hlen⟩⟩

/-- The descending branch loop at any growth rate: evolution, and all
collected heads are inherited or interior. -/
theorem loopBranches_evo_gen {tree : Nat} (htree : 1 ≤ tree) :
    ∀ {j : Nat} {s s' : St} {r r' : Rnd} {heads heads' : List Pos}, Inv s →
      (alGet s.trees tree = none ∨
        ∃ br, alGet s.trees tree = some br ∧ j ≤ br.length) →
      loopBranches tree j s r heads = .ok (s', r', heads') →
      Evo s s' ∧ (∀ p ∈ heads', p ∈ heads ∨ Bnds s p)
  | 0, s, s', r, r', heads, heads', hinv, hfr, hok => by
      unfold loopBranches at hok
      have hfin := Except.ok.inj hok
      cases hfin
      exact ⟨Evo.refl hinv, fun p hp => Or.inl hp⟩
  | j + 1, s, s', r, r', heads, heads', hinv, hfr, hok => by
      unfold loopBranches at hok
      rw [bind_eq_ok] at hok
      obtain ⟨⟨s1, r1, h1⟩, hpb, hrest⟩ := hok
      have hbr : alGet s.trees tree = none ∨
          ∃ br, alGet s.trees tree = some br ∧ j < br.length := by
        rcases hfr with h | ⟨br, hbr, hl⟩
        · exact Or.inl h
        · exact Or.inr ⟨br, hbr, by omega⟩
      obtain ⟨hevo1, hheads1, hfront1⟩ :=
        processBranch_evo_gen hinv htree hbr hpb
      obtain ⟨hevo2, hheads2⟩ :=
        loopBranches_evo_gen htree hevo1.inv hfront1 hrest
      refine ⟨evoTrans hevo1 hevo2, ?_⟩
      intro p hp
      rcases hheads2 p hp with hmem | hb
      · rcases hheads1 p hmem with hmem2 | hb2
        · exact Or.inl hmem2
        · exact Or.inr hb2
      · exact Or.inr (bnds_congr hevo1.w.symm hevo1.h.symm hb)

/-- Processing one snapshotted tree at any growth rate: evolution. -/
theorem processTree_evo_gen {s s' : St} {tree : Nat} {r r' : Rnd}
    (hinv : Inv s) (htree : 1 ≤ tree)
    (hok : processTree s tree r = .ok (s', r')) : Evo s s' := by
  unfold processTree at hok
  cases hget : alGet s.trees tree with
  | none =>
    rw [hget] at hok
    cases hok
  | some branches =>
    rw [hget] at hok
    dsimp only at hok
    rw [bind_eq_ok] at hok
    obtain ⟨⟨s1, r1, heads⟩, hloop, htail⟩ := hok
    obtain ⟨hevo1, hheads1⟩ :=
      loopBranches_evo_gen htree hinv
        (Or.inr ⟨branches, hget, le_refl _⟩) hloop
    have hheads : ∀ p ∈ heads, Bnds s p := by
      intro p hp
      rcases hheads1 p hp with hmem | hb
      · exact absurd hmem (List.not_mem_nil p)
      · exact hb
    cases hmt : alGet s1.mappings tree with
    | none =>
      rw [hmt] at htail
      cases htail
    | some mt =>
      rw [hmt] at htail
      dsimp only at htail
      cases hlst : alGet s1.trees mt with
      | none =>
        rw [hlst] at htail
        cases htail
      | some lst =>
        rw [hlst] at htail
        dsimp only at htail
        have hmtmem : (mt, lst) ∈ s1.trees := alGet_mem hlst
        have hmtpos : 1 ≤ mt := hevo1.inv.tkeys _ hmtmem
        have hinv2 : Inv { s1 with
            trees := alSet s1.trees mt (lst ++ heads) } := by
          refine ⟨⟨hevo1.inv.dims.1, hevo1.inv.dims.2⟩, ?_, ?_,
            hevo1.inv.mkeys, hevo1.inv.flat, ?_, hevo1.inv.ent, hevo1.inv.ext⟩
          · intro p hp q hq
            rcases mem_alSet hp with hmem | rfl
            · exact hevo1.inv.tpos p hmem q hq
            · rcases List.mem_append.mp hq with hq2 | hq2
              · exact hevo1.inv.tpos (mt, lst) hmtmem q hq2
              · have hb := hheads q hq2
                unfold Bnds at hb
                show 1 ≤ q.1 ∧ q.1 ≤ (s1.width : Int) - 2 ∧ 1 ≤ q.2 ∧
                  q.2 ≤ (s1.height : Int) - 2
                rw [hevo1.w, hevo1.h]
                exact hb
          · intro p hp
            rcases mem_alSet hp with hmem | rfl
            · exact hevo1.inv.tkeys p hmem
            · exact hmtpos
          · intro p hp
            rcases mem_alSet hp with hmem | rfl
            · exact hevo1.inv.livecan p hmem
            · exact hevo1.inv.livecan (mt, lst) hmtmem
        have hlen2 : (alSet s1.trees mt (lst ++ heads)).length =
            s1.trees.length := alSet_length _ _ _ (find?_isSome_of_alGet hlst)
        have hmeas2 : meas { s1 with
            trees := alSet s1.trees mt (lst ++ heads) } = meas s1 := by
          have hu : unocc { s1 with
              trees := alSet s1.trees mt (lst ++ heads) } = unocc s1 :=
            unocc_eq_of_grid rfl rfl rfl
          unfold meas
          rw [hu]
          simp only
          rw [hlen2]
        have hevo2 : Evo s1 { s1 with
            trees := alSet s1.trees mt (lst ++ heads) } := by
          refine ⟨rfl, rfl, rfl, rfl, hinv2, fun p hp => hp, fun p hp => hp,
            fun a b hab => hab, ?_, le_of_eq hmeas2⟩
          intro k a hka
          exact ⟨a, hka, hevo1.inv.flat (k, a) (alGet_mem hka)⟩
        cases hemp : (lst ++ heads).isEmpty with
        | true =>
          rw [hemp] at htail
          rw [if_pos rfl] at htail
          have hpair := pure_eq_ok htail
          rw [Prod.mk.injEq] at hpair
          obtain ⟨hs2, rfl⟩ := hpair
          have hinv3 : Inv s' := by
            rw [← hs2]
            refine ⟨⟨hinv2.dims.1, hinv2.dims.2⟩, ?_, ?_, hinv2.mkeys,
              hinv2.flat, ?_, hinv2.ent, hinv2.ext⟩
            · intro p hp q hq
              exact hinv2.tpos p (mem_alDel hp).1 q hq
            · intro p hp
              exact hinv2.tkeys p (mem_alDel hp).1
            · intro p hp
              exact hinv2.livecan p (mem_alDel hp).1
          have hevo3 : Evo { s1 with
              trees := alSet s1.trees mt (lst ++ heads) } s' := by
            rw [← hs2]
            refine ⟨rfl, rfl, rfl, rfl, by rw [hs2]; exact hinv3,
              fun p hp => hp, fun p hp => hp, fun a b hab => hab, ?_, ?_⟩
            · intro k a hka
              exact ⟨a, hka, hinv2.flat (k, a) (alGet_mem hka)⟩
            · have hu : unocc { { s1 with
                  trees := alSet s1.trees mt (lst ++ heads) } with
                  trees := alDel (alSet s1.trees mt (lst ++ heads)) mt } =
                  unocc { s1 with trees := alSet s1.trees mt (lst ++ heads) } :=
                unocc_eq_of_grid rfl rfl rfl
              unfold meas
              have hle := alDel_length_le
                (alSet s1.trees mt (lst ++ heads)) mt
              rw [hu]
              simp only
              omega
          exact evoTrans hevo1 (evoTrans hevo2 hevo3)
        | false =>
          rw [hemp] at htail
          rw [if_neg (by simp)] at htail
          have hpair := pure_eq_ok htail
          rw [Prod.mk.injEq] at hpair
          obtain ⟨hs2, rfl⟩ := hpair
          rw [← hs2]
          exact evoTrans hevo1 hevo2

/-- The snapshot loop at any growth rate: evolution. -/
theorem loopTrees_evo_gen :
    ∀ {ts : List Nat} {s s' : St} {r r' : Rnd}, Inv s →
      (∀ t ∈ ts, 1 ≤ t) → loopTrees s ts r = .ok (s', r') → Evo s s'
  | [], s, s', r, r', hinv, hts, hok => by
      unfold loopTrees at hok
      have hfin := Except.ok.inj hok
      cases hfin
      exact Evo.refl hinv
  | t :: ts, s, s', r, r', hinv, hts, hok => by
      unfold loopTrees at hok
      rw [bind_eq_ok] at hok
      obtain ⟨⟨s1, r1⟩, hpt, hrest⟩ := hok
      have hevo1 := processTree_evo_gen hinv (hts t (List.mem_cons_self t ts)) hpt
      have hevo2 := loopTrees_evo_gen hevo1.inv
        (fun t' ht' => hts t' (List.mem_cons_of_mem t ht')) hrest
      exact evoTrans hevo1 hevo2

/-- `__build_iteration` at any growth rate: evolution. -/
theorem buildIteration_evo_gen {s s' : St} {r r' : Rnd} (hinv : Inv s)
    (hok : buildIteration s r = .ok (s', r')) : Evo s s' := by
  unfold buildIteration at hok
  refine loopTrees_evo_gen hinv ?_ hok
  intro t ht
  rcases List.mem_map.mp ht with ⟨p, hp, hpe⟩
  rw [← hpe]
  exact hinv.tkeys p hp

/-- Any number of `__build_iteration`s: evolution. -/
theorem runIter_evo :
    ∀ {k : Nat} {s s' : St} {r r' : Rnd}, Inv s →
      runIter k s r = .ok (s', r') → Evo s s'
  | 0, s, s', r, r', hinv, hok => by
      unfold runIter at hok
      have hfin := Except.ok.inj hok
      cases hfin
      exact Evo.refl hinv
  | k + 1, s, s', r, r', hinv, hok => by
      unfold runIter at hok
      rw [bind_eq_ok] at hok
      obtain ⟨⟨s1, r1⟩, hb, hrest⟩ := hok
      exact evoTrans (buildIteration_evo_gen hinv hb)
        (runIter_evo (buildIteration_evo_gen hinv hb).inv hrest)

/-- The snapshot loop under full rate: a nonempty snapshot strictly
decreases the measure. -/
theorem loopTrees_evo_full :
    ∀ {ts : List Nat} {s s' : St} {r r' : Rnd}, Inv s → (1 : ℚ) ≤ s.rate →
      (∀ t ∈ ts, 1 ≤ t) → loopTrees s ts r = .ok (s', r') →
      Evo s s' ∧ (ts ≠ [] → meas s' < meas s)
  | [], s, s', r, r', hinv, hrate, hts, hok => by
      unfold loopTrees at hok
      have hfin := Except.ok.inj hok
      cases hfin
      exact ⟨Evo.refl hinv, fun hc => absurd rfl hc⟩
  | t :: ts, s, s', r, r', hinv, hrate, hts, hok => by
      unfold loopTrees at hok
      rw [bind_eq_ok] at hok
      obtain ⟨⟨s1, r1⟩, hpt, hrest⟩ := hok
      have hlive : (alGet s.trees t).isSome = true := by
        cases hget : alGet s.trees t with
        | none =>
          unfold processTree at hpt
          rw [hget] at hpt
          cases hpt
        | some br => rfl
      obtain ⟨hevo1, hstrict⟩ :=
        processTree_evo hinv (hts t (List.mem_cons_self t ts)) hrate hlive hpt
      obtain ⟨hevo2, _⟩ := loopTrees_evo_full hevo1.inv
        (by rw [hevo1.rt]; exact hrate)
        (fun u hu => hts u (List.mem_cons_of_mem t hu)) hrest
      exact ⟨evoTrans hevo1 hevo2, fun _ => lt_of_le_of_lt hevo2.mu hstrict⟩

/-- `__build_iteration` under full rate: with live trees the measure
strictly decreases. -/
theorem buildIteration_evo_full {s s' : St} {r r' : Rnd} (hinv : Inv s)
    (hrate : (1 : ℚ) ≤ s.rate) (hok : buildIteration s r = .ok (s', r')) :
    Evo s s' ∧ (s.trees ≠ [] → meas s' < meas s) := by
  unfold buildIteration at hok
  obtain ⟨hevo, hne⟩ := loopTrees_evo_full hinv hrate
    (fun t ht => by
      rcases List.mem_map.mp ht with ⟨p, hp, hpe⟩
      rw [← hpe]
      exact hinv.tkeys p hp) hok
  refine ⟨hevo, fun hne2 => hne ?_⟩
  intro hc
  rw [List.map_eq_nil_iff] at hc
  exact hne2 hc

/-- An iteration on a finished maze does nothing. -/
theorem buildIteration_empty {s : St} (r : Rnd) (h : s.trees = []) :
    buildIteration s r = .ok (s, r) := by
  unfold buildIteration
  rw [h]
  rfl

/-- Iterating on a finished maze changes nothing. -/
theorem runIter_empty : ∀ (k : Nat) {s : St} (r : Rnd), s.trees = [] →
    runIter k s r = .ok (s, r)
  | 0, s, r, h => rfl
  | k + 1, s, r, h => by
      unfold runIter
      rw [buildIteration_empty r h, ok_bind]
      exact runIter_empty k r h

/-- The measure-based termination bound: under full growth rate, from an
invariant state, after `meas` many successful iterations every tree is
finished. -/
theorem runIter_full_rate_terminates :
    ∀ {k : Nat} {s s' : St} {r r' : Rnd}, Inv s → (1 : ℚ) ≤ s.rate →
      meas s ≤ k → runIter k s r = .ok (s', r') → s'.trees = []
  | 0, s, s', r, r', hinv, hrate, hk, hok => by
      unfold runIter at hok
      have hfin := Except.ok.inj hok
      cases hfin
      have hlen : s.trees.length = 0 := by
        unfold meas at hk
        omega
      exact List.length_eq_zero.mp hlen
  | k + 1, s, s', r, r', hinv, hrate, hk, hok => by
      unfold runIter at hok
      rw [bind_eq_ok] at hok
      obtain ⟨⟨s1, r1⟩, hb, hrest⟩ := hok
      by_cases hemp : s.trees = []
      · rw [buildIteration_empty r hemp] at hb
        have hfin := Except.ok.inj hb
        cases hfin
        dsimp only at hrest
        rw [runIter_empty k r hemp] at hrest
        have hfin2 := Except.ok.inj hrest
        have hs : s = s' := congrArg Prod.fst hfin2
        rw [← hs]
        exact hemp
      · obtain ⟨hevo1, hstrict⟩ := buildIteration_evo_full hinv hrate hb
        exact runIter_full_rate_terminates hevo1.inv
          (by rw [hevo1.rt]; exact hrate)
          (by have := hstrict hemp; omega) hrest

theorem seedList_keys : ∀ {lst : List (Nat × Nat)} {i : Nat}
    {q : Nat × List Pos}, q ∈ seedList lst i → i + 1 ≤ q.1 ∧ q.1 ≤ i + lst.length
  | [], i, q, h => by cases h
  | v :: rest, i, q, h => by
      unfold seedList at h
      rcases List.mem_cons.mp h with rfl | hmem
      · simp only [List.length_cons]
        omega
      · have := seedList_keys hmem
        simp only [List.length_cons]
        omega

theorem initMappings_mem {n : Nat} {p : Nat × Nat} (h : p ∈ initMappings n) :
    ∃ i, i < n ∧ p = (i + 1, i + 1) := by
  unfold initMappings at h
  rcases List.mem_map.mp h with ⟨i, hi, hpe⟩
  exact ⟨i, List.mem_range.mp hi, hpe.symm⟩

theorem initMappings_get : ∀ (n k : Nat), 1 ≤ k → k ≤ n →
    alGet (initMappings n) k = some k := by
  intro n
  induction n with
  | zero =>
    intro k h1 h2
    omega
  | succ m ih =>
    intro k h1 h2
    have hsplit : initMappings (m + 1) = initMappings m ++ [(m + 1, m + 1)] := by
      unfold initMappings
      rw [List.range_succ, List.map_append]
      rfl
    rw [hsplit]
    unfold alGet
    rw [List.find?_append]
    by_cases hk : k ≤ m
    · have hmk := ih k h1 hk
      unfold alGet at hmk
      rcases Option.map_eq_some'.mp hmk with ⟨q, hfind, hq⟩
      rw [hfind]
      show Option.map (fun p => p.2) (some q) = some k
      rw [Option.map_some']
      rw [hq]
    · have hk2 : k = m + 1 := by omega
      subst hk2
      have hnone : (initMappings m).find? (fun p => p.1 == m + 1) = none := by
        rw [List.find?_eq_none]
        intro q hq
        obtain ⟨i, hi, rfl⟩ := initMappings_mem hq
        simp only [beq_iff_eq]
        omega
      rw [hnone]
      show Option.map (fun p => p.2)
        (List.find? (fun p => p.1 == m + 1) [(m + 1, m + 1)]) = some (m + 1)
      simp

/-- The pre-seeding state assembled by the constructor. -/
def initSt (w h n : Nat) (rate : ℚ) (strat : BranchingStrategy) : St :=
  { width := w, height := h, strategy := strat, rate := max ratTenth rate,
    grid := mkGrid w h, mappings := initMappings n, trees := [],
    entry := none, exit := none }

/-- Construction establishes the structural invariant: interior frontier
positions, flat canonical partition, live trees canonical, no entry or
exit yet. -/
theorem squareMazeInit_inv {w h n : Nat} {rate : ℚ}
    {strat : BranchingStrategy} {r r' : Rnd} {s : St}
    (hok : squareMazeInit w h n rate strat r = .ok (s, r')) :
    Inv s ∧ s.entry = none ∧ s.exit = none ∧ s.width = w ∧ s.height = h ∧
      s.rate = max ratTenth rate ∧ s.strategy = strat ∧
      s.mappings = initMappings n ∧ s.trees.length = n := by
  by_cases hvalid : n ≤ slots w ∧ n ≤ slots h
  · have heq : squareMazeInit w h n rate strat r =
        (seedTrees (initSt w h n rate strat)
          ((samplePick (drawPick r).1 (slots w) n).zip
            (samplePick (drawPick (drawPick r).2).1 (slots h) n)) 0).map
          (fun s => (s, (drawPick (drawPick r).2).2)) := by
      unfold squareMazeInit initSt
      rw [if_pos hvalid]
    rw [heq] at hok
    rw [map_eq_ok] at hok
    obtain ⟨s1, hseed, hpairf⟩ := hok
    have hs1 : s = s1 := (congrArg Prod.fst hpairf).symm
    subst hs1
    have hvxs := samplePick_spec (drawPick r).1 (slots w) n hvalid.1
    have hvys := samplePick_spec (drawPick (drawPick r).2).1 (slots h) n hvalid.2
    have hziplen :
        ((samplePick (drawPick r).1 (slots w) n).zip
          (samplePick (drawPick (drawPick r).2).1 (slots h) n)).length = n := by
      rw [List.length_zip, hvxs.1, hvys.1, min_self]
    have hzipb : ∀ p ∈ (samplePick (drawPick r).1 (slots w) n).zip
        (samplePick (drawPick (drawPick r).2).1 (slots h) n),
        5 * (p.1 + 1) ≤ w - 4 ∧ 5 * (p.2 + 1) ≤ h - 4 := by
      intro p hp
      have hx := hvxs.2.2 p.1 (List.of_mem_zip hp).1
      have hy := hvys.2.2 p.2 (List.of_mem_zip hp).2
      unfold slots at hx hy
      constructor
      · calc 5 * (p.1 + 1) ≤ 5 * ((w - 4) / 5) :=
              Nat.mul_le_mul_left 5 (Nat.succ_le_of_lt hx)
          _ ≤ w - 4 := by
              rw [mul_comm]
              exact Nat.div_mul_le_self _ _
      · calc 5 * (p.2 + 1) ≤ 5 * ((h - 4) / 5) :=
              Nat.mul_le_mul_left 5 (Nat.succ_le_of_lt hy)
          _ ≤ h - 4 := by
              rw [mul_comm]
              exact Nat.div_mul_le_self _ _
    obtain ⟨s2, hok2, htr, hgd', hw', hh', hr', hst', hm', he', hx'⟩ :=
      seedTrees_ok (i := 0) (s := initSt w h n rate strat)
        ⟨(mkGrid_dims w h).1, (mkGrid_dims w h).2⟩
        (fun p hp => by
          have := hzipb p hp
          show 3 + 5 * p.1 < w ∧ 3 + 5 * p.2 < h
          omega)
        (fun p hp => absurd hp (List.not_mem_nil p))
    rw [hseed] at hok2
    have hs2 : s = s2 := Except.ok.inj hok2
    subst hs2
    have htrv : s.trees = seedList
        ((samplePick (drawPick r).1 (slots w) n).zip
          (samplePick (drawPick (drawPick r).2).1 (slots h) n)) 0 := by
      rw [htr]
      show ([] : List (Nat × List Pos)) ++ _ = _
      rw [List.nil_append]
    have hwv : s.width = w := hw'
    have hhv : s.height = h := hh'
    have hmv : s.mappings = initMappings n := hm'
    have hev : s.entry = none := he'
    have hxv : s.exit = none := hx'
    have htkeys : ∀ p ∈ s.trees, 1 ≤ p.1 ∧ p.1 ≤ n := by
      intro p hp
      rw [htrv] at hp
      have hks := seedList_keys hp
      rw [hziplen] at hks
      omega
    refine ⟨⟨hgd', ?_, ?_, ?_, ?_, ?_, ?_, ?_⟩, hev, hxv, hwv, hhv, hr', hst',
      hmv, by rw [htrv, seedList_length, hziplen]⟩
    · intro p hp q hq
      rw [htrv] at hp
      obtain ⟨v, hv, hcl⟩ := seedList_mem hp
      rw [hcl] at hq
      obtain ⟨hbx, hby⟩ := hzipb v hv
      rw [hwv, hhv]
      unfold seedCluster at hq
      simp only [List.mem_cons, List.not_mem_nil, or_false] at hq
      rcases hq with rfl | rfl | rfl | rfl | rfl <;>
        · simp only
          omega
    · intro p hp
      exact (htkeys p hp).1
    · intro p hp
      rw [hmv] at hp
      obtain ⟨i, hi, rfl⟩ := initMappings_mem hp
      simp only
      omega
    · intro p hp
      rw [hmv] at hp
      obtain ⟨i, hi, rfl⟩ := initMappings_mem hp
      rw [hmv]
      simp only
      exact initMappings_get n (i + 1) (by omega) (by omega)
    · intro p hp
      rw [hmv]
      have hks := htkeys p hp
      exact initMappings_get n p.1 hks.1 hks.2
    · intro q hq
      rw [hev] at hq
      cases hq
    · intro q hq
      rw [hxv] at hq
      cases hq
  · have hfail : squareMazeInit w h n rate strat r = .error .valueError := by
      unfold squareMazeInit
      rw [if_neg hvalid]
    rw [hfail] at hok
    cases hok

/-! ## C2: termination -/

/-- C2 (amended): from any successful construction whose stored growth
rate is at least 1 (so every gate draw fires), if `meas s0` — the number
of unoccupied cells plus the number of live trees, at most `width*height`
when the seeds occupy at least as many cells as there are trees — many
growth iterations all succeed, then every tree is finished and any further
`expand` returns `true`. -/
theorem c2_full_rate_bounded_termination {w h n : Nat} {rate : ℚ}
    {strat : BranchingStrategy} {r0 r1 r r' : Rnd} {s0 s' : St} {k : Nat}
    (hinit : squareMazeInit w h n rate strat r0 = .ok (s0, r1))
    (hrate : (1 : ℚ) ≤ s0.rate) (hk : meas s0 ≤ k)
    (hok : runIter k s0 r = .ok (s', r')) :
    s'.trees = [] ∧ ∀ r2 : Rnd, expand s' r2 = .ok (s', r2, true) := by
  have hinv := (squareMazeInit_inv hinit).1
  have hdone := runIter_full_rate_terminates hinv hrate hk hok
  refine ⟨hdone, fun r2 => ?_⟩
  unfold expand
  rw [buildIteration_empty r2 hdone]
  show Except.ok (s', r2, s'.trees.isEmpty) = Except.ok (s', r2, true)
  rw [hdone]
  rfl

/-- The full-rate 9×9 single-tree construction used as the C2 witness. -/
def c2fInit : Except Err (St × Rnd) := squareMazeInit 9 9 1 1 .FULL c2rnd

/-- Its state. -/
def c2fs : St := stOf c2fInit

/-- Witness: the 9×9 full-rate run finishes within `meas = 77 ≤ 81`
iterations. -/
theorem c2_full_rate_bounded_termination_witness :
    ∃ s0 r1 s' r', squareMazeInit 9 9 1 1 .FULL c2rnd = .ok (s0, r1) ∧
      (1 : ℚ) ≤ s0.rate ∧ meas s0 ≤ 77 ∧
      runIter 77 s0 c2rnd = .ok (s', r') ∧ s'.trees = [] := by
  cases hin : squareMazeInit 9 9 1 1 .FULL c2rnd with
  | error e =>
    have hisok : (squareMazeInit 9 9 1 1 .FULL c2rnd).isOk = true := by decide
    rw [hin] at hisok
    cases hisok
  | ok p =>
    obtain ⟨s0, r1⟩ := p
    have hs0 : s0 = c2fs := by
      have hst : stOf (squareMazeInit 9 9 1 1 .FULL c2rnd) = c2fs := rfl
      rw [hin] at hst
      exact hst
    subst hs0
    have hrate : (1 : ℚ) ≤ c2fs.rate := by decide
    have hmeas : meas c2fs ≤ 77 := by decide
    have hrun : ∃ s' r', runIter 77 c2fs c2rnd = .ok (s', r') := by
      cases hr2 : runIter 77 c2fs c2rnd with
      | error e =>
        have hisok2 : (runIter 77 c2fs c2rnd).isOk = true := by decide
        rw [hr2] at hisok2
        cases hisok2
      | ok q =>
        obtain ⟨s2, r2⟩ := q
        exact ⟨s2, r2, rfl⟩
    obtain ⟨s', r', hr⟩ := hrun
    have hres := c2_full_rate_bounded_termination hin hrate hmeas hr
    exact ⟨c2fs, r1, s', r', rfl, hrate, hmeas, hr, hres.1⟩

/-- C2 as stated is false: on a 9×9 maze (width·height = 81) with stored
rate 1/2 and every gate draw at 9/10, all 81 iterations succeed yet the
tree never finishes, so `expand` still reports `false`. -/
theorem c2_counterexample :
    (squareMazeInit 9 9 1 rHalf .FULL c2rnd).isOk = true ∧
    (runIter 81 c2s c2r).isOk = true ∧
    (stOf (runIter 81 c2s c2r)).trees.isEmpty = false := by
  refine ⟨by decide, by decide, by decide⟩

/-! ## C3, C5, C6: run-level invariants -/

/-- C3: across construction and any number of growth iterations, the entry
lies on the x = 0 edge and the exit on the x = width-1 edge whenever set,
and once set neither ever changes (so each is assigned at most once). -/
theorem c3_entry_exit {w h n : Nat} {rate : ℚ} {strat : BranchingStrategy}
    {r0 r1 r r2 : Rnd} {s0 s : St} {k : Nat}
    (hinit : squareMazeInit w h n rate strat r0 = .ok (s0, r1))
    (hrun : runIter k s0 r = .ok (s, r2)) :
    (∀ q : Pos, s.entry = some q → q.1 = 0 ∧ 0 ≤ q.2 ∧ q.2 < (h : Int)) ∧
    (∀ q : Pos, s.exit = some q →
      q.1 = (w : Int) - 1 ∧ 0 ≤ q.2 ∧ q.2 < (h : Int)) ∧
    (∀ (k2 : Nat) (r3 : Rnd) (s' : St) (r4 : Rnd),
      runIter k2 s r3 = .ok (s', r4) →
      (∀ q : Pos, s.entry = some q → s'.entry = some q) ∧
      (∀ q : Pos, s.exit = some q → s'.exit = some q)) := by
  obtain ⟨hinv0, hent0, hext0, hw0, hh0, _, _, _, _⟩ := squareMazeInit_inv hinit
  have hevo := runIter_evo hinv0 hrun
  have hw : s.width = w := hevo.w.trans hw0
  have hh : s.height = h := hevo.h.trans hh0
  refine ⟨?_, ?_, ?_⟩
  · intro q hq
    have hq2 := hevo.inv.ent q hq
    rw [hh] at hq2
    exact hq2
  · intro q hq
    have hq2 := hevo.inv.ext q hq
    rw [hw, hh] at hq2
    exact hq2
  · intro k2 r3 s' r4 hrun2
    have hevo2 := runIter_evo hevo.inv hrun2
    exact ⟨hevo2.ent, hevo2.ext⟩

/-- Witness for C3 on the 9×9 construction. -/
theorem c3_entry_exit_witness :
    ∃ s0 r1, squareMazeInit 9 9 1 rHalf .FULL c2rnd = .ok (s0, r1) ∧
      ∀ q : Pos, s0.entry = some q → q.1 = 0 ∧ 0 ≤ q.2 ∧ q.2 < (9 : Int) := by
  cases hin : squareMazeInit 9 9 1 rHalf .FULL c2rnd with
  | error e =>
    have hisok : (squareMazeInit 9 9 1 rHalf .FULL c2rnd).isOk = true := by
      decide
    rw [hin] at hisok
    cases hisok
  | ok p =>
    obtain ⟨s0, r1⟩ := p
    have h := c3_entry_exit hin
      (show runIter 0 s0 c2rnd = .ok (s0, c2rnd) from rfl)
    exact ⟨s0, r1, rfl, h.1⟩

/-- C5: after a merge of live tree `A` into canonical tree `B`, `A`'s raw
id and every raw id that previously resolved to `A` resolve to `B`, and
after any further growth the two ids still resolve to one common canonical
id (chains stay resolved). -/
theorem c5_merge_closure {s s1 : St} {A B : Nat} (hinv : Inv s)
    (hlive : (alGet s.trees A).isSome = true)
    (hcanB : alGet s.mappings B = some B) (hBpos : 1 ≤ B) (hAB : A ≠ B)
    (hok : remap s A B = .ok s1) :
    alGet s1.mappings A = some B ∧
    (∀ m, alGet s.mappings m = some A → alGet s1.mappings m = some B) ∧
    (∀ (k2 : Nat) (r r' : Rnd) (s' : St), runIter k2 s1 r = .ok (s', r') →
      ∃ c, alGet s'.mappings A = some c ∧ alGet s'.mappings B = some c) := by
  obtain ⟨hevo, hg, he, hx, hskip, hmerge⟩ := remap_evo hinv hcanB hBpos hAB hok
  rcases Option.isSome_iff_exists.mp hlive with ⟨l, hl⟩
  obtain ⟨hA, _, _⟩ := hmerge l hl
  refine ⟨hA, ?_, ?_⟩
  · intro m hm
    obtain ⟨b, hmb, hAb⟩ := hevo.maps m A hm
    rw [hA] at hAb
    rcases Option.some.inj hAb with rfl
    exact hmb
  · intro k2 r r' s' hrun
    have hevo2 := runIter_evo hevo.inv hrun
    exact hevo2.maps A B hA

/-- A small two-tree state used by witnesses. -/
def sW : St :=
  { width := 9, height := 9, rate := 1, strategy := .FULL,
    grid := mkGrid 9 9, mappings := [(1, 1), (2, 2)],
    trees := [(1, [((2 : Int), (2 : Int))]), (2, [((4 : Int), (4 : Int))])],
    entry := none, exit := none }

theorem sW_inv : Inv sW := by
  refine ⟨⟨by decide, by decide⟩, by decide, by decide, by decide, by decide,
    by decide, ?_, ?_⟩
  · intro q hq
    exact Option.noConfusion hq
  · intro q hq
    exact Option.noConfusion hq

/-- Witness for C5: merging tree 1 into tree 2 remaps id 1 to 2. -/
theorem c5_merge_closure_witness :
    ∃ s1, remap sW 1 2 = .ok s1 ∧ alGet s1.mappings 1 = some 2 := by
  cases hr : remap sW 1 2 with
  | error e =>
    have hisok : (remap sW 1 2).isOk = true := by decide
    rw [hr] at hisok
    cases hisok
  | ok s1 =>
    have h := c5_merge_closure sW_inv (by decide) (by decide) (by decide)
      (by decide) hr
    exact ⟨s1, rfl, h.1⟩

/-- C6: occupancy is monotone: across the whole run so far and across any
further single iteration, the occupied-cell count never decreases and no
occupied cell is ever erased back to 0. -/
theorem c6_monotone_occupancy {w h n : Nat} {rate : ℚ}
    {strat : BranchingStrategy} {r0 r1 r r2 r3 r4 : Rnd} {s0 s s' : St}
    {k : Nat}
    (hinit : squareMazeInit w h n rate strat r0 = .ok (s0, r1))
    (hrun : runIter k s0 r = .ok (s, r2))
    (hstep : buildIteration s r3 = .ok (s', r4)) :
    (occCount s0 ≤ occCount s ∧ occCount s ≤ occCount s') ∧
    (∀ x y, cellAt s0 x y ≠ 0 → cellAt s x y ≠ 0) ∧
    (∀ x y, cellAt s x y ≠ 0 → cellAt s' x y ≠ 0) := by
  have hinv0 := (squareMazeInit_inv hinit).1
  have hevo := runIter_evo hinv0 hrun
  have hevo2 := buildIteration_evo_gen hevo.inv hstep
  exact ⟨⟨occCount_mono hevo.w hevo.h hevo.grid,
    occCount_mono hevo2.w hevo2.h hevo2.grid⟩, hevo.grid, hevo2.grid⟩

/-- Witness for C6 on the 9×9 construction. -/
theorem c6_monotone_occupancy_witness :
    ∃ s0 r1 s' r4, squareMazeInit 9 9 1 rHalf .FULL c2rnd = .ok (s0, r1) ∧
      buildIteration s0 c2rnd = .ok (s', r4) ∧ occCount s0 ≤ occCount s' := by
  cases hin : squareMazeInit 9 9 1 rHalf .FULL c2rnd with
  | error e =>
    have hisok : (squareMazeInit 9 9 1 rHalf .FULL c2rnd).isOk = true := by
      decide
    rw [hin] at hisok
    cases hisok
  | ok p =>
    obtain ⟨s0, r1⟩ := p
    have hs0 : s0 = c2s := by
      have hst : stOf (squareMazeInit 9 9 1 rHalf .FULL c2rnd) = c2s := rfl
      rw [hin] at hst
      exact hst
    subst hs0
    cases hb : buildIteration c2s c2rnd with
    | error e =>
      have hisok2 : (buildIteration c2s c2rnd).isOk = true := by decide
      rw [hb] at hisok2
      cases hisok2
    | ok q =>
      obtain ⟨s', r4⟩ := q
      have h := c6_monotone_occupancy hin
        (show runIter 0 c2s c2rnd = .ok (c2s, c2rnd) from rfl) hb
      exact ⟨c2s, r1, s', r4, rfl, hb, h.1.2⟩

/-! ## C1: the growth-loop KeyError -/

/-- C1: the spec promises the growth loop raises no runtime errors, but a
growth front colliding with the cells of a tree that has already been
removed from the live-tree set raises `KeyError` inside `__remap`
(`self.__trees[tree2] += self.__trees[tree1]`): this 19×19 two-tree
full-rate run constructs successfully and crashes on iteration 15. -/
theorem c1_growth_keyerror :
    (squareMazeInit 19 19 2 1 .RANDOM c1rnd).isOk = true ∧
    erredKey (runState 15 c1s c1r) 1 = true :=
  ⟨by decide, by decide⟩

/-! ## C4: the 3-cell window guarantee -/

/-- C4 (amended): the no-overlap guarantee holds at activation time, for
both the column and the row join check. When the check reports the window
free, the three window cells are unoccupied and nothing changed; when it
reports a collision, either the first occupied window cell already
resolves to the current tree (state unchanged), or — with the current
tree still live — both ids are unified under one canonical id and the two
bridge cells are painted. -/
theorem c4_amended_window_join {s : St} {x y : Int} {tree : Nat}
    {inc : Int} (hinv : Inv s) (htree : 1 ≤ tree)
    (hlive : (alGet s.trees tree).isSome = true) :
    (∀ (s1 : St) (b : Bool),
      ((x.toNat, (y + inc).toNat) : Nat × Nat) ≠
        (x.toNat, (y + 2 * inc).toNat) →
      check_and_join_col s x y tree inc = .ok (s1, b) →
      (b = true → s1 = s ∧
        cellAt s (x - 1).toNat (y + 2 * inc).toNat = 0 ∧
        cellAt s x.toNat (y + 2 * inc).toNat = 0 ∧
        cellAt s (x + 1).toNat (y + 2 * inc).toNat = 0) ∧
      (b = false →
        firstOcc [cellAt s (x - 1).toNat (y + 2 * inc).toNat,
            cellAt s x.toNat (y + 2 * inc).toNat,
            cellAt s (x + 1).toNat (y + 2 * inc).toNat] ≠ 0 ∧
        ((alGet s.mappings
            (firstOcc [cellAt s (x - 1).toNat (y + 2 * inc).toNat,
              cellAt s x.toNat (y + 2 * inc).toNat,
              cellAt s (x + 1).toNat (y + 2 * inc).toNat])).getD tree = tree →
          s1 = s) ∧
        ((alGet s.mappings
            (firstOcc [cellAt s (x - 1).toNat (y + 2 * inc).toNat,
              cellAt s x.toNat (y + 2 * inc).toNat,
              cellAt s (x + 1).toNat (y + 2 * inc).toNat])).getD tree ≠ tree →
          ∃ c, alGet s1.mappings tree = some c ∧
            alGet s1.mappings
              ((alGet s.mappings
                (firstOcc [cellAt s (x - 1).toNat (y + 2 * inc).toNat,
                  cellAt s x.toNat (y + 2 * inc).toNat,
                  cellAt s (x + 1).toNat (y + 2 * inc).toNat])).getD tree) =
              some c ∧
            cellAt s1 x.toNat (y + inc).toNat = tree ∧
            cellAt s1 x.toNat (y + 2 * inc).toNat = tree))) ∧
    (∀ (s1 : St) (b : Bool),
      (((x + inc).toNat, y.toNat) : Nat × Nat) ≠
        ((x + 2 * inc).toNat, y.toNat) →
      check_and_join_row s x y tree inc = .ok (s1, b) →
      (b = true → s1 = s ∧
        cellAt s (x + 2 * inc).toNat (y - 1).toNat = 0 ∧
        cellAt s (x + 2 * inc).toNat y.toNat = 0 ∧
        cellAt s (x + 2 * inc).toNat (y + 1).toNat = 0) ∧
      (b = false →
        firstOcc [cellAt s (x + 2 * inc).toNat (y - 1).toNat,
            cellAt s (x + 2 * inc).toNat y.toNat,
            cellAt s (x + 2 * inc).toNat (y + 1).toNat] ≠ 0 ∧
        ((alGet s.mappings
            (firstOcc [cellAt s (x + 2 * inc).toNat (y - 1).toNat,
              cellAt s (x + 2 * inc).toNat y.toNat,
              cellAt s (x + 2 * inc).toNat (y + 1).toNat])).getD tree = tree →
          s1 = s) ∧
        ((alGet s.mappings
            (firstOcc [cellAt s (x + 2 * inc).toNat (y - 1).toNat,
              cellAt s (x + 2 * inc).toNat y.toNat,
              cellAt s (x + 2 * inc).toNat (y + 1).toNat])).getD tree ≠ tree →
          ∃ c, alGet s1.mappings tree = some c ∧
            alGet s1.mappings
              ((alGet s.mappings
                (firstOcc [cellAt s (x + 2 * inc).toNat (y - 1).toNat,
                  cellAt s (x + 2 * inc).toNat y.toNat,
                  cellAt s (x + 2 * inc).toNat (y + 1).toNat])).getD tree) =
              some c ∧
            cellAt s1 (x + inc).toNat y.toNat = tree ∧
            cellAt s1 (x + 2 * inc).toNat y.toNat = tree))) := by
  constructor
  · intro s1 b hbb hok
    unfold check_and_join_col at hok
    rw [bind_eq_ok] at hok
    obtain ⟨m1, h1, hok⟩ := hok
    rw [bind_eq_ok] at hok
    obtain ⟨m2, h2, hok⟩ := hok
    rw [bind_eq_ok] at hok
    obtain ⟨m3, h3, hok⟩ := hok
    obtain ⟨hb1, hv1⟩ := readCell_ok h1
    obtain ⟨hb2, hv2⟩ := readCell_ok h2
    obtain ⟨hb3, hv3⟩ := readCell_ok h3
    subst hv1
    subst hv2
    subst hv3
    constructor
    · intro hbt
      rw [hbt] at hok
      obtain ⟨hs, hall⟩ := joinScan_true_zero hok
      refine ⟨hs, ?_, ?_, ?_⟩
      · exact hall _ (by simp)
      · exact hall _ (by simp)
      · exact hall _ (by simp)
    · intro hbf
      rw [hbf] at hok
      exact joinScan_collision hbb hinv htree hlive hok
  · intro s1 b hbb hok
    unfold check_and_join_row at hok
    rw [bind_eq_ok] at hok
    obtain ⟨m1, h1, hok⟩ := hok
    rw [bind_eq_ok] at hok
    obtain ⟨m2, h2, hok⟩ := hok
    rw [bind_eq_ok] at hok
    obtain ⟨m3, h3, hok⟩ := hok
    obtain ⟨hb1, hv1⟩ := readCell_ok h1
    obtain ⟨hb2, hv2⟩ := readCell_ok h2
    obtain ⟨hb3, hv3⟩ := readCell_ok h3
    subst hv1
    subst hv2
    subst hv3
    constructor
    · intro hbt
      rw [hbt] at hok
      obtain ⟨hs, hall⟩ := joinScan_true_zero hok
      refine ⟨hs, ?_, ?_, ?_⟩
      · exact hall _ (by simp)
      · exact hall _ (by simp)
      · exact hall _ (by simp)
    · intro hbf
      rw [hbf] at hok
      exact joinScan_collision hbb hinv htree hlive hok

/-- Witness for the amended C4: both the column and the row join check on
a free window of the two-tree state. -/
theorem c4_amended_window_join_witness :
    ∃ s1 b s2 b2, check_and_join_col sW 4 4 2 1 = .ok (s1, b) ∧
      (b = true → s1 = sW ∧
        cellAt sW ((4 : Int) - 1).toNat ((4 : Int) + 2 * 1).toNat = 0 ∧
        cellAt sW (4 : Int).toNat ((4 : Int) + 2 * 1).toNat = 0 ∧
        cellAt sW ((4 : Int) + 1).toNat ((4 : Int) + 2 * 1).toNat = 0) ∧
      check_and_join_row sW 4 4 2 1 = .ok (s2, b2) ∧
      (b2 = true → s2 = sW ∧
        cellAt sW ((4 : Int) + 2 * 1).toNat ((4 : Int) - 1).toNat = 0 ∧
        cellAt sW ((4 : Int) + 2 * 1).toNat (4 : Int).toNat = 0 ∧
        cellAt sW ((4 : Int) + 2 * 1).toNat ((4 : Int) + 1).toNat = 0) := by
  cases hcj : check_and_join_col sW 4 4 2 1 with
  | error e =>
    have hisok : (check_and_join_col sW 4 4 2 1).isOk = true := by decide
    rw [hcj] at hisok
    cases hisok
  | ok p =>
    obtain ⟨s1, b⟩ := p
    cases hrj : check_and_join_row sW 4 4 2 1 with
    | error e =>
      have hisok2 : (check_and_join_row sW 4 4 2 1).isOk = true := by decide
      rw [hrj] at hisok2
      cases hisok2
    | ok q =>
      obtain ⟨s2, b2⟩ := q
      refine ⟨s1, b, s2, b2, rfl, ?_, rfl, ?_⟩
      · exact ((c4_amended_window_join sW_inv (by decide) (by decide)).1
          s1 b (by decide) hcj).1
      · exact ((c4_amended_window_join sW_inv (by decide) (by decide)).2
          s2 b2 (by decide) hrj).1

/-- C4 as stated is false: after five iterations of this 14×14 two-tree
run, the cells (2,7) and (4,7) — both inside the 3-cell column window
centred at (3,7) — hold trees with different canonical ids, with no merge
unifying them. -/
theorem c4_counterexample :
    (squareMazeInit 14 14 2 rHalf .PARTIAL c4rnd).isOk = true ∧
    (runIter 5 c4s c4r).isOk = true ∧
    cellAt (stOf (runIter 5 c4s c4r)) 2 7 ≠ 0 ∧
    cellAt (stOf (runIter 5 c4s c4r)) 4 7 ≠ 0 ∧
    canonAt (stOf (runIter 5 c4s c4r)) 2 7 ≠
      canonAt (stOf (runIter 5 c4s c4r)) 4 7 :=
  ⟨by decide, by decide, by decide, by decide, by decide⟩

/-! ## C10: no out-of-range grid access -/

/-- The computation does not abort with an out-of-range numpy access. -/
def NotIdx {α : Type} (m : Except Err α) : Prop := m ≠ .error .idxError

theorem notIdx_ok {α : Type} (a : α) : NotIdx (.ok a : Except Err α) := by
  intro hc
  cases hc

theorem notIdx_keyError {α : Type} (t : Nat) :
    NotIdx (.error (.keyError t) : Except Err α) := by
  intro hc
  have := Except.error.inj hc
  cases this

theorem notIdx_bind {α β : Type} {m : Except Err α} {f : α → Except Err β}
    (h1 : NotIdx m) (h2 : ∀ a, m = .ok a → NotIdx (f a)) :
    NotIdx (m >>= f) := by
  cases m with
  | ok a =>
    rw [ok_bind]
    exact h2 a rfl
  | error e =>
    rw [error_bind]
    intro hc
    exact h1 (congrArg Except.error (Except.error.inj hc))

theorem inB_iff {s : St} {x y : Int} :
    inB s x y = true ↔
      0 ≤ x ∧ x < (s.width : Int) ∧ 0 ≤ y ∧ y < (s.height : Int) := by
  unfold inB
  simp [Bool.and_eq_true, decide_eq_true_eq, and_assoc]

theorem remap_notIdx (s : St) (t1 t2 : Nat) : NotIdx (remap s t1 t2) := by
  unfold remap
  cases alGet s.trees t1 with
  | none => exact notIdx_ok s
  | some l1 =>
    cases alGet s.trees t2 with
    | none => exact notIdx_keyError t2
    | some l2 => exact notIdx_ok _

theorem joinScan_notIdx {tree : Nat} {bx1 by1 bx2 by2 : Int} :
    ∀ (ms : List Nat) (s : St), inB s bx1 by1 = true →
      inB s bx2 by2 = true → NotIdx (joinScan s tree bx1 by1 bx2 by2 ms)
  | [], s, hb1, hb2 => by
      unfold joinScan
      exact notIdx_ok _
  | m :: rest, s, hb1, hb2 => by
      unfold joinScan
      by_cases hm : m = 0
      · rw [if_pos (by simp [hm])]
        exact joinScan_notIdx rest s hb1 hb2
      · rw [if_neg (by simp [hm])]
        by_cases hmain : (alGet s.mappings m).getD tree ≠ tree
        · rw [if_pos hmain]
          rw [writeCell_ok_of_inB hb1, ok_bind]
          have hb2a : inB { s with
              grid := setCell s.grid bx1.toNat by1.toNat tree } bx2 by2 =
              true := hb2
          rw [writeCell_ok_of_inB hb2a, ok_bind]
          refine notIdx_bind (remap_notIdx _ _ _) ?_
          intro a ha
          exact notIdx_ok _
        · rw [if_neg hmain]
          exact notIdx_ok _

theorem check_and_join_row_notIdx {s : St} {x y : Int} {tree : Nat}
    {inc : Int} (h1 : inB s (x + 2 * inc) (y - 1) = true)
    (h2 : inB s (x + 2 * inc) y = true)
    (h3 : inB s (x + 2 * inc) (y + 1) = true)
    (hb1 : inB s (x + inc) y = true) :
    NotIdx (check_and_join_row s x y tree inc) := by
  unfold check_and_join_row
  rw [readCell_total h1, ok_bind, readCell_total h2, ok_bind,
    readCell_total h3, ok_bind]
  exact joinScan_notIdx _ s hb1 h2

theorem check_and_join_col_notIdx {s : St} {x y : Int} {tree : Nat}
    {inc : Int} (h1 : inB s (x - 1) (y + 2 * inc) = true)
    (h2 : inB s x (y + 2 * inc) = true)
    (h3 : inB s (x + 1) (y + 2 * inc) = true)
    (hb1 : inB s x (y + inc) = true) :
    NotIdx (check_and_join_col s x y tree inc) := by
  unfold check_and_join_col
  rw [readCell_total h1, ok_bind, readCell_total h2, ok_bind,
    readCell_total h3, ok_bind]
  exact joinScan_notIdx _ s hb1 h2

theorem rowCheck1_notIdx {s : St} {x y : Int} (tree : Nat)
    (hx : 1 ≤ x ∧ x + 2 ≤ (s.width : Int) - 1)
    (hy : 1 ≤ y ∧ y ≤ (s.height : Int) - 2) :
    NotIdx (rowCheck1 s x y tree) := by
  unfold rowCheck1
  obtain ⟨cr, hcr⟩ := check_row_total (x := x + 1) (y := y)
    ((inB_iff (s := s)).mpr (by omega)) ((inB_iff (s := s)).mpr (by omega))
    ((inB_iff (s := s)).mpr (by omega))
  rw [hcr, ok_bind]
  cases cr with
  | false =>
    rw [if_neg (by simp)]
    exact notIdx_ok _
  | true =>
    rw [if_pos rfl]
    refine notIdx_bind (check_and_join_row_notIdx ((inB_iff (s := s)).mpr (by omega))
      ((inB_iff (s := s)).mpr (by omega)) ((inB_iff (s := s)).mpr (by omega))
      ((inB_iff (s := s)).mpr (by omega))) ?_
    intro a ha
    exact notIdx_ok _

theorem rowCheck2_notIdx {s : St} {x y : Int} (tree : Nat) (sl0 : List Pos)
    (hx : 1 < x ∧ x ≤ (s.width : Int) - 2)
    (hy : 1 ≤ y ∧ y ≤ (s.height : Int) - 2) :
    NotIdx (rowCheck2 s x y tree sl0) := by
  unfold rowCheck2
  obtain ⟨cr, hcr⟩ := check_row_total (x := x - 1) (y := y)
    ((inB_iff (s := s)).mpr (by omega)) ((inB_iff (s := s)).mpr (by omega))
    ((inB_iff (s := s)).mpr (by omega))
  rw [hcr, ok_bind]
  cases cr with
  | false =>
    rw [if_neg (by simp)]
    exact notIdx_ok _
  | true =>
    rw [if_pos rfl]
    refine notIdx_bind (check_and_join_row_notIdx ((inB_iff (s := s)).mpr (by omega))
      ((inB_iff (s := s)).mpr (by omega)) ((inB_iff (s := s)).mpr (by omega))
      ((inB_iff (s := s)).mpr (by omega))) ?_
    intro a ha
    exact notIdx_ok _

theorem colCheck1_notIdx {s : St} {x y : Int} (tree : Nat) (sl0 : List Pos)
    (hx : 1 ≤ x ∧ x ≤ (s.width : Int) - 2)
    (hy : 1 ≤ y ∧ y ≤ (s.height : Int) - 2) :
    NotIdx (colCheck1 s x y tree sl0) := by
  unfold colCheck1
  by_cases hy2 : y + 2 < (s.height : Int)
  · rw [if_pos hy2]
    obtain ⟨cc, hcc⟩ := check_col_total (x := x) (y := y + 1)
      ((inB_iff (s := s)).mpr (by omega)) ((inB_iff (s := s)).mpr (by omega))
      ((inB_iff (s := s)).mpr (by omega))
    rw [hcc, ok_bind]
    cases cc with
    | false =>
      rw [if_neg (by simp)]
      exact notIdx_ok _
    | true =>
      rw [if_pos rfl]
      refine notIdx_bind (check_and_join_col_notIdx ((inB_iff (s := s)).mpr (by omega))
        ((inB_iff (s := s)).mpr (by omega)) ((inB_iff (s := s)).mpr (by omega))
        ((inB_iff (s := s)).mpr (by omega))) ?_
      intro a ha
      exact notIdx_ok _
  · rw [if_neg hy2]
    exact notIdx_ok _

theorem colCheck2_notIdx {s : St} {x y : Int} (tree : Nat) (sl0 : List Pos)
    (hx : 1 ≤ x ∧ x ≤ (s.width : Int) - 2)
    (hy : 1 ≤ y ∧ y ≤ (s.height : Int) - 2) :
    NotIdx (colCheck2 s x y tree sl0) := by
  unfold colCheck2
  by_cases hy1 : y > 1
  · rw [if_pos hy1]
    obtain ⟨cc, hcc⟩ := check_col_total (x := x) (y := y - 1)
      ((inB_iff (s := s)).mpr (by omega)) ((inB_iff (s := s)).mpr (by omega))
      ((inB_iff (s := s)).mpr (by omega))
    rw [hcc, ok_bind]
    cases cc with
    | false =>
      rw [if_neg (by simp)]
      exact notIdx_ok _
    | true =>
      rw [if_pos rfl]
      refine notIdx_bind (check_and_join_col_notIdx ((inB_iff (s := s)).mpr (by omega))
        ((inB_iff (s := s)).mpr (by omega)) ((inB_iff (s := s)).mpr (by omega))
        ((inB_iff (s := s)).mpr (by omega))) ?_
      intro a ha
      exact notIdx_ok _
  · rw [if_neg hy1]
    exact notIdx_ok _

theorem colChecks_notIdx {s : St} {x y : Int} {tree : Nat} {sl0 : List Pos}
    (hx : 1 ≤ x ∧ x ≤ (s.width : Int) - 2)
    (hy : 1 ≤ y ∧ y ≤ (s.height : Int) - 2)
    (hinv : Inv s) (htree : 1 ≤ tree)
    (hsl0 : ∀ p ∈ sl0, Bnds s p ∧ cellAt s p.1.toNat p.2.toNat = 0)
    (hsep : ∀ p ∈ sl0, p.1.toNat ≠ x.toNat) :
    NotIdx (colChecks s x y tree sl0) := by
  unfold colChecks
  refine notIdx_bind (colCheck1_notIdx tree sl0 hx hy) ?_
  intro a ha
  obtain ⟨s1, slots1⟩ := a
  obtain ⟨hevo1, _, _, _, _⟩ := colCheck1_evo hinv htree hx hy hsl0 hsep ha
  exact colCheck2_notIdx tree slots1 (by rw [hevo1.w]; exact hx)
    (by rw [hevo1.h]; exact hy)

theorem free_spots_notIdx {s : St} {x y : Int} {tree : Nat}
    (hinv : Inv s) (htree : 1 ≤ tree)
    (hx : 1 ≤ x ∧ x ≤ (s.width : Int) - 2)
    (hy : 1 ≤ y ∧ y ≤ (s.height : Int) - 2) :
    NotIdx (free_spots s (x, y) tree) := by
  unfold free_spots
  dsimp only []
  by_cases hedge : x + 2 = (s.width : Int)
  · rw [if_pos (beq_iff_eq.mpr hedge)]
    cases hex : s.exit with
    | none =>
      rw [if_pos (show (none : Option Pos).isNone = true from rfl)]
      rw [writeCell_ok_of_inB (x := x + 1) (y := y) (v := tree)
        (inB_iff.mpr (by omega)), ok_bind]
      exact notIdx_ok _
    | some q =>
      rw [if_neg (by simp)]
      exact notIdx_ok _
  · rw [if_neg (by simpa using hedge)]
    have hx1 : 1 ≤ x ∧ x + 2 ≤ (s.width : Int) - 1 := ⟨hx.1, by omega⟩
    refine notIdx_bind (rowCheck1_notIdx tree hx1 hy) ?_
    intro a ha
    obtain ⟨s1, slots1⟩ := a
    obtain ⟨hevo1, hent1, hext1, hprog1, hsl1⟩ := rowCheck1_evo hinv htree hx1 hy ha
    by_cases hxgt : x > 1
    · rw [if_pos hxgt]
      refine notIdx_bind (rowCheck2_notIdx tree slots1
        ⟨hxgt, by rw [hevo1.w]; exact hx.2⟩ (by rw [hevo1.h]; exact hy)) ?_
      intro a2 ha2
      obtain ⟨s2, slots2⟩ := a2
      obtain ⟨hevo2, _, _, _, hsl2⟩ := rowCheck2_evo hevo1.inv htree hxgt
        (by rw [hevo1.w]; exact hx.2) (by rw [hevo1.h]; exact hy)
        (fun p hp => ⟨(hsl1 p hp).1,
          bnds_congr hevo1.w hevo1.h (hsl1 p hp).2.1, (hsl1 p hp).2.2⟩) ha2
      exact colChecks_notIdx
        (by rw [hevo2.w, hevo1.w]; exact hx)
        (by rw [hevo2.h, hevo1.h]; exact hy) hevo2.inv htree
        (fun p hp => ⟨bnds_congr hevo2.w hevo2.h (hsl2 p hp).1,
          (hsl2 p hp).2.1⟩)
        (fun p hp => (hsl2 p hp).2.2)
    · rw [if_neg hxgt]
      cases hent : s1.entry with
      | none =>
        rw [if_pos (show (none : Option Pos).isNone = true from rfl)]
        rw [writeCell_ok_of_inB (x := (0 : Int)) (y := y) (v := tree)
          (inB_iff.mpr (by
            constructor
            · omega
            refine ⟨?_, ?_, ?_⟩
            · rw [hevo1.w]
              omega
            · omega
            · rw [hevo1.h]
              omega)), ok_bind]
        exact notIdx_ok _
      | some q =>
        rw [if_neg (by simp)]
        exact colChecks_notIdx (by rw [hevo1.w]; exact hx)
          (by rw [hevo1.h]; exact hy) hevo1.inv htree
          (fun p hp => ⟨bnds_congr hevo1.w hevo1.h (hsl1 p hp).2.1,
            (hsl1 p hp).2.2⟩)
          (fun p hp => by
            have hpe := (hsl1 p hp).1
            rw [hpe]
            simp only
            omega)

theorem branch_out_notIdx {s : St} {x y : Int} {tree : Nat} (r : Rnd)
    (hinv : Inv s) (htree : 1 ≤ tree)
    (hx : 1 ≤ x ∧ x ≤ (s.width : Int) - 2)
    (hy : 1 ≤ y ∧ y ≤ (s.height : Int) - 2) :
    NotIdx (branch_out s (x, y) tree r) := by
  unfold branch_out
  refine notIdx_bind (free_spots_notIdx hinv htree hx hy) ?_
  intro a ha
  obtain ⟨s1, spots⟩ := a
  dsimp only
  obtain ⟨hevo1, hprog1, hsl1⟩ := free_spots_evo hinv htree hx hy ha
  cases hnb : new_branches s1 spots r with
  | mk mv r1 =>
    dsimp only
    have hmem : ∀ p ∈ mv, p ∈ spots := by
      intro p hp
      have hnbm := new_branches_mem s1 spots r
      rw [hnb] at hnbm
      exact hnbm p hp
    have hball : ∀ p ∈ mv, inB s1 p.1 p.2 = true := by
      intro p hp
      have hb := (hsl1 p (hmem p hp)).1
      unfold Bnds at hb
      refine inB_iff.mpr ?_
      rw [hevo1.w, hevo1.h]
      omega
    obtain ⟨s2, hact, _⟩ := activateList_ok_of_bounds (t := tree)
      hevo1.inv.dims hball
    rw [hact, ok_bind]
    exact notIdx_ok _

theorem processBranch_notIdx {s : St} {tree i : Nat} (r : Rnd)
    (heads : List Pos) (hinv : Inv s) (htree : 1 ≤ tree)
    (hbr : alGet s.trees tree = none ∨
      ∃ br, alGet s.trees tree = some br ∧ i < br.length) :
    NotIdx (processBranch s tree i r heads) := by
  unfold processBranch
  rcases hbr with hget | ⟨br, hget, hlen⟩
  · rw [hget]
    exact notIdx_ok _
  · rw [hget]
    dsimp only
    by_cases hemp : br.isEmpty = true
    · rw [if_pos hemp]
      exact notIdx_ok _
    · rw [if_neg hemp]
      cases hdg : drawGate r with
      | mk q r1 =>
        dsimp only
        by_cases hq : q < s.rate
        · rw [if_pos hq]
          have hmem_tree : (tree, br) ∈ s.trees := alGet_mem hget
          have hinvS1 : Inv { s with
              trees := alSet s.trees tree (br.eraseIdx i) } := by
            refine ⟨⟨hinv.dims.1, hinv.dims.2⟩, ?_, ?_, hinv.mkeys,
              hinv.flat, ?_, hinv.ent, hinv.ext⟩
            · intro p hp q' hq'
              rcases mem_alSet hp with hmem | rfl
              · exact hinv.tpos p hmem q' hq'
              · exact hinv.tpos (tree, br) hmem_tree q'
                  ((List.eraseIdx_sublist br i).subset hq')
            · intro p hp
              rcases mem_alSet hp with hmem | rfl
              · exact hinv.tkeys p hmem
              · exact htree
            · intro p hp
              rcases mem_alSet hp with hmem | rfl
              · exact hinv.livecan p hmem
              · exact hinv.livecan (tree, br) hmem_tree
          have hpos_mem : br.getD i ((0 : Int), (0 : Int)) ∈ br := by
            rw [List.getD_eq_getElem?_getD, List.getElem?_eq_getElem hlen]
            exact List.getElem_mem hlen
          have hpos_b := hinv.tpos (tree, br) hmem_tree _ hpos_mem
          cases hpos : br.getD i ((0 : Int), (0 : Int)) with
          | mk px py =>
            rw [hpos] at hpos_b
            refine notIdx_bind (branch_out_notIdx r1 hinvS1 htree
              ⟨hpos_b.1, hpos_b.2.1⟩ ⟨hpos_b.2.2.1, hpos_b.2.2.2⟩) ?_
            intro a ha
            exact notIdx_ok _
        · rw [if_neg hq]
          exact notIdx_ok _

theorem loopBranches_notIdx {tree : Nat} (htree : 1 ≤ tree) :
    ∀ (j : Nat) (s : St) (r : Rnd) (heads : List Pos), Inv s →
      (alGet s.trees tree = none ∨
        ∃ br, alGet s.trees tree = some br ∧ j ≤ br.length) →
      NotIdx (loopBranches tree j s r heads)
  | 0, s, r, heads, hinv, hfr => by
      unfold loopBranches
      exact notIdx_ok _
  | j + 1, s, r, heads, hinv, hfr => by
      unfold loopBranches
      have hbr : alGet s.trees tree = none ∨
          ∃ br, alGet s.trees tree = some br ∧ j < br.length := by
        rcases hfr with hn | ⟨br, hbr2, hl⟩
        · exact Or.inl hn
        · exact Or.inr ⟨br, hbr2, by omega⟩
      refine notIdx_bind (processBranch_notIdx r heads hinv htree hbr) ?_
      intro a ha
      obtain ⟨s1, r1, h1⟩ := a
      obtain ⟨hevo1, _, hfront1⟩ := processBranch_evo_gen hinv htree hbr ha
      exact loopBranches_notIdx htree j s1 r1 h1 hevo1.inv hfront1

theorem processTree_notIdx {s : St} {tree : Nat} (r : Rnd) (hinv : Inv s)
    (htree : 1 ≤ tree) : NotIdx (processTree s tree r) := by
  unfold processTree
  cases hget : alGet s.trees tree with
  | none => exact notIdx_keyError tree
  | some branches =>
    dsimp only
    refine notIdx_bind (loopBranches_notIdx htree branches.length s r []
      hinv (Or.inr ⟨branches, hget, le_refl _⟩)) ?_
    intro a ha
    obtain ⟨s1, r1, heads⟩ := a
    cases alGet s1.mappings tree with
    | none => exact notIdx_keyError tree
    | some mt =>
      dsimp only
      cases alGet s1.trees mt with
      | none => exact notIdx_keyError mt
      | some lst =>
        dsimp only
        cases (lst ++ heads).isEmpty with
        | true =>
          rw [if_pos rfl]
          exact notIdx_ok _
        | false =>
          rw [if_neg (by simp)]
          exact notIdx_ok _

theorem loopTrees_notIdx :
    ∀ (ts : List Nat) (s : St) (r : Rnd), Inv s → (∀ t ∈ ts, 1 ≤ t) →
      NotIdx (loopTrees s ts r)
  | [], s, r, hinv, hts => by
      unfold loopTrees
      exact notIdx_ok _
  | t :: ts, s, r, hinv, hts => by
      unfold loopTrees
      refine notIdx_bind (processTree_notIdx r hinv
        (hts t (List.mem_cons_self t ts))) ?_
      intro a ha
      obtain ⟨s1, r1⟩ := a
      have hevo1 := processTree_evo_gen hinv (hts t (List.mem_cons_self t ts)) ha
      exact loopTrees_notIdx ts s1 r1 hevo1.inv
        (fun u hu => hts u (List.mem_cons_of_mem t hu))

theorem buildIteration_notIdx {s : St} (r : Rnd) (hinv : Inv s) :
    NotIdx (buildIteration s r) := by
  unfold buildIteration
  refine loopTrees_notIdx _ s r hinv ?_
  intro t ht
  rcases List.mem_map.mp ht with ⟨p, hp, hpe⟩
  rw [← hpe]
  exact hinv.tkeys p hp

/-- C10: in every reachable state every frontier position is strictly
interior (1 ≤ x ≤ width-2, 1 ≤ y ≤ height-2), and consequently no growth
iteration from a reachable state ever aborts with an out-of-range grid
access: every read and write of the window checks addresses the true
width×height box. -/
theorem c10_frontier_interior {w h n : Nat} {rate : ℚ}
    {strat : BranchingStrategy} {r0 r1 r r2 : Rnd} {s0 s : St} {k : Nat}
    (hinit : squareMazeInit w h n rate strat r0 = .ok (s0, r1))
    (hrun : runIter k s0 r = .ok (s, r2)) :
    (∀ p ∈ s.trees, ∀ q ∈ p.2, 1 ≤ q.1 ∧ q.1 ≤ (w : Int) - 2 ∧
      1 ≤ q.2 ∧ q.2 ≤ (h : Int) - 2) ∧
    ∀ r3 : Rnd, buildIteration s r3 ≠ .error .idxError := by
  obtain ⟨hinv0, _, _, hw0, hh0, _, _, _, _⟩ := squareMazeInit_inv hinit
  have hevo := runIter_evo hinv0 hrun
  have hw : s.width = w := hevo.w.trans hw0
  have hh : s.height = h := hevo.h.trans hh0
  refine ⟨?_, fun r3 => buildIteration_notIdx r3 hevo.inv⟩
  intro p hp q hq
  have := hevo.inv.tpos p hp q hq
  rw [hw, hh] at this
  exact this

/-- Witness for C10 on the 9×9 construction. -/
theorem c10_frontier_interior_witness :
    ∃ s0 r1, squareMazeInit 9 9 1 rHalf .FULL c2rnd = .ok (s0, r1) ∧
      (∀ p ∈ s0.trees, ∀ q ∈ p.2, 1 ≤ q.1 ∧ q.1 ≤ (9 : Int) - 2 ∧
        1 ≤ q.2 ∧ q.2 ≤ (9 : Int) - 2) ∧
      buildIteration s0 c2rnd ≠ .error .idxError := by
  cases hin : squareMazeInit 9 9 1 rHalf .FULL c2rnd with
  | error e =>
    have hisok : (squareMazeInit 9 9 1 rHalf .FULL c2rnd).isOk = true := by
      decide
    rw [hin] at hisok
    cases hisok
  | ok p =>
    obtain ⟨s0, r1⟩ := p
    have h := c10_frontier_interior hin
      (show runIter 0 s0 c2rnd = .ok (s0, c2rnd) from rfl)
    exact ⟨s0, r1, rfl, h.1, h.2 c2rnd⟩

end MazeBuilder
